import Mathlib

/-!
# Hole-filling memory allocator (`src/C/MemoryHoleFillingAlgorithms.c`)

A shallow embedding of the C program.  The program keeps two doubly linked
lists of `struct LinkedList` nodes (allocated blocks and free holes) that are
reached through the global pointers `allocations`, `allocationsLast` and
`holes`.

Modelling conventions:

* the C heap is a list of cells; a pointer is `none` (NULL) or `some a` with
  `a` an index into the heap; `malloc` appends a cell (so it never hands out
  an address twice) and `free` empties the cell;
* dereferencing NULL or a freed cell is undefined behaviour in C; every
  function that dereferences returns `none` (a fault) in that case;
* `int` is a 32-bit machine integer.  Every operation with arithmetic is
  given twice: the definitions named after the C functions compute on `Int`
  exactly, which is what the program does as long as no sum or difference
  leaves the range of `int`; the definitions with the suffix `32` wrap every
  sum and difference of the code (`wrap32`) and are what the program does on
  all inputs;
* every `while` loop is a function that recurses on a fuel argument; the
  callers supply more fuel than any loop over an acyclic list can use, and a
  loop that runs out of fuel (a cyclic list) is reported as a fault;
* the `scanf` retry loops are modelled per attempt: an operation takes the
  values typed in one attempt and either rejects them (the user is asked
  again) or goes on.

The second program of the repository, `src/C/BankersAlgorithm.c`, is embedded
in the namespace `BankersAlgorithm` further down.
-/

set_option autoImplicit false

namespace MemoryHoleFilling

/-! ## Data model (lines 4-25) -/

/-- The C `struct Block`. -/
structure Block where
  id : Int
  addressStart : Int
  addressEnd : Int
deriving DecidableEq

/-- A C pointer to a list node: NULL or a heap address. -/
abbrev Ptr := Option Nat

/-- The C `struct LinkedList`. -/
structure LinkedList where
  last : Ptr
  block : Block
  next : Ptr
deriving DecidableEq

/-- The heap: cell `a` holds a node, or is `none` once freed. -/
abbrev Heap := List (Option LinkedList)

/-- The global variables of the program together with the heap. -/
structure State where
  heap : Heap
  pm_size : Int
  pm_allocated : Int
  holeFillingAlgorithm : Int
  allocations : Ptr
  allocationsLast : Ptr
  holes : Ptr
deriving DecidableEq

/-- The state at program start: C zero-initialises the globals. -/
def initialState : State :=
  { heap := [], pm_size := 0, pm_allocated := 0, holeFillingAlgorithm := 0,
    allocations := none, allocationsLast := none, holes := none }

/-- The error messages the program prints before asking again. -/
inductive Error where
  | InvalidConfiguration
  | NegativeId
  | DuplicateId
  | InvalidSize
  | InsufficientTotalMemory
  | NoFittingHole
  | UnknownId
deriving DecidableEq

/-- What one attempt at an operation does: it completes with a new state, it
prints error messages and asks again (the state at that point is recorded),
or it faults. -/
inductive Outcome where
  | ok (s : State)
  | rejected (errors : List Error) (s : State)
  | fault
deriving DecidableEq

/-! ## Heap primitives -/

/-- Read the node a pointer designates (`p->...`). -/
def getNode (h : Heap) (p : Ptr) : Option LinkedList :=
  match p with
  | none => none
  | some a =>
    match h[a]? with
    | some (some n) => some n
    | _ => none

/-- Update the node a pointer designates (`p->field = value`). -/
def setNode (h : Heap) (p : Ptr) (f : LinkedList → LinkedList) : Option Heap :=
  match p with
  | none => none
  | some a =>
    match getNode h (some a) with
    | some n => some (h.set a (some (f n)))
    | none => none

/-- The C `malloc` followed by the initialisation of the new node. -/
def malloc (h : Heap) (n : LinkedList) : Heap × Nat :=
  (h ++ [some n], h.length)

/-- The C `free` of a non-NULL pointer. -/
def free (h : Heap) (a : Nat) : Option Heap :=
  match getNode h (some a) with
  | some _ => some (h.set a none)
  | none => none

/-- Fuel for a loop that walks a list once. -/
def walkFuel (h : Heap) : Nat := h.length + 1

/-! ## `DeallocateLinkedList` (lines 28-40) -/

/-- Frees the node and, before that, every node after it. -/
def DeallocateLinkedList : Nat → Heap → Ptr → Option Heap
  | _, h, none => some h
  | 0, _, some _ => none
  | fuel + 1, h, some a =>
    match getNode h (some a) with
    | none => none
    | some n =>
      match DeallocateLinkedList fuel h n.next with
      | none => none
      | some h1 => free h1 a

/-! ## `TakeParameters` (lines 42-95) -/

/-- One attempt at entering the parameters.  `scanf` stores each value in the
global before it is checked.  The `id` of the new hole node is never written
nor read by the program; it is 0 here. -/
def TakeParameters (s : State) (size algorithm : Int) : Outcome :=
  let s1 := { s with pm_size := size }
  if size ≤ 0 then Outcome.rejected [Error.InvalidConfiguration] s1
  else
    let s2 := { s1 with holeFillingAlgorithm := algorithm }
    if algorithm ≠ 0 ∧ algorithm ≠ 1 then Outcome.rejected [Error.InvalidConfiguration] s2
    else
      let m := malloc s2.heap
        { last := none, block := { id := 0, addressStart := 0, addressEnd := size }, next := none }
      Outcome.ok { s2 with pm_allocated := 0, heap := m.1, holes := some m.2 }

/-! ## `PrintAllocationTable` (lines 97-120) -/

/-- The rows printed: the walk over the allocation list. -/
def PrintAllocationTable : Nat → Heap → Ptr → Option (List Block)
  | _, _, none => some []
  | 0, _, some _ => none
  | fuel + 1, h, some a =>
    match getNode h (some a) with
    | none => none
    | some n =>
      if n.block.id = -1 then some []
      else
        match PrintAllocationTable fuel h n.next with
        | none => none
        | some rows => some (n.block :: rows)

/-- The end of an operation: print the table, then return. -/
def printAndReturn (s : State) : Outcome :=
  match PrintAllocationTable (walkFuel s.heap) s.heap s.allocations with
  | none => Outcome.fault
  | some _ => Outcome.ok s

/-! ## Ordered insertion (lines 145-187 and 434-475)

The two insertion loops of the program are the same code up to the names of
the variables; `appended` records that the append branch ran (where the
allocation loop also updates `allocationsLast`). -/

/-- Result of an insertion loop. -/
structure Inserted where
  heap : Heap
  head : Ptr
  appended : Bool
deriving DecidableEq

/-- The insertion loop: `head` is the list pointer (`allocations` or `holes`),
`nw` the new node and the last argument the iterator. -/
def insertLoop : Nat → Heap → Ptr → Nat → Ptr → Option Inserted
  | _, h, head, _, none => some { heap := h, head := head, appended := false }
  | 0, _, _, _, some _ => none
  | fuel + 1, h, head, nw, some c =>
    match getNode h (some nw), getNode h (some c) with
    | some newN, some cn =>
      if newN.block.addressEnd ≤ cn.block.addressStart then
        -- put the new node in front of the current one; it becomes the head
        match setNode h (some nw) (fun n => { n with next := some c }) with
        | none => none
        | some h1 =>
          match setNode h1 (some c) (fun n => { n with last := some nw }) with
          | none => none
          | some h2 => some { heap := h2, head := some nw, appended := false }
      else if newN.block.addressStart ≥ cn.block.addressEnd then
        match cn.next with
        | none =>
          -- append
          match setNode h (some nw) (fun n => { n with last := some c }) with
          | none => none
          | some h1 =>
            match setNode h1 (some c) (fun n => { n with next := some nw }) with
            | none => none
            | some h2 => some { heap := h2, head := head, appended := true }
        | some nx =>
          match getNode h (some nx) with
          | none => none
          | some nxN =>
            if newN.block.addressEnd ≤ nxN.block.addressStart then
              -- insert between the current node and the next one
              match setNode h (some nw) (fun n => { n with next := some nx }) with
              | none => none
              | some h1 =>
                match setNode h1 (some nx) (fun n => { n with last := some nw }) with
                | none => none
                | some h2 =>
                  match setNode h2 (some nw) (fun n => { n with last := some c }) with
                  | none => none
                  | some h3 =>
                    match setNode h3 (some c) (fun n => { n with next := some nw }) with
                    | none => none
                    | some h4 => some { heap := h4, head := head, appended := false }
            else insertLoop fuel h head nw cn.next
      else insertLoop fuel h head nw cn.next
    | _, _ => none

/-! ## `AllocateBlockHelper` (lines 122-210) -/

/-- Lines 127-190: the new node is created from the hole `filledHole` and
stored in the allocation list, and `pm_allocated` is updated.  The result is
the state and the address of `newBlock`. -/
def storeAllocation (s : State) (id size : Int) (filledHole : Ptr) : Option (State × Nat) :=
  match getNode s.heap filledHole with
  | none => none
  | some fh =>
    let m := malloc s.heap
      { last := none,
        block := { id := id, addressStart := fh.block.addressStart,
                   addressEnd := fh.block.addressStart + size },
        next := none }
    let newBlock := m.2
    let stored : Option State :=
      match s.allocations with
      | none =>
        some { s with heap := m.1, allocations := some newBlock, allocationsLast := some newBlock }
      | some c =>
        match insertLoop (walkFuel m.1) m.1 s.allocations newBlock (some c) with
        | none => none
        | some r =>
          some { s with heap := r.heap, allocations := r.head,
                        allocationsLast := if r.appended then some newBlock else s.allocationsLast }
    match stored with
    | none => none
    | some s1 => some ({ s1 with pm_allocated := s1.pm_allocated + size }, newBlock)

/-- Lines 192-209: the hole is removed or shrunk. -/
def updateHole (s2 : State) (newBlock : Nat) (filledHole : Ptr) : Option State :=
  match getNode s2.heap s2.allocationsLast, getNode s2.heap filledHole,
        getNode s2.heap (some newBlock) with
  | some lastN, some fh2, some nb =>
    if lastN.block.addressEnd = fh2.block.addressEnd then
      if filledHole = s2.holes then
        match getNode s2.heap s2.holes with
        | none => none
        | some hd => some { s2 with holes := hd.next }
      else some s2
    else
      match setNode s2.heap filledHole
          (fun n => { n with block := { n.block with addressStart := nb.block.addressEnd } }) with
      | none => none
      | some h3 => some { s2 with heap := h3 }
  | _, _, _ => none

/-- Carves the block out of the hole `filledHole`. -/
def AllocateBlockHelper (s : State) (id size : Int) (filledHole : Ptr) : Option State :=
  match storeAllocation s id size filledHole with
  | none => none
  | some (s2, newBlock) => updateHole s2 newBlock filledHole

/-! ## `TakeAllocateBlock` (lines 211-363) -/

/-- The duplicate-id scan (lines 237-253): `some true` when the id is found. -/
def duplicateScan : Nat → Heap → Ptr → Int → Option Bool
  | _, _, none, _ => some false
  | 0, _, some _, _ => none
  | fuel + 1, h, some a, newBlockId =>
    match getNode h (some a) with
    | none => none
    | some n =>
      if newBlockId = n.block.id then some true
      else duplicateScan fuel h n.next newBlockId

/-- The scan for one workable hole (lines 289-302), which is also the
first-fit scan (lines 320-334): the first hole the block fits in, or NULL. -/
def firstFitScan : Nat → Heap → Ptr → Int → Option Ptr
  | _, _, none, _ => some none
  | 0, _, some _, _ => none
  | fuel + 1, h, some a, newBlockSize =>
    match getNode h (some a) with
    | none => none
    | some n =>
      if n.block.addressStart + newBlockSize ≤ n.block.addressEnd then some (some a)
      else firstFitScan fuel h n.next newBlockSize

/-- The best-fit scan (lines 339-355); the argument after the iterator is
`filledHole`, the best hole so far. -/
def bestFitScan : Nat → Heap → Ptr → Ptr → Int → Option Ptr
  | _, _, none, filledHole, _ => some filledHole
  | 0, _, some _, _, _ => none
  | fuel + 1, h, some a, filledHole, newBlockSize =>
    match getNode h (some a) with
    | none => none
    | some n =>
      if n.block.addressStart + newBlockSize ≤ n.block.addressEnd then
        match filledHole with
        | none => bestFitScan fuel h n.next (some a) newBlockSize
        | some b =>
          match getNode h (some b) with
          | none => none
          | some bn =>
            if n.block.addressEnd - n.block.addressStart
                < bn.block.addressEnd - bn.block.addressStart then
              bestFitScan fuel h n.next (some a) newBlockSize
            else bestFitScan fuel h n.next filledHole newBlockSize
      else bestFitScan fuel h n.next filledHole newBlockSize

/-- Verdict of an input check: the error messages printed (none when the
input is accepted), or `none` for a fault. -/
abbrev Verdict := Option (List Error)

/-- The checks of the two input loops of `TakeAllocateBlock` (lines 218-311)
for one attempt: first the id, then the size. -/
def validateAllocate (s : State) (newBlockId newBlockSize : Int) : Verdict :=
  if newBlockId < 0 then some [Error.NegativeId]
  else
    match duplicateScan (walkFuel s.heap) s.heap s.allocations newBlockId with
    | none => none
    | some true => some [Error.DuplicateId]
    | some false =>
      if newBlockSize ≤ 0 then some [Error.InvalidSize]
      else if newBlockSize + s.pm_allocated > s.pm_size then some [Error.InsufficientTotalMemory]
      else
        match firstFitScan (walkFuel s.heap) s.heap s.holes newBlockSize with
        | none => none
        | some none => some [Error.NoFittingHole]
        | some (some _) => some []

/-- The hole-fitting branch (lines 313-356): the value of `filledHole`. -/
def chooseHole (s : State) (newBlockSize : Int) : Option Ptr :=
  if s.holeFillingAlgorithm = 0 then
    firstFitScan (walkFuel s.heap) s.heap s.holes newBlockSize
  else
    bestFitScan (walkFuel s.heap) s.heap s.holes none newBlockSize

/-- One attempt at allocating a block. -/
def TakeAllocateBlock (s : State) (newBlockId newBlockSize : Int) : Outcome :=
  match validateAllocate s newBlockId newBlockSize with
  | none => Outcome.fault
  | some (e :: es) => Outcome.rejected (e :: es) s
  | some [] =>
    match chooseHole s newBlockSize with
    | none => Outcome.fault
    | some filledHole =>
      match AllocateBlockHelper s newBlockId newBlockSize filledHole with
      | none => Outcome.fault
      | some s1 => printAndReturn s1

/-! ## `TakeDeallocateBlock` (lines 365-523) -/

/-- The id scan (lines 391-413): the final value of `removedBlock` and whether
the input was flagged as bad by the scan. -/
def findScan : Nat → Heap → Ptr → Int → Option (Ptr × Bool)
  | _, _, none, _ => some (none, false)
  | 0, _, some _, _ => none
  | fuel + 1, h, some a, removedBlockId =>
    match getNode h (some a) with
    | none => none
    | some n =>
      if removedBlockId = n.block.id then some (some a, false)
      else if n.next = none then some (some a, true)
      else findScan fuel h n.next removedBlockId

/-- One merge of the coalescing pass (lines 501-512): the node after
`currentHole` is absorbed. -/
def mergeNext (h : Heap) (currentHole : Nat) : Option Heap :=
  match getNode h (some currentHole) with
  | none => none
  | some c1 =>
    let removedHole := c1.next
    match getNode h c1.next with
    | none => none
    | some n1 =>
      match setNode h (some currentHole)
          (fun n => { n with block := { n.block with addressEnd := n1.block.addressEnd } }) with
      | none => none
      | some h1 =>
        match getNode h1 (some currentHole) with
        | none => none
        | some c2 =>
          match getNode h1 c2.next with
          | none => none
          | some n2 =>
            match setNode h1 (some currentHole) (fun n => { n with next := n2.next }) with
            | none => none
            | some h2 =>
              match getNode h2 (some currentHole) with
              | none => none
              | some c3 =>
                match setNode h2 c3.next (fun n => { n with last := some currentHole }) with
                | none => none
                | some h3 =>
                  match removedHole with
                  | none => none
                  | some r => free h3 r

/-- The coalescing pass (lines 494-517).  One step of fuel is one test of the
inner loop condition; every test absorbs a node or moves the iterator forward,
so a list of n nodes takes n tests. -/
def coalesce : Nat → Heap → Ptr → Option Heap
  | _, h, none => some h
  | 0, _, some _ => none
  | fuel + 1, h, some c =>
    match getNode h (some c) with
    | none => none
    | some cn =>
      match cn.next with
      | none => some h
      | some nx =>
        match getNode h (some nx) with
        | none => none
        | some nxN =>
          if cn.block.addressEnd = nxN.block.addressStart then
            match mergeNext h c with
            | none => none
            | some h1 => coalesce fuel h1 (some c)
          else coalesce fuel h (some nx)

/-- The pointer adjustments that unlink `removedBlock` (lines 478-486). -/
def unlinkBlock (s : State) (removedBlock : Nat) : Option State :=
  match getNode s.heap (some removedBlock) with
  | none => none
  | some rb =>
    let s1 : State :=
      if some removedBlock = s.allocations then
        if rb.last ≠ none then { s with allocations := rb.last }
        else if rb.next ≠ none then { s with allocations := rb.next }
        else s
      else s
    let h2 : Option Heap :=
      if rb.next ≠ none then setNode s1.heap rb.next (fun n => { n with last := rb.last })
      else some s1.heap
    match h2 with
    | none => none
    | some h2 =>
      match getNode h2 (some removedBlock) with
      | none => none
      | some rb2 =>
        let h3 : Option Heap :=
          if rb2.last ≠ none then setNode h2 rb2.last (fun n => { n with next := rb2.next })
          else some h2
        match h3 with
        | none => none
        | some h3 => some { s1 with heap := h3 }

/-- Lines 419-476: the new hole with the address range of the removed block
`rb` is created and put in the hole list. -/
def placeHole (s : State) (rb : LinkedList) : Option State :=
  let m := malloc s.heap
    { last := none,
      block := { id := 0, addressStart := rb.block.addressStart,
                 addressEnd := rb.block.addressEnd },
      next := none }
  let newHole := m.2
  match s.holes with
  | none => some { s with heap := m.1, holes := some newHole }
  | some c =>
    match insertLoop (walkFuel m.1) m.1 s.holes newHole (some c) with
    | none => none
    | some r => some { s with heap := r.heap, holes := r.head }

/-- One attempt at deallocating a block.  The `id` of the new hole node is
never written nor read by the program; it is 0 here. -/
def TakeDeallocateBlock (s : State) (removedBlockId : Int) : Outcome :=
  match findScan (walkFuel s.heap) s.heap s.allocations removedBlockId with
  | none => Outcome.fault
  | some (removedBlock, scanBad) =>
    let errors : List Error :=
      (if removedBlockId < 0 then [Error.NegativeId] else [])
        ++ (if scanBad then [Error.UnknownId] else [])
    match errors with
    | e :: es => Outcome.rejected (e :: es) s
    | [] =>
      match getNode s.heap removedBlock, removedBlock with
      | some rb, some rbA =>
        match placeHole s rb with
        | none => Outcome.fault
        | some s1 =>
          match unlinkBlock s1 rbA with
          | none => Outcome.fault
          | some s2 =>
            match getNode s2.heap (some rbA) with
            | none => Outcome.fault
            | some rb3 =>
              let s3 := { s2 with pm_allocated :=
                s2.pm_allocated - (rb3.block.addressEnd - rb3.block.addressStart) }
              match free s3.heap rbA with
              | none => Outcome.fault
              | some h4 =>
                match coalesce (walkFuel h4) h4 s3.holes with
                | none => Outcome.fault
                | some h5 => printAndReturn { s3 with heap := h5 }
      | _, _ => Outcome.fault

/-! ## `DefragmentMemory` (lines 525-577) -/

/-- The loop that moves the blocks next to one another (lines 532-556);
`head` is `allocations`. -/
def relocateLoop : Nat → Heap → Ptr → Ptr → Option Heap
  | _, h, _, none => some h
  | 0, _, _, some _ => none
  | fuel + 1, h, head, some c =>
    match getNode h (some c) with
    | none => none
    | some cn =>
      let currentBlockSize := cn.block.addressEnd - cn.block.addressStart
      let moved : Option Heap :=
        if some c = head then
          setNode h (some c) (fun n => { n with block :=
            { n.block with addressStart := 0, addressEnd := currentBlockSize } })
        else
          match getNode h cn.last with
          | none => none
          | some prev =>
            setNode h (some c) (fun n => { n with block :=
              { n.block with addressStart := prev.block.addressEnd,
                             addressEnd := prev.block.addressEnd + currentBlockSize } })
      match moved with
      | none => none
      | some h1 =>
        match getNode h1 (some c) with
        | none => none
        | some cn1 => relocateLoop fuel h1 head cn1.next

/-- The whole operation. -/
def DefragmentMemory (s : State) : Outcome :=
  match relocateLoop (walkFuel s.heap) s.heap s.allocations s.allocations with
  | none => Outcome.fault
  | some h1 =>
    match DeallocateLinkedList (walkFuel h1) h1 s.holes with
    | none => Outcome.fault
    | some h2 =>
      match getNode h2 s.allocationsLast with
      | none => Outcome.fault
      | some lastN =>
        if lastN.block.addressEnd < s.pm_size then
          let m := malloc h2
            { last := none,
              block := { id := 0, addressStart := lastN.block.addressEnd, addressEnd := s.pm_size },
              next := none }
          printAndReturn { s with heap := m.1, holes := some m.2 }
        else printAndReturn { s with heap := h2 }

/-! ## Runs of the menu loop (lines 586-628) -/

/-- The menu choices that change the state, with the values typed in. -/
inductive Op where
  | configure (size algorithm : Int)
  | allocate (id size : Int)
  | deallocate (id : Int)
  | compact
deriving DecidableEq

/-- One menu choice with one attempt at its inputs. -/
def applyOp (s : State) : Op → Outcome
  | Op.configure size algorithm => TakeParameters s size algorithm
  | Op.allocate id size => TakeAllocateBlock s id size
  | Op.deallocate id => TakeDeallocateBlock s id
  | Op.compact => DefragmentMemory s

/-- A run in which every operation is accepted and completes; `none` when one
of them is rejected or faults. -/
def run : State → List Op → Option State
  | s, [] => some s
  | s, op :: ops =>
    match applyOp s op with
    | Outcome.ok s1 => run s1 ops
    | _ => none

/-! ## Reading the lists -/

/-- The cells (address and node) of the list that starts at a pointer, in list
order; `none` when a node cannot be read. -/
def cellsFrom : Nat → Heap → Ptr → Option (List (Nat × LinkedList))
  | _, _, none => some []
  | 0, _, some _ => none
  | fuel + 1, h, some a =>
    match getNode h (some a) with
    | none => none
    | some n =>
      match cellsFrom fuel h n.next with
      | none => none
      | some rest => some ((a, n) :: rest)

/-- The cells of the allocation list. -/
def blockCells (s : State) : Option (List (Nat × LinkedList)) :=
  cellsFrom (walkFuel s.heap) s.heap s.allocations

/-- The cells of the hole list. -/
def holeCells (s : State) : Option (List (Nat × LinkedList)) :=
  cellsFrom (walkFuel s.heap) s.heap s.holes

/-- The Blocks of a state, in list order; `none` when the list cannot be read. -/
def blocksOf (s : State) : Option (List Block) :=
  (blockCells s).map (List.map (fun c => c.2.block))

/-- The Holes of a state as (start, end) pairs, in list order. -/
def holesOf (s : State) : Option (List (Int × Int)) :=
  (holeCells s).map (List.map (fun c => (c.2.block.addressStart, c.2.block.addressEnd)))

/-- The size of an interval. -/
def Block.size (b : Block) : Int := b.addressEnd - b.addressStart

/-- The block fits in the hole: the test of lines 293, 325 and 345. -/
def fits (newBlockSize : Int) (n : LinkedList) : Prop :=
  n.block.addressStart + newBlockSize ≤ n.block.addressEnd

instance (newBlockSize : Int) (n : LinkedList) : Decidable (fits newBlockSize n) := by
  unfold fits; infer_instance

/-- How many of the intervals contain the address `x`. -/
def coverCount (ivs : List (Int × Int)) (x : Int) : Nat :=
  (ivs.filter (fun iv => decide (iv.1 ≤ x ∧ x < iv.2))).length

/-- Partition coverage: both lists can be read and every address of
`[0, pm_size)` lies in exactly one Block or Hole. -/
def PartitionCoverage (s : State) : Prop :=
  ∃ bs hs, blocksOf s = some bs ∧ holesOf s = some hs ∧
    ∀ x : Int, 0 ≤ x → x < s.pm_size →
      coverCount (bs.map (fun b => (b.addressStart, b.addressEnd)) ++ hs) x = 1

/-- Conservation: `pm_allocated` is the sum of the sizes of the Blocks. -/
def Conservation (s : State) : Prop :=
  ∃ bs, blocksOf s = some bs ∧ s.pm_allocated = (bs.map Block.size).sum

/-- The state after `configure(size, algorithm)` at program start. -/
def configured (size algorithm : Int) : Option State :=
  run initialState [Op.configure size algorithm]

/-! ## Scenario states of the specification -/

/-- Scenario A after its first step: Blocks {0:[0,30)}, Holes {[30,100)},
first fit. -/
def scenarioA : State :=
  (run initialState [Op.configure 100 0, Op.allocate 0 30]).getD initialState

/-- Scenario B: Blocks {1:[30,50)}, Holes {[0,30),[50,100)}, first fit. -/
def scenarioB : State :=
  (run initialState [Op.configure 100 0, Op.allocate 0 30, Op.allocate 1 20,
    Op.deallocate 0]).getD initialState

/-- Scenario E before its last step: a 20-unit space filled by Block 0. -/
def scenarioE : State :=
  (run initialState [Op.configure 20 0, Op.allocate 0 20]).getD initialState

/-- Scenario F before its last deallocation: Blocks {0:[10,20), 6:[20,40),
1:[40,50)}, Holes {[0,10),[50,100)}. -/
def scenarioFBefore : State :=
  (run initialState [Op.configure 100 0, Op.allocate 5 10, Op.allocate 0 10,
    Op.allocate 6 20, Op.allocate 1 10, Op.deallocate 5]).getD initialState

/-! ## The scans and the verdict on the cells of a list -/

/-- The first cell of a list whose hole the block fits in. -/
def firstFitIn (newBlockSize : Int) : List (Nat × LinkedList) → Ptr
  | [] => none
  | c :: rest => if fits newBlockSize c.2 then some c.1 else firstFitIn newBlockSize rest

/-- The best-fit scan on the cells of a list, with the best cell so far. -/
def bestFitIn (newBlockSize : Int) :
    List (Nat × LinkedList) → Option (Nat × LinkedList) → Option (Nat × LinkedList)
  | [], best => best
  | c :: rest, none =>
    if fits newBlockSize c.2 then bestFitIn newBlockSize rest (some c)
    else bestFitIn newBlockSize rest none
  | c :: rest, some b =>
    if fits newBlockSize c.2 ∧ c.2.block.size < b.2.block.size then
      bestFitIn newBlockSize rest (some c)
    else bestFitIn newBlockSize rest (some b)

/-- What the best-fit scan returns: either the best cell so far, which no
sufficient cell of the list beats, or a cell of the list that beats the best
so far, every sufficient cell before it and, weakly, every one after it. -/
def BestFitPost (newBlockSize : Int) (cells : List (Nat × LinkedList))
    (best : Option (Nat × LinkedList)) : Prop :=
  (bestFitIn newBlockSize cells best = best
    ∧ ∀ d ∈ cells, fits newBlockSize d.2 →
        ∃ b, best = some b ∧ b.2.block.size ≤ d.2.block.size)
  ∨ (∃ pre c post, cells = pre ++ c :: post
    ∧ bestFitIn newBlockSize cells best = some c
    ∧ fits newBlockSize c.2
    ∧ (∀ b, best = some b → c.2.block.size < b.2.block.size)
    ∧ (∀ d ∈ pre, fits newBlockSize d.2 → c.2.block.size < d.2.block.size)
    ∧ (∀ d ∈ post, fits newBlockSize d.2 → c.2.block.size ≤ d.2.block.size))

/-- The verdict on a request as the amended claim C9 words it: the first
failing check, in the order of the code, decides. -/
def expectedVerdict (s : State) (blocks : List Block) (holes : List Block)
    (id size : Int) : List Error :=
  if id < 0 then [Error.NegativeId]
  else if ∃ b ∈ blocks, b.id = id then [Error.DuplicateId]
  else if size ≤ 0 then [Error.InvalidSize]
  else if s.pm_allocated + size > s.pm_size then [Error.InsufficientTotalMemory]
  else if ∀ h ∈ holes, h.size < size then [Error.NoFittingHole]
  else []

/-! ## The size checks with 32-bit `int` arithmetic -/

/-- The value a 32-bit `int` holds after a computation whose exact result is
`x`, with wraparound: the representative of `x` modulo 2^32 in
[-2^31, 2^31). -/
def wrap32 (x : Int) : Int := (x + 2147483648) % 4294967296 - 2147483648

/-- The value is representable as a 32-bit `int`. -/
def inInt32 (x : Int) : Prop := -2147483648 ≤ x ∧ x ≤ 2147483647

instance (x : Int) : Decidable (inInt32 x) := by
  unfold inInt32; infer_instance

/-- The capacity check of line 276 with 32-bit arithmetic. -/
def capacityExceeded32 (s : State) (newBlockSize : Int) : Prop :=
  wrap32 (newBlockSize + s.pm_allocated) > s.pm_size

instance (s : State) (newBlockSize : Int) : Decidable (capacityExceeded32 s newBlockSize) := by
  unfold capacityExceeded32; infer_instance

/-- The fit test of lines 293, 325 and 345 with 32-bit arithmetic. -/
def fits32 (newBlockSize : Int) (n : LinkedList) : Prop :=
  wrap32 (n.block.addressStart + newBlockSize) ≤ n.block.addressEnd

instance (newBlockSize : Int) (n : LinkedList) : Decidable (fits32 newBlockSize n) := by
  unfold fits32; infer_instance

/-- The scan for one workable hole (lines 289-302) with 32-bit arithmetic. -/
def firstFitScan32 : Nat → Heap → Ptr → Int → Option Ptr
  | _, _, none, _ => some none
  | 0, _, some _, _ => none
  | fuel + 1, h, some a, newBlockSize =>
    match getNode h (some a) with
    | none => none
    | some n =>
      if fits32 newBlockSize n then some (some a)
      else firstFitScan32 fuel h n.next newBlockSize

/-- The checks of the two input loops of `TakeAllocateBlock` (lines 218-311)
with the sums of lines 276 and 293 computed in 32-bit arithmetic. -/
def validateAllocate32 (s : State) (newBlockId newBlockSize : Int) : Verdict :=
  if newBlockId < 0 then some [Error.NegativeId]
  else
    match duplicateScan (walkFuel s.heap) s.heap s.allocations newBlockId with
    | none => none
    | some true => some [Error.DuplicateId]
    | some false =>
      if newBlockSize ≤ 0 then some [Error.InvalidSize]
      else if capacityExceeded32 s newBlockSize then some [Error.InsufficientTotalMemory]
      else
        match firstFitScan32 (walkFuel s.heap) s.heap s.holes newBlockSize with
        | none => none
        | some none => some [Error.NoFittingHole]
        | some (some _) => some []

/-! ## The operations with 32-bit `int` arithmetic

The definitions above compute every sum and difference exactly; they are what
the program does as long as no such value leaves the range of `int`.  The
definitions of this section wrap each sum and difference of the code with
`wrap32` and are otherwise the same; the functions without arithmetic
(`insertLoop`, `updateHole`, `placeHole`, `unlinkBlock`, `coalesce`, the id
scans and `TakeParameters`) serve both. -/

/-- The best-fit scan (lines 339-355) with the sum of line 345 and the two
differences of line 347 computed in 32-bit arithmetic. -/
def bestFitScan32 : Nat → Heap → Ptr → Ptr → Int → Option Ptr
  | _, _, none, filledHole, _ => some filledHole
  | 0, _, some _, _, _ => none
  | fuel + 1, h, some a, filledHole, newBlockSize =>
    match getNode h (some a) with
    | none => none
    | some n =>
      if fits32 newBlockSize n then
        match filledHole with
        | none => bestFitScan32 fuel h n.next (some a) newBlockSize
        | some b =>
          match getNode h (some b) with
          | none => none
          | some bn =>
            if wrap32 (n.block.addressEnd - n.block.addressStart)
                < wrap32 (bn.block.addressEnd - bn.block.addressStart) then
              bestFitScan32 fuel h n.next (some a) newBlockSize
            else bestFitScan32 fuel h n.next filledHole newBlockSize
      else bestFitScan32 fuel h n.next filledHole newBlockSize

/-- The hole-fitting branch (lines 313-356) with 32-bit arithmetic. -/
def chooseHole32 (s : State) (newBlockSize : Int) : Option Ptr :=
  if s.holeFillingAlgorithm = 0 then
    firstFitScan32 (walkFuel s.heap) s.heap s.holes newBlockSize
  else
    bestFitScan32 (walkFuel s.heap) s.heap s.holes none newBlockSize

/-- Lines 127-190 with the sums of lines 132 and 190 computed in 32-bit
arithmetic. -/
def storeAllocation32 (s : State) (id size : Int) (filledHole : Ptr) : Option (State × Nat) :=
  match getNode s.heap filledHole with
  | none => none
  | some fh =>
    let m := malloc s.heap
      { last := none,
        block := { id := id, addressStart := fh.block.addressStart,
                   addressEnd := wrap32 (fh.block.addressStart + size) },
        next := none }
    let newBlock := m.2
    let stored : Option State :=
      match s.allocations with
      | none =>
        some { s with heap := m.1, allocations := some newBlock, allocationsLast := some newBlock }
      | some c =>
        match insertLoop (walkFuel m.1) m.1 s.allocations newBlock (some c) with
        | none => none
        | some r =>
          some { s with heap := r.heap, allocations := r.head,
                        allocationsLast := if r.appended then some newBlock else s.allocationsLast }
    match stored with
    | none => none
    | some s1 => some ({ s1 with pm_allocated := wrap32 (s1.pm_allocated + size) }, newBlock)

/-- `AllocateBlockHelper` with 32-bit arithmetic. -/
def AllocateBlockHelper32 (s : State) (id size : Int) (filledHole : Ptr) : Option State :=
  match storeAllocation32 s id size filledHole with
  | none => none
  | some (s2, newBlock) => updateHole s2 newBlock filledHole

/-- One attempt at allocating a block, with 32-bit arithmetic. -/
def TakeAllocateBlock32 (s : State) (newBlockId newBlockSize : Int) : Outcome :=
  match validateAllocate32 s newBlockId newBlockSize with
  | none => Outcome.fault
  | some (e :: es) => Outcome.rejected (e :: es) s
  | some [] =>
    match chooseHole32 s newBlockSize with
    | none => Outcome.fault
    | some filledHole =>
      match AllocateBlockHelper32 s newBlockId newBlockSize filledHole with
      | none => Outcome.fault
      | some s1 => printAndReturn s1

/-- One attempt at deallocating a block, with the two subtractions of line
489 computed in 32-bit arithmetic. -/
def TakeDeallocateBlock32 (s : State) (removedBlockId : Int) : Outcome :=
  match findScan (walkFuel s.heap) s.heap s.allocations removedBlockId with
  | none => Outcome.fault
  | some (removedBlock, scanBad) =>
    let errors : List Error :=
      (if removedBlockId < 0 then [Error.NegativeId] else [])
        ++ (if scanBad then [Error.UnknownId] else [])
    match errors with
    | e :: es => Outcome.rejected (e :: es) s
    | [] =>
      match getNode s.heap removedBlock, removedBlock with
      | some rb, some rbA =>
        match placeHole s rb with
        | none => Outcome.fault
        | some s1 =>
          match unlinkBlock s1 rbA with
          | none => Outcome.fault
          | some s2 =>
            match getNode s2.heap (some rbA) with
            | none => Outcome.fault
            | some rb3 =>
              let removedSize := wrap32 (rb3.block.addressEnd - rb3.block.addressStart)
              let s3 := { s2 with pm_allocated := wrap32 (s2.pm_allocated - removedSize) }
              match free s3.heap rbA with
              | none => Outcome.fault
              | some h4 =>
                match coalesce (walkFuel h4) h4 s3.holes with
                | none => Outcome.fault
                | some h5 => printAndReturn { s3 with heap := h5 }
      | _, _ => Outcome.fault

/-- The relocation loop (lines 532-556) with the difference of line 536 and
the sum of line 551 computed in 32-bit arithmetic. -/
def relocateLoop32 : Nat → Heap → Ptr → Ptr → Option Heap
  | _, h, _, none => some h
  | 0, _, _, some _ => none
  | fuel + 1, h, head, some c =>
    match getNode h (some c) with
    | none => none
    | some cn =>
      let currentBlockSize := wrap32 (cn.block.addressEnd - cn.block.addressStart)
      let moved : Option Heap :=
        if some c = head then
          setNode h (some c) (fun n => { n with block :=
            { n.block with addressStart := 0, addressEnd := currentBlockSize } })
        else
          match getNode h cn.last with
          | none => none
          | some prev =>
            setNode h (some c) (fun n => { n with block :=
              { n.block with addressStart := prev.block.addressEnd,
                             addressEnd := wrap32 (prev.block.addressEnd + currentBlockSize) } })
      match moved with
      | none => none
      | some h1 =>
        match getNode h1 (some c) with
        | none => none
        | some cn1 => relocateLoop32 fuel h1 head cn1.next

/-- `DefragmentMemory` with 32-bit arithmetic. -/
def DefragmentMemory32 (s : State) : Outcome :=
  match relocateLoop32 (walkFuel s.heap) s.heap s.allocations s.allocations with
  | none => Outcome.fault
  | some h1 =>
    match DeallocateLinkedList (walkFuel h1) h1 s.holes with
    | none => Outcome.fault
    | some h2 =>
      match getNode h2 s.allocationsLast with
      | none => Outcome.fault
      | some lastN =>
        if lastN.block.addressEnd < s.pm_size then
          let m := malloc h2
            { last := none,
              block := { id := 0, addressStart := lastN.block.addressEnd, addressEnd := s.pm_size },
              next := none }
          printAndReturn { s with heap := m.1, holes := some m.2 }
        else printAndReturn { s with heap := h2 }

/-- One menu choice with one attempt at its inputs, with 32-bit arithmetic. -/
def applyOp32 (s : State) : Op → Outcome
  | Op.configure size algorithm => TakeParameters s size algorithm
  | Op.allocate id size => TakeAllocateBlock32 s id size
  | Op.deallocate id => TakeDeallocateBlock32 s id
  | Op.compact => DefragmentMemory32 s

/-- A run with 32-bit arithmetic in which every operation is accepted and
completes; `none` when one of them is rejected or faults. -/
def run32 : State → List Op → Option State
  | s, [] => some s
  | s, op :: ops =>
    match applyOp32 s op with
    | Outcome.ok s1 => run32 s1 ops
    | _ => none

/-! ## Lists in the heap, and what the claims say about them -/

/-- The pointer to the last cell of a list, or `prev` for the empty list. -/
def lastPtr (prev : Ptr) : List (Nat × Block) → Ptr
  | [] => prev
  | c :: cs => lastPtr (some c.1) cs

/-- Following `next` from `p` visits the cells `l` (address and block) and
ends at the pointer `q`.  With `dl` the `last` pointers are those of a doubly
linked list whose first cell has `last = prev`. -/
def IsSeg (dl : Bool) (h : Heap) : Ptr → Ptr → List (Nat × Block) → Ptr → Prop
  | _, p, [], q => p = q
  | prev, p, c :: cs, q =>
    p = some c.1 ∧ ∃ n, getNode h (some c.1) = some n ∧ n.block = c.2 ∧
      (dl = true → n.last = prev) ∧ IsSeg dl h (some c.1) n.next cs q

/-- Whether a list in the heap is a given segment can be computed. -/
instance IsSeg.instDecidable (dl : Bool) (h : Heap) (q : Ptr) :
    (l : List (Nat × Block)) → (prev p : Ptr) → Decidable (IsSeg dl h prev p l q)
  | [], _, p => inferInstanceAs (Decidable (p = q))
  | c :: cs, prev, p =>
    match hn : getNode h (some c.1) with
    | none => isFalse (fun hs => by
        obtain ⟨_, n, hn1, _⟩ := hs
        rw [hn] at hn1
        cases hn1)
    | some n =>
      have := IsSeg.instDecidable dl h q cs (some c.1) n.next
      decidable_of_iff (p = some c.1 ∧ n.block = c.2 ∧ (dl = true → n.last = prev)
          ∧ IsSeg dl h (some c.1) n.next cs q)
        ⟨fun hs => ⟨hs.1, n, hn, hs.2.1, hs.2.2.1, hs.2.2.2⟩,
         fun hs => by
          obtain ⟨hp, n1, hn1, hb, hl, hr⟩ := hs
          rw [hn] at hn1
          cases hn1
          exact ⟨hp, hb, hl, hr⟩⟩

/-- What the insertion loop does to the list, on the cells: `pre` are the
cells already passed, the second list starts at the iterator.  The flag tells
that the new cell was appended at the end. -/
def insertSpec (x : Nat × Block) :
    List (Nat × Block) → List (Nat × Block) → List (Nat × Block) × Bool
  | pre, [] => (pre, false)
  | pre, c :: rest =>
    if x.2.addressEnd ≤ c.2.addressStart then (x :: c :: rest, false)
    else if x.2.addressStart ≥ c.2.addressEnd then
      match rest with
      | [] => (pre ++ [c, x], true)
      | nx :: _ =>
        if x.2.addressEnd ≤ nx.2.addressStart then (pre ++ c :: x :: rest, false)
        else insertSpec x (pre ++ [c]) rest
    else insertSpec x (pre ++ [c]) rest

/-- The list after `storeAllocation`: the new cell alone when the list was
empty, else the result of the insertion loop. -/
def storedList (x : Nat × Block) (bl : List (Nat × Block)) : List (Nat × Block) :=
  if bl = [] then [x] else (insertSpec x [] bl).1

/-- Ascending address order of a list of Blocks: every Block has
`start < end` and ends before every later Block starts. -/
def AddressOrdered (bs : List Block) : Prop :=
  (∀ b ∈ bs, b.addressStart < b.addressEnd)
    ∧ bs.Pairwise (fun a b => a.addressEnd ≤ b.addressStart)

/-- Weak address order of cells: every cell ends before every later one
starts (touching allowed). -/
def WeakOrder (l : List (Nat × Block)) : Prop :=
  l.Pairwise (fun a b => a.2.addressEnd ≤ b.2.addressStart)

/-- Strict separation of cells: every cell ends strictly before every later
one starts. -/
def Separated (l : List (Nat × Block)) : Prop :=
  l.Pairwise (fun a b => a.2.addressEnd < b.2.addressStart)

/-- No cell is reversed: `start <= end`. -/
def NonNegative (l : List (Nat × Block)) : Prop :=
  ∀ c ∈ l, c.2.addressStart ≤ c.2.addressEnd

/-- A cell list with the block of the cell at address `a` replaced. -/
def setBlock (a : Nat) (b : Block) (l : List (Nat × Block)) : List (Nat × Block) :=
  l.map (fun c => if c.1 = a then (c.1, b) else c)

/-- What the relocation loop of `DefragmentMemory` (lines 532-556) does to the
cells it has still to visit, `e` being the end of the cell before them (0 at
the head of the list): every cell keeps its address, its id and its size, and
starts where the cell before it ends. -/
def relocated (e : Int) : List (Nat × Block) → List (Nat × Block)
  | [] => []
  | c :: cs =>
    (c.1, ⟨c.2.id, e, e + (c.2.addressEnd - c.2.addressStart)⟩)
      :: relocated (e + (c.2.addressEnd - c.2.addressStart)) cs

/-- The end of the last cell of a list, 0 for the empty list. -/
def lastEnd (l : List (Nat × Block)) : Int :=
  l.foldl (fun _ c => c.2.addressEnd) 0

/-- The Blocks of an allocation list are in weak address order and carry
distinct ids, none of them negative. -/
def BlocksOk (bl : List (Nat × Block)) : Prop :=
  WeakOrder bl ∧ (bl.map (fun c => c.2.id)).Nodup ∧ ∀ b ∈ bl, 0 ≤ b.2.id

/-- The hole pointer designates a freed node (after a compaction that left no
room for a hole). -/
def HolesDangling (s : State) (bl : List (Nat × Block)) : Prop :=
  ∃ a, s.holes = some a ∧ getNode s.heap (some a) = none ∧ a < s.heap.length
    ∧ bl.length ≤ s.heap.length

/-- The hole list is a list of live nodes, apart from the allocation list,
whose cells are strictly separated and not reversed. -/
def HolesOk (s : State) (bl : List (Nat × Block)) : Prop :=
  ∃ hl : List (Nat × Block),
    IsSeg false s.heap none s.holes hl none ∧ Separated hl ∧ NonNegative hl
      ∧ (∀ b ∈ bl, ∀ c ∈ hl, b.1 ≠ c.1) ∧ bl.length + hl.length ≤ s.heap.length

/-- The invariant of the reachable states: the allocation list is a doubly
linked list of live nodes with `start < end`, in weak address order and with
distinct non-negative ids, and the hole list is dangling or well formed. -/
def Inv (s : State) : Prop :=
  ∃ bl : List (Nat × Block),
    IsSeg true s.heap none s.allocations bl none
      ∧ (∀ b ∈ bl, b.2.addressStart < b.2.addressEnd)
      ∧ (HolesDangling s bl ∨ HolesOk s bl)
      ∧ BlocksOk bl

/-- No two Holes are address-adjacent: for two different positions of the hole
list, the end of the one is not the start of the other. -/
def NoAdjacentHoles (hs : List (Int × Int)) : Prop :=
  ∀ i j : Fin hs.length, i ≠ j → (hs.get i).2 ≠ (hs.get j).1

end MemoryHoleFilling

/-!
# Banker's algorithm (`src/C/BankersAlgorithm.c`)

A shallow embedding of `FindSafeSequence` (lines 308-418).  Modelling
conventions:

* an `int*` array is the function from indices to its elements, and an
  `int**` matrix the function from row and column to its elements; the loops
  of the function read and write only indices below `resourceCount` and
  `processCount`;
* `int` is a 32-bit machine integer: a value is an `Int`, and the one sum
  the function computes (line 399) is wrapped to 32 bits (`wrap32`); the two
  counts are `Nat`;
* a `for (i = 0; i < n; i++)` loop runs over `List.range n`;
* the `do ... while` loop recurses on a fuel argument and reports running out
  of fuel as `none`; `FindSafeSequence` supplies `processCount + 1`, and it is
  proved that this is enough;
* what is printed is recorded as the list of checked processes, each with the
  verdict printed for it, and the flag of the final "Deadlock reached!" line.
-/

namespace BankersAlgorithm

/-- The global variables `FindSafeSequence` reads (lines 5-13). -/
structure Parameters where
  resourceCount : Nat
  processCount : Nat
  available : Nat → Int
  allocated : Nat → Nat → Int
  needed : Nat → Nat → Int

/-- The local variables of `FindSafeSequence` that live across its loops
(lines 314-319), and the lines printed so far: the process checked and whether
it was "safely sequenced". -/
structure Scan where
  availableLocal : Nat → Int
  completed : Nat → Bool
  allCompleted : Bool
  anyCompleted : Bool
  output : List (Nat × Bool)

/-- The loop over the resources that decides `canSequence` (lines 363-373):
it stops with 0 at the first resource of which more is needed than is
available. -/
def checkResources (P : Parameters) (availableLocal : Nat → Int) (processIndex : Nat) :
    List Nat → Bool
  | [] => true
  | resourceIndex :: rest =>
    if P.needed processIndex resourceIndex > availableLocal resourceIndex then false
    else checkResources P availableLocal processIndex rest

/-- The value a 32-bit `int` holds after a computation whose exact result is
`x`, with wraparound: the representative of `x` modulo 2^32 in
[-2^31, 2^31). -/
def wrap32 (x : Int) : Int := (x + 2147483648) % 4294967296 - 2147483648

/-- The loop that frees the resources of a sequenced process (lines 397-400);
the sum of line 399 is a 32-bit sum. -/
def releaseResources (P : Parameters) (processIndex : Nat) :
    List Nat → (Nat → Int) → (Nat → Int)
  | [], availableLocal => availableLocal
  | resourceIndex :: rest, availableLocal =>
    releaseResources P processIndex rest
      (fun r => if r = resourceIndex then
          wrap32 (availableLocal resourceIndex + P.allocated processIndex resourceIndex)
        else availableLocal r)

/-- The body of the loop over the processes (lines 356-408). -/
def sequenceStep (P : Parameters) (st : Scan) (processIndex : Nat) : Scan :=
  if st.completed processIndex then st
  else if checkResources P st.availableLocal processIndex (List.range P.resourceCount) then
    { st with
      anyCompleted := true
      completed := fun p => if p = processIndex then true else st.completed p
      availableLocal :=
        releaseResources P processIndex (List.range P.resourceCount) st.availableLocal
      output := st.output ++ [(processIndex, true)] }
  else { st with output := st.output ++ [(processIndex, false)] }

/-- The body of the `do ... while` loop (lines 342-409): the two flags are
reset, `allCompleted` is computed from the flags of the processes, and every
process is tried. -/
def pass (P : Parameters) (st : Scan) : Scan :=
  (List.range P.processCount).foldl (sequenceStep P)
    { st with
      allCompleted := (List.range P.processCount).all (fun p => st.completed p)
      anyCompleted := false }

/-- The `do ... while (anyCompleted)` loop (lines 340-411). -/
def scanLoop (P : Parameters) : Nat → Scan → Option Scan
  | 0, _ => none
  | fuel + 1, st =>
    if (pass P st).anyCompleted then scanLoop P fuel (pass P st)
    else some (pass P st)

/-- What `FindSafeSequence` prints. -/
structure Report where
  output : List (Nat × Bool)
  deadlock : Bool
deriving DecidableEq

/-- The local variables after lines 325-337; `allCompleted` and
`anyCompleted` are not initialised there and are set at the start of every
pass. -/
def initialScan (P : Parameters) : Scan :=
  { availableLocal := fun r => P.available r
    completed := fun _ => false
    allCompleted := false
    anyCompleted := false
    output := [] }

/-- The whole function: `none` when the loop runs out of fuel. -/
def FindSafeSequence (P : Parameters) : Option Report :=
  match scanLoop P (P.processCount + 1) (initialScan P) with
  | none => none
  | some st => some { output := st.output, deadlock := !st.allCompleted }

/-! ## What the claims say about the scan -/

/-- The processes printed as "safely sequenced", in the order of printing. -/
def sequenced (output : List (Nat × Bool)) : List Nat :=
  (output.filter (fun e => e.2)).map Prod.fst

/-- The available vector plus the allocated vectors of the processes of a
list, at resource `r`. -/
def availableAfter (P : Parameters) (before : List Nat) (r : Nat) : Int :=
  P.available r + (before.map (fun p => P.allocated p r)).sum

/-- The needed vector of process `p` is component-wise at most the available
vector plus the allocated vectors of the processes `before`. -/
def CanRun (P : Parameters) (before : List Nat) (p : Nat) : Prop :=
  ∀ r, r < P.resourceCount → P.needed p r ≤ availableAfter P before r

/-- Every process of the list can run after the processes `before` and those
that precede it in the list. -/
def SafeFrom (P : Parameters) : List Nat → List Nat → Prop
  | _, [] => True
  | before, p :: rest => CanRun P before p ∧ SafeFrom P (before ++ [p]) rest

/-- An ordering of all processes in which each process can run after the
processes before it. -/
def SafeOrdering (P : Parameters) (order : List Nat) : Prop :=
  order.Perm (List.range P.processCount) ∧ SafeFrom P [] order

/-- The number of processes that are not flagged as completed. -/
def uncompleted (P : Parameters) (st : Scan) : Nat :=
  ((Finset.range P.processCount).filter (fun p => st.completed p = false)).card

/-- The invariant of the scan where no sum overflows: the flagged processes
are those printed as sequenced, each once and each a process; the local
available vector is the available vector plus what they had allocated; and
each of them could run after those sequenced before it. -/
def Good (P : Parameters) (st : Scan) : Prop :=
  (sequenced st.output).Nodup
    ∧ (∀ p ∈ sequenced st.output, p < P.processCount)
    ∧ (∀ p, st.completed p = true ↔ p ∈ sequenced st.output)
    ∧ (∀ r, r < P.resourceCount →
        st.availableLocal r = availableAfter P (sequenced st.output) r)
    ∧ SafeFrom P [] (sequenced st.output)

/-- No sum of line 399 can overflow: no `allocated[i][j]` is negative, every
available count is representable as a 32-bit `int`, and so is the available
count plus everything that is allocated. -/
def NoOverflow (P : Parameters) : Prop :=
  (∀ p, p < P.processCount → ∀ r, r < P.resourceCount → 0 ≤ P.allocated p r)
    ∧ ∀ r, r < P.resourceCount →
        -2147483648 ≤ P.available r
          ∧ availableAfter P (List.range P.processCount) r ≤ 2147483647

/-- The textbook example: five processes, three resources, a safe state. -/
def exampleSafe : Parameters :=
  { resourceCount := 3
    processCount := 5
    available := fun r => [3, 3, 2].getD r 0
    allocated := fun p r =>
      ([[0, 1, 0], [2, 0, 0], [3, 0, 2], [2, 1, 1], [0, 0, 2]].getD p []).getD r 0
    needed := fun p r =>
      ([[7, 4, 3], [1, 2, 2], [6, 0, 0], [0, 1, 1], [4, 3, 1]].getD p []).getD r 0 }

/-- Two processes that each hold one unit of the only resource and need one
more, with none available. -/
def exampleDeadlock : Parameters :=
  { resourceCount := 1
    processCount := 2
    available := fun _ => 0
    allocated := fun _ _ => 1
    needed := fun _ _ => 1 }

/-- Two processes and one resource of 2147483647 units, all of them
available; process 0 holds 1000 units and needs no more, process 1 holds none
and needs 5 (`maxClaim` is 1000 and 5).  `TakeParameters` leaves these values
when the row 1000 is typed for process 0 and, for process 1, first the row
-1000, which is rejected after line 275 has subtracted it, and then the row
0. -/
def exampleOverflow : Parameters :=
  { resourceCount := 1
    processCount := 2
    available := fun _ => 2147483647
    allocated := fun p _ => [1000, 0].getD p 0
    needed := fun p _ => [0, 5].getD p 0 }

/-- Two processes that each hold 2147483647 units of the only resource and
need no more, with 3 units available. -/
def exampleOverflowFull : Parameters :=
  { resourceCount := 1
    processCount := 2
    available := fun _ => 3
    allocated := fun _ _ => 2147483647
    needed := fun _ _ => 0 }

end BankersAlgorithm

namespace MemoryHoleFilling

/-! ## Lemmas on the scans -/

theorem firstFitScan_eq (newBlockSize : Int) (h : Heap) :
    ∀ (fuel : Nat) (p : Ptr) (cells : List (Nat × LinkedList)),
      cellsFrom fuel h p = some cells →
      firstFitScan fuel h p newBlockSize = some (firstFitIn newBlockSize cells) := by
  intro fuel
  induction fuel with
  | zero =>
    intro p cells hc
    cases p with
    | none => simp [cellsFrom] at hc; subst hc; simp [firstFitScan, firstFitIn]
    | some a => simp [cellsFrom] at hc
  | succ fuel ih =>
    intro p cells hc
    cases p with
    | none => simp [cellsFrom] at hc; subst hc; simp [firstFitScan, firstFitIn]
    | some a =>
      simp only [cellsFrom] at hc
      cases hn : getNode h (some a) with
      | none => simp [hn] at hc
      | some n =>
        simp only [hn] at hc
        cases hr : cellsFrom fuel h n.next with
        | none => simp [hr] at hc
        | some rest =>
          simp only [hr, Option.some.injEq] at hc
          subst hc
          simp only [firstFitScan, hn, firstFitIn, fits]
          split
          · rfl
          · exact ih n.next rest hr

theorem firstFitIn_spec (newBlockSize : Int) :
    ∀ cells : List (Nat × LinkedList), (∃ c ∈ cells, fits newBlockSize c.2) →
      ∃ pre c post, cells = pre ++ c :: post ∧ firstFitIn newBlockSize cells = some c.1
        ∧ fits newBlockSize c.2 ∧ ∀ d ∈ pre, ¬ fits newBlockSize d.2 := by
  intro cells
  induction cells with
  | nil => rintro ⟨c, hc, _⟩; simp at hc
  | cons c rest ih =>
    intro hex
    by_cases hfit : fits newBlockSize c.2
    · exact ⟨[], c, rest, rfl, by simp [firstFitIn, hfit], hfit, by simp⟩
    · have hex1 : ∃ d ∈ rest, fits newBlockSize d.2 := by
        obtain ⟨d, hd, hdf⟩ := hex
        rcases List.mem_cons.mp hd with rfl | hd1
        · exact absurd hdf hfit
        · exact ⟨d, hd1, hdf⟩
      obtain ⟨pre, c1, post, hsplit, hres, hf1, hpre⟩ := ih hex1
      refine ⟨c :: pre, c1, post, by simp [hsplit], by simp [firstFitIn, hfit, hres], hf1, ?_⟩
      intro d hd
      rcases List.mem_cons.mp hd with rfl | hd1
      · exact hfit
      · exact hpre d hd1

theorem cellsFrom_getNode (h : Heap) :
    ∀ (fuel : Nat) (p : Ptr) (cells : List (Nat × LinkedList)),
      cellsFrom fuel h p = some cells → ∀ c ∈ cells, getNode h (some c.1) = some c.2 := by
  intro fuel
  induction fuel with
  | zero =>
    intro p cells hc
    cases p with
    | none => simp [cellsFrom] at hc; subst hc; simp
    | some a => simp [cellsFrom] at hc
  | succ fuel ih =>
    intro p cells hc
    cases p with
    | none => simp [cellsFrom] at hc; subst hc; simp
    | some a =>
      simp only [cellsFrom] at hc
      cases hn : getNode h (some a) with
      | none => simp [hn] at hc
      | some n =>
        simp only [hn] at hc
        cases hr : cellsFrom fuel h n.next with
        | none => simp [hr] at hc
        | some rest =>
          simp only [hr, Option.some.injEq] at hc
          subst hc
          intro c hcm
          rcases List.mem_cons.mp hcm with rfl | hcm1
          · exact hn
          · exact ih n.next rest hr c hcm1

theorem bestFitScan_eq (newBlockSize : Int) (h : Heap) :
    ∀ (fuel : Nat) (p : Ptr) (cells : List (Nat × LinkedList))
      (best : Option (Nat × LinkedList)),
      cellsFrom fuel h p = some cells →
      (∀ b, best = some b → getNode h (some b.1) = some b.2) →
      bestFitScan fuel h p (best.map Prod.fst) newBlockSize
        = some ((bestFitIn newBlockSize cells best).map Prod.fst) := by
  intro fuel
  induction fuel with
  | zero =>
    intro p cells best hc _
    cases p with
    | none => simp [cellsFrom] at hc; subst hc; simp [bestFitScan, bestFitIn]
    | some a => simp [cellsFrom] at hc
  | succ fuel ih =>
    intro p cells best hc hbest
    cases p with
    | none => simp [cellsFrom] at hc; subst hc; simp [bestFitScan, bestFitIn]
    | some a =>
      simp only [cellsFrom] at hc
      cases hn : getNode h (some a) with
      | none => simp [hn] at hc
      | some n =>
        simp only [hn] at hc
        cases hr : cellsFrom fuel h n.next with
        | none => simp [hr] at hc
        | some rest =>
          simp only [hr, Option.some.injEq] at hc
          subst hc
          have hnew : ∀ b, some (a, n) = some b → getNode h (some b.1) = some b.2 := by
            intro b hb
            cases hb
            exact hn
          cases best with
          | none =>
            simp only [bestFitScan, hn, bestFitIn, fits, Option.map_none']
            split
            · exact ih n.next rest (some (a, n)) hr hnew
            · exact ih n.next rest none hr (by simp)
          | some b =>
            have hb := hbest b rfl
            simp only [bestFitScan, hn, bestFitIn, fits, Option.map_some', hb, Block.size]
            by_cases hfit : n.block.addressStart + newBlockSize ≤ n.block.addressEnd
            · by_cases hlt : n.block.addressEnd - n.block.addressStart
                  < b.2.block.addressEnd - b.2.block.addressStart
              · simp only [hfit, hlt, if_true, and_self]
                exact ih n.next rest (some (a, n)) hr hnew
              · simp only [hfit, hlt, if_true, if_false, and_false]
                exact ih n.next rest (some b) hr hbest
            · simp only [hfit, if_false, false_and]
              exact ih n.next rest (some b) hr hbest

theorem bestFitIn_spec (newBlockSize : Int) :
    ∀ (cells : List (Nat × LinkedList)) (best : Option (Nat × LinkedList)),
      BestFitPost newBlockSize cells best := by
  intro cells
  induction cells with
  | nil => intro best; left; simp [bestFitIn]
  | cons c rest ih =>
    intro best
    -- the step taken at `c`
    have key : ∀ (nb : Option (Nat × LinkedList)),
        bestFitIn newBlockSize (c :: rest) best = bestFitIn newBlockSize rest nb →
        (nb = best ∧ (fits newBlockSize c.2 →
            ∃ b, best = some b ∧ b.2.block.size ≤ c.2.block.size)
          ∨ nb = some c ∧ fits newBlockSize c.2
            ∧ ∀ b, best = some b → c.2.block.size < b.2.block.size) →
        BestFitPost newBlockSize (c :: rest) best := by
      intro nb heq hstep
      unfold BestFitPost
      rcases ih nb with ⟨hsame, hall⟩ | ⟨pre, c1, post, hsplit, hres, hf1, hb1, hpre, hpost⟩
      · rcases hstep with ⟨hnb, hc⟩ | ⟨hnb, hcf, hcb⟩
        · left
          subst hnb
          refine ⟨by rw [heq, hsame], ?_⟩
          intro d hd hdf
          rcases List.mem_cons.mp hd with rfl | hd1
          · exact hc hdf
          · exact hall d hd1 hdf
        · right
          subst hnb
          refine ⟨[], c, rest, rfl, by rw [heq, hsame], hcf, hcb, by simp, ?_⟩
          intro d hd hdf
          obtain ⟨b, hb, hle⟩ := hall d hd hdf
          cases hb
          exact hle
      · right
        rcases hstep with ⟨hnb, hc⟩ | ⟨hnb, hcf, hcb⟩
        · subst hnb
          refine ⟨c :: pre, c1, post, by simp [hsplit], by rw [heq, hres], hf1, hb1, ?_, hpost⟩
          intro d hd hdf
          rcases List.mem_cons.mp hd with rfl | hd1
          · obtain ⟨b, hb, hle⟩ := hc hdf
            have := hb1 b hb
            omega
          · exact hpre d hd1 hdf
        · subst hnb
          have hlt := hb1 c rfl
          refine ⟨c :: pre, c1, post, by simp [hsplit], by rw [heq, hres], hf1, ?_, ?_, hpost⟩
          · intro b hb
            have := hcb b hb
            omega
          · intro d hd hdf
            rcases List.mem_cons.mp hd with rfl | hd1
            · exact hlt
            · exact hpre d hd1 hdf
    cases best with
    | none =>
      by_cases hfit : fits newBlockSize c.2
      · exact key (some c) (by simp [bestFitIn, hfit]) (Or.inr ⟨rfl, hfit, by simp⟩)
      · exact key none (by simp [bestFitIn, hfit]) (Or.inl ⟨rfl, fun hf => absurd hf hfit⟩)
    | some b =>
      by_cases hcond : fits newBlockSize c.2 ∧ c.2.block.size < b.2.block.size
      · refine key (some c) (by simp [bestFitIn, hcond]) (Or.inr ⟨rfl, hcond.1, ?_⟩)
        intro b1 hb1
        cases hb1
        exact hcond.2
      · refine key (some b) (by simp [bestFitIn, hcond]) (Or.inl ⟨rfl, ?_⟩)
        intro hf
        refine ⟨b, rfl, ?_⟩
        have : ¬ c.2.block.size < b.2.block.size := fun hlt => hcond ⟨hf, hlt⟩
        omega

theorem duplicateScan_eq (newBlockId : Int) (h : Heap) :
    ∀ (fuel : Nat) (p : Ptr) (cells : List (Nat × LinkedList)),
      cellsFrom fuel h p = some cells →
      duplicateScan fuel h p newBlockId
        = some (decide (∃ c ∈ cells, c.2.block.id = newBlockId)) := by
  intro fuel
  induction fuel with
  | zero =>
    intro p cells hc
    cases p with
    | none => simp [cellsFrom] at hc; subst hc; simp [duplicateScan]
    | some a => simp [cellsFrom] at hc
  | succ fuel ih =>
    intro p cells hc
    cases p with
    | none => simp [cellsFrom] at hc; subst hc; simp [duplicateScan]
    | some a =>
      simp only [cellsFrom] at hc
      cases hn : getNode h (some a) with
      | none => simp [hn] at hc
      | some n =>
        simp only [hn] at hc
        cases hr : cellsFrom fuel h n.next with
        | none => simp [hr] at hc
        | some rest =>
          simp only [hr, Option.some.injEq] at hc
          subst hc
          simp only [duplicateScan, hn]
          by_cases hid : newBlockId = n.block.id
          · simp [hid]
          · rw [if_neg hid, ih n.next rest hr]
            have hid1 : ¬ n.block.id = newBlockId := fun e => hid e.symm
            simp [hid1]

theorem firstFitIn_eq_none (newBlockSize : Int) :
    ∀ cells : List (Nat × LinkedList),
      firstFitIn newBlockSize cells = none ↔ ∀ c ∈ cells, ¬ fits newBlockSize c.2 := by
  intro cells
  induction cells with
  | nil => simp [firstFitIn]
  | cons c rest ih =>
    by_cases hfit : fits newBlockSize c.2
    · simp [firstFitIn, hfit]
    · simp [firstFitIn, hfit, ih]

/-! ## Heap lemmas -/

theorem getNode_eq_join (h : Heap) (a : Nat) : getNode h (some a) = (h[a]?).join := by
  simp only [getNode]
  split
  · next n hn => rw [hn]; rfl
  · next hn =>
    cases hx : h[a]? with
    | none => rfl
    | some x =>
      cases x with
      | none => rfl
      | some n => exact absurd hx (hn n)

theorem getNode_lt {h : Heap} {a : Nat} {n : LinkedList}
    (hn : getNode h (some a) = some n) : a < h.length := by
  rw [getNode_eq_join] at hn
  by_contra hge
  rw [List.getElem?_eq_none (by omega)] at hn
  cases hn

theorem getNode_set (h : Heap) (a b : Nat) (x : Option LinkedList) (ha : a < h.length) :
    getNode (h.set a x) (some b) = if a = b then x else getNode h (some b) := by
  rw [getNode_eq_join, getNode_eq_join, List.getElem?_set]
  by_cases hab : a = b
  · subst hab
    simp only [if_true, ha]
    rfl
  · simp only [if_neg hab]

theorem getNode_append (h : Heap) (x : Option LinkedList) (b : Nat) :
    getNode (h ++ [x]) (some b) = if b = h.length then x else getNode h (some b) := by
  rw [getNode_eq_join, getNode_eq_join]
  by_cases hb : b = h.length
  · subst hb
    simp only [if_true, List.getElem?_concat_length]
    rfl
  · rw [if_neg hb]
    by_cases hlt : b < h.length
    · rw [List.getElem?_append_left hlt]
    · rw [List.getElem?_eq_none (by simp; omega), List.getElem?_eq_none (by omega)]

theorem setNode_eq {h : Heap} {a : Nat} {n : LinkedList} (f : LinkedList → LinkedList)
    (hn : getNode h (some a) = some n) :
    setNode h (some a) f = some (h.set a (some (f n))) := by
  simp only [setNode, hn]

theorem free_eq {h : Heap} {a : Nat} {n : LinkedList}
    (hn : getNode h (some a) = some n) : free h a = some (h.set a none) := by
  simp only [free, hn]

/-! ## Lists in the heap: segments -/

theorem lastPtr_append (prev : Ptr) (l1 l2 : List (Nat × Block)) :
    lastPtr prev (l1 ++ l2) = lastPtr (lastPtr prev l1) l2 := by
  induction l1 generalizing prev with
  | nil => rfl
  | cons c cs ih => exact ih (some c.1)

theorem IsSeg_append (dl : Bool) (h : Heap) (q : Ptr) (l2 : List (Nat × Block)) :
    ∀ (l1 : List (Nat × Block)) (prev p : Ptr),
      IsSeg dl h prev p (l1 ++ l2) q ↔
        ∃ m, IsSeg dl h prev p l1 m ∧ IsSeg dl h (lastPtr prev l1) m l2 q := by
  intro l1
  induction l1 with
  | nil =>
    intro prev p
    simp only [List.nil_append, IsSeg, lastPtr]
    constructor
    · intro hs; exact ⟨p, rfl, hs⟩
    · rintro ⟨m, rfl, hs⟩; exact hs
  | cons c cs ih =>
    intro prev p
    simp only [List.cons_append, IsSeg, lastPtr]
    constructor
    · rintro ⟨hp, n, hn, hb, hl, hrest⟩
      obtain ⟨m, h1, h2⟩ := (ih (some c.1) n.next).mp hrest
      exact ⟨m, ⟨hp, n, hn, hb, hl, h1⟩, h2⟩
    · rintro ⟨m, ⟨hp, n, hn, hb, hl, h1⟩, h2⟩
      exact ⟨hp, n, hn, hb, hl, (ih (some c.1) n.next).mpr ⟨m, h1, h2⟩⟩

theorem IsSeg_frame (dl : Bool) (h h1 : Heap) (q : Ptr) :
    ∀ (l : List (Nat × Block)) (prev p : Ptr),
      (∀ c ∈ l, getNode h1 (some c.1) = getNode h (some c.1)) →
      IsSeg dl h prev p l q → IsSeg dl h1 prev p l q := by
  intro l
  induction l with
  | nil => intro prev p _ hs; exact hs
  | cons c cs ih =>
    intro prev p hsame hs
    obtain ⟨hp, n, hn, hb, hl, hrest⟩ := hs
    refine ⟨hp, n, ?_, hb, hl, ih _ _ (fun d hd => hsame d (List.mem_cons_of_mem _ hd)) hrest⟩
    rw [hsame c (List.mem_cons_self _ _)]
    exact hn

theorem IsSeg_weaken (dl : Bool) (h : Heap) (q : Ptr) :
    ∀ (l : List (Nat × Block)) (prev prev1 p : Ptr),
      IsSeg dl h prev p l q → IsSeg false h prev1 p l q := by
  intro l
  induction l with
  | nil => intro prev prev1 p hs; exact hs
  | cons c cs ih =>
    intro prev prev1 p hs
    obtain ⟨hp, n, hn, hb, _, hrest⟩ := hs
    exact ⟨hp, n, hn, hb, by simp, ih _ _ _ hrest⟩

theorem IsSeg_live (dl : Bool) (h : Heap) (q : Ptr) :
    ∀ (l : List (Nat × Block)) (prev p : Ptr),
      IsSeg dl h prev p l q →
      ∀ c ∈ l, ∃ n, getNode h (some c.1) = some n ∧ n.block = c.2 := by
  intro l
  induction l with
  | nil => intro prev p _ c hc; simp at hc
  | cons c cs ih =>
    intro prev p hs d hd
    obtain ⟨_, n, hn, hb, _, hrest⟩ := hs
    rcases List.mem_cons.mp hd with rfl | hd1
    · exact ⟨n, hn, hb⟩
    · exact ih _ _ hrest d hd1

theorem IsSeg_det (h : Heap) :
    ∀ (l l1 : List (Nat × Block)) (dl dl1 : Bool) (prev prev1 p : Ptr),
      IsSeg dl h prev p l none → IsSeg dl1 h prev1 p l1 none → l = l1 := by
  intro l
  induction l with
  | nil =>
    intro l1 dl dl1 prev prev1 p hs hs1
    cases l1 with
    | nil => rfl
    | cons c cs =>
      simp only [IsSeg] at hs
      subst hs
      exact absurd hs1.1 (by simp)
  | cons c cs ih =>
    intro l1 dl dl1 prev prev1 p hs hs1
    obtain ⟨hp, n, hn, hb, _, hrest⟩ := hs
    cases l1 with
    | nil =>
      simp only [IsSeg] at hs1
      subst hs1
      exact absurd hp (by simp)
    | cons c1 cs1 =>
      obtain ⟨hp1, n1, hn1, hb1, _, hrest1⟩ := hs1
      have hc : c.1 = c1.1 := by
        rw [hp] at hp1
        exact Option.some.inj hp1
      rw [← hc, hn] at hn1
      cases hn1
      have hcc : c = c1 := Prod.ext hc (by rw [← hb, ← hb1])
      subst hcc
      rw [ih cs1 dl dl1 _ _ _ hrest hrest1]

theorem IsSeg_nodup (h : Heap) :
    ∀ (l : List (Nat × Block)) (dl : Bool) (prev p : Ptr),
      IsSeg dl h prev p l none → (l.map Prod.fst).Nodup := by
  intro l
  induction l with
  | nil => intro dl prev p _; simp
  | cons c cs ih =>
    intro dl prev p hs
    have hs0 := hs
    obtain ⟨hp, n, hn, hb, _, hrest⟩ := hs
    rw [List.map_cons, List.nodup_cons]
    refine ⟨?_, ih dl _ _ hrest⟩
    intro hmem
    obtain ⟨d, hd, hdc⟩ := List.mem_map.mp hmem
    obtain ⟨l1, l2, hsplit⟩ := List.append_of_mem hd
    rw [hsplit] at hrest
    obtain ⟨m, _, h2⟩ := (IsSeg_append dl h none (d :: l2) l1 _ _).mp hrest
    have hm : m = some c.1 := by rw [h2.1, hdc]
    rw [hm] at h2
    have hall : IsSeg dl h prev (some c.1) (c :: cs) none := by rw [← hp]; exact hs0
    have heq := IsSeg_det h _ _ _ _ _ _ _ hall h2
    have hlen := congrArg List.length heq
    rw [hsplit] at hlen
    simp at hlen
    omega

theorem cellsFrom_isSeg (h : Heap) :
    ∀ (fuel : Nat) (p prev : Ptr) (cells : List (Nat × LinkedList)),
      cellsFrom fuel h p = some cells →
      IsSeg false h prev p (cells.map (fun c => (c.1, c.2.block))) none
        ∧ cells.length ≤ fuel := by
  intro fuel
  induction fuel with
  | zero =>
    intro p prev cells hc
    cases p with
    | none => simp [cellsFrom] at hc; subst hc; simp [IsSeg]
    | some a => simp [cellsFrom] at hc
  | succ fuel ih =>
    intro p prev cells hc
    cases p with
    | none => simp [cellsFrom] at hc; subst hc; simp [IsSeg]
    | some a =>
      simp only [cellsFrom] at hc
      cases hn : getNode h (some a) with
      | none => simp [hn] at hc
      | some n =>
        simp only [hn] at hc
        cases hr : cellsFrom fuel h n.next with
        | none => simp [hr] at hc
        | some rest =>
          simp only [hr, Option.some.injEq] at hc
          subst hc
          obtain ⟨h1, h2⟩ := ih n.next (some a) rest hr
          refine ⟨⟨rfl, n, hn, rfl, by simp, h1⟩, ?_⟩
          simp only [List.length_cons]
          omega

theorem isSeg_cellsFrom (h : Heap) :
    ∀ (l : List (Nat × Block)) (fuel : Nat) (dl : Bool) (prev p : Ptr),
      IsSeg dl h prev p l none → l.length ≤ fuel →
      ∃ cells, cellsFrom fuel h p = some cells
        ∧ cells.map (fun c => (c.1, c.2.block)) = l := by
  intro l
  induction l with
  | nil =>
    intro fuel dl prev p hs _
    simp only [IsSeg] at hs
    subst hs
    exact ⟨[], by cases fuel <;> rfl, rfl⟩
  | cons c cs ih =>
    intro fuel dl prev p hs hlen
    obtain ⟨hp, n, hn, hb, _, hrest⟩ := hs
    cases fuel with
    | zero => simp at hlen
    | succ fuel =>
      obtain ⟨cells, hcells, hmap⟩ := ih fuel dl _ _ hrest (by simpa using hlen)
      refine ⟨(c.1, n) :: cells, ?_, ?_⟩
      · rw [hp]
        simp only [cellsFrom, hn, hcells]
      · simp only [List.map_cons, hmap, hb]

theorem setNode_spec {h : Heap} {a : Nat} {n : LinkedList} (f : LinkedList → LinkedList)
    (hn : getNode h (some a) = some n) :
    ∃ h1, setNode h (some a) f = some h1 ∧ h1.length = h.length
      ∧ getNode h1 (some a) = some (f n)
      ∧ ∀ b, b ≠ a → getNode h1 (some b) = getNode h (some b) := by
  refine ⟨h.set a (some (f n)), setNode_eq f hn, List.length_set _ _ _, ?_, ?_⟩
  · rw [getNode_set h a a _ (getNode_lt hn), if_pos rfl]
  · intro b hb
    rw [getNode_set h a b _ (getNode_lt hn), if_neg (fun e => hb e.symm)]

/-! ## The insertion loop -/

theorem insertSpec_continue (x c : Nat × Block) (pre rest : List (Nat × Block))
    (hA : ¬ x.2.addressEnd ≤ c.2.addressStart) (hB : ¬ x.2.addressStart ≥ c.2.addressEnd) :
    insertSpec x pre (c :: rest) = insertSpec x (pre ++ [c]) rest := by
  conv_lhs => rw [insertSpec.eq_def]
  simp only [if_neg hA, if_neg hB]

theorem insertSpec_continue_next (x c d : Nat × Block) (pre rest : List (Nat × Block))
    (hA : ¬ x.2.addressEnd ≤ c.2.addressStart) (hB : x.2.addressStart ≥ c.2.addressEnd)
    (hC : ¬ x.2.addressEnd ≤ d.2.addressStart) :
    insertSpec x pre (c :: d :: rest) = insertSpec x (pre ++ [c]) (d :: rest) := by
  conv_lhs => rw [insertSpec.eq_def]
  simp only [if_neg hA, if_pos hB, if_neg hC]

theorem insertLoop_spec (dl : Bool) (h : Heap) (head : Ptr) (xa : Nat) (xn : LinkedList)
    (hx : getNode h (some xa) = some xn) (hxl : xn.last = none) (hxn : xn.next = none) :
    ∀ (rest pre : List (Nat × Block)) (fuel : Nat) (cur : Ptr),
      rest.length ≤ fuel →
      IsSeg dl h none head pre cur →
      IsSeg dl h (lastPtr none pre) cur rest none →
      xa ∉ (pre ++ rest).map Prod.fst →
      ∃ r, insertLoop fuel h head xa cur = some r
        ∧ IsSeg dl r.heap none r.head (insertSpec (xa, xn.block) pre rest).1 none
        ∧ r.appended = (insertSpec (xa, xn.block) pre rest).2
        ∧ r.heap.length = h.length
        ∧ (∀ a, a ≠ xa → a ∉ (pre ++ rest).map Prod.fst →
            getNode r.heap (some a) = getNode h (some a))
        ∧ (∀ a n, getNode h (some a) = some n →
            ∃ n1, getNode r.heap (some a) = some n1 ∧ n1.block = n.block) := by
  intro rest
  induction rest with
  | nil =>
    intro pre fuel cur _ hpre hrest _
    simp only [IsSeg] at hrest
    subst hrest
    refine ⟨⟨h, head, false⟩, by cases fuel <;> rfl, hpre, rfl, rfl, fun _ _ _ => rfl, ?_⟩
    intro a n hn
    exact ⟨n, hn, rfl⟩
  | cons c rest ih =>
    intro pre fuel cur hfuel hpre hrest hfresh
    -- the whole list and its consequences
    have hwhole : IsSeg dl h none head (pre ++ c :: rest) none :=
      (IsSeg_append dl h none (c :: rest) pre none head).mpr ⟨cur, hpre, hrest⟩
    have hnodup := IsSeg_nodup h _ dl none head hwhole
    obtain ⟨ca, cb⟩ := c
    obtain ⟨hcur, cn, hcn, hcb, hcl, htail⟩ := hrest
    simp only at hcur hcn hcb hcl htail
    subst hcur
    subst hcb
    cases fuel with
    | zero => simp at hfuel
    | succ fuel =>
    have hfuel1 : rest.length ≤ fuel := by simpa using hfuel
    have hxc : xa ≠ ca := by
      intro e
      apply hfresh
      rw [e]
      simp
    have hx_pre : ∀ d ∈ pre, d.1 ≠ xa := by
      intro d hd e
      apply hfresh
      rw [← e]
      exact List.mem_map.mpr ⟨d, List.mem_append_left _ hd, rfl⟩
    have hx_rest : ∀ d ∈ rest, d.1 ≠ xa := by
      intro d hd e
      apply hfresh
      rw [← e]
      exact List.mem_map.mpr ⟨d, List.mem_append_right _ (List.mem_cons_of_mem _ hd), rfl⟩
    have hc_pre : ∀ d ∈ pre, d.1 ≠ ca := by
      intro d hd e
      rw [List.map_append, List.map_cons] at hnodup
      have := (List.nodup_append.mp hnodup).2.2
      exact this (List.mem_map.mpr ⟨d, hd, rfl⟩) (by rw [e]; simp)
    have hc_rest : ∀ d ∈ rest, d.1 ≠ ca := by
      intro d hd e
      rw [List.map_append, List.map_cons] at hnodup
      have := (List.nodup_cons.mp (List.nodup_append.mp hnodup).2.1).1
      exact this (by rw [← e]; exact List.mem_map.mpr ⟨d, hd, rfl⟩)
    -- the step of the loop that goes on to the next cell
    have hcontinue :
        ∃ r, insertLoop fuel h head xa cn.next = some r
          ∧ IsSeg dl r.heap none r.head (insertSpec (xa, xn.block) (pre ++ [(ca, cn.block)]) rest).1 none
          ∧ r.appended = (insertSpec (xa, xn.block) (pre ++ [(ca, cn.block)]) rest).2
          ∧ r.heap.length = h.length
          ∧ (∀ a, a ≠ xa → a ∉ (pre ++ (ca, cn.block) :: rest).map Prod.fst →
              getNode r.heap (some a) = getNode h (some a))
          ∧ (∀ a n, getNode h (some a) = some n →
              ∃ n1, getNode r.heap (some a) = some n1 ∧ n1.block = n.block) := by
      have hpre1 : IsSeg dl h none head (pre ++ [(ca, cn.block)]) cn.next :=
        (IsSeg_append dl h cn.next [(ca, cn.block)] pre none head).mpr
          ⟨some ca, hpre, rfl, cn, hcn, rfl, hcl, rfl⟩
      have hlast : lastPtr none (pre ++ [(ca, cn.block)]) = some ca := by
        rw [lastPtr_append]; rfl
      have hfresh1 : xa ∉ ((pre ++ [(ca, cn.block)]) ++ rest).map Prod.fst := by
        simpa using hfresh
      obtain ⟨r, h1, h2, h3, h4, h5, h6⟩ :=
        ih (pre ++ [(ca, cn.block)]) fuel cn.next hfuel1 hpre1 (by rw [hlast]; exact htail) hfresh1
      refine ⟨r, h1, h2, h3, h4, ?_, h6⟩
      intro a ha hnot
      exact h5 a ha (by simpa using hnot)
    by_cases hA : xn.block.addressEnd ≤ cn.block.addressStart
    · -- in front of the current cell
      obtain ⟨h1, hs1, hl1, hg1, hf1⟩ := setNode_spec (fun n => { n with next := some ca }) hx
      have hcn1 : getNode h1 (some ca) = some cn := by rw [hf1 ca (Ne.symm hxc)]; exact hcn
      obtain ⟨h2, hs2, hl2, hg2, hf2⟩ :=
        setNode_spec (fun n => { n with last := some xa }) hcn1
      have hsame : ∀ a, a ≠ xa → a ≠ ca → getNode h2 (some a) = getNode h (some a) := by
        intro a h1a h2a
        rw [hf2 a h2a, hf1 a h1a]
      refine ⟨⟨h2, some xa, false⟩, ?_, ?_, ?_, ?_, ?_, ?_⟩
      · simp only [insertLoop, hx, hcn, if_pos hA, hs1, hs2]
      · simp only [insertSpec, if_pos hA]
        refine ⟨rfl, { xn with next := some ca }, (by rw [hf2 xa hxc]; exact hg1), rfl,
          fun _ => hxl, ?_⟩
        refine ⟨rfl, { cn with last := some xa }, hg2, rfl, fun _ => rfl, ?_⟩
        exact IsSeg_frame dl h h2 none rest _ _
          (fun d hd => hsame d.1 (hx_rest d hd) (hc_rest d hd)) htail
      · simp only [insertSpec, if_pos hA]
      · simp only [hl2, hl1]
      · intro a ha hnot
        refine hsame a ha ?_
        intro e
        apply hnot
        rw [e]
        simp
      · intro a n hn
        by_cases ha1 : a = xa
        · rw [ha1, hx] at hn
          rw [ha1, ← Option.some.inj hn]
          exact ⟨{ xn with next := some ca }, (by rw [hf2 xa hxc]; exact hg1), rfl⟩
        · by_cases ha2 : a = ca
          · rw [ha2, hcn] at hn
            rw [ha2, ← Option.some.inj hn]
            exact ⟨{ cn with last := some xa }, hg2, rfl⟩
          · exact ⟨n, by rw [hsame a ha1 ha2]; exact hn, rfl⟩
    · have hpre_frame : ∀ h2 : Heap,
          (∀ a, a ≠ xa → a ≠ ca → (∀ d ∈ rest.head?, a ≠ d.1) →
            getNode h2 (some a) = getNode h (some a)) →
          IsSeg dl h2 none head pre (some ca) := by
        intro h2 hsame
        refine IsSeg_frame dl h h2 (some ca) pre _ _ ?_ hpre
        intro d hd
        refine hsame d.1 (hx_pre d hd) (hc_pre d hd) ?_
        intro e he hde
        cases rest with
        | nil => simp at he
        | cons e1 rest1 =>
          simp only [List.head?_cons, Option.mem_def, Option.some.injEq] at he
          subst he
          rw [List.map_append, List.map_cons, List.map_cons] at hnodup
          have := (List.nodup_append.mp hnodup).2.2
          exact this (List.mem_map.mpr ⟨d, hd, rfl⟩) (by rw [hde]; simp)
      by_cases hB : xn.block.addressStart ≥ cn.block.addressEnd
      · cases hnext : cn.next with
        | none =>
          -- append
          rw [hnext] at htail
          have hrest_nil : rest = [] := by
            cases rest with
            | nil => rfl
            | cons d rest1 => exact absurd htail.1 (by simp)
          subst hrest_nil
          obtain ⟨h1, hs1, hl1, hg1, hf1⟩ :=
            setNode_spec (fun n => { n with last := some ca }) hx
          have hcn1 : getNode h1 (some ca) = some cn := by
            rw [hf1 ca (Ne.symm hxc)]; exact hcn
          obtain ⟨h2, hs2, hl2, hg2, hf2⟩ :=
            setNode_spec (fun n => { n with next := some xa }) hcn1
          have hsame : ∀ a, a ≠ xa → a ≠ ca → getNode h2 (some a) = getNode h (some a) := by
            intro a h1a h2a
            rw [hf2 a h2a, hf1 a h1a]
          refine ⟨⟨h2, head, true⟩, ?_, ?_, ?_, ?_, ?_, ?_⟩
          · simp only [insertLoop, hx, hcn, if_neg hA, if_pos hB, hnext, hs1, hs2]
          · simp only [insertSpec, if_neg hA, if_pos hB]
            refine (IsSeg_append dl h2 none _ pre none head).mpr
              ⟨some ca, hpre_frame h2 (fun a h1a h2a _ => hsame a h1a h2a), ?_⟩
            refine ⟨rfl, { cn with next := some xa }, hg2, rfl, hcl, ?_⟩
            refine ⟨rfl, { xn with last := some ca }, (by rw [hf2 xa hxc]; exact hg1), rfl,
              fun _ => rfl, ?_⟩
            exact hxn
          · simp only [insertSpec, if_neg hA, if_pos hB]
          · simp only [hl2, hl1]
          · intro a ha hnot
            refine hsame a ha ?_
            intro e
            apply hnot
            rw [e]
            simp
          · intro a n hn
            by_cases ha1 : a = xa
            · rw [ha1, hx] at hn
              rw [ha1, ← Option.some.inj hn]
              exact ⟨{ xn with last := some ca }, (by rw [hf2 xa hxc]; exact hg1), rfl⟩
            · by_cases ha2 : a = ca
              · rw [ha2, hcn] at hn
                rw [ha2, ← Option.some.inj hn]
                exact ⟨{ cn with next := some xa }, hg2, rfl⟩
              · exact ⟨n, by rw [hsame a ha1 ha2]; exact hn, rfl⟩
        | some nx =>
          rw [hnext] at htail hcontinue
          cases rest with
          | nil => exact absurd htail (by simp [IsSeg])
          | cons d rest2 =>
          obtain ⟨da, db⟩ := d
          obtain ⟨hdp, dn, hdn, hdb, hdl, htail2⟩ := htail
          simp only at hdp hdn hdb hdl htail2
          have hnxda : da = nx := (Option.some.inj hdp).symm
          subst hnxda
          subst hdb
          have hxd : xa ≠ da := (hx_rest _ (List.mem_cons_self _ _)).symm
          have hcd : ca ≠ da := (hc_rest _ (List.mem_cons_self _ _)).symm
          have hd_rest : ∀ e ∈ rest2, e.1 ≠ da := by
            intro e he hed
            rw [List.map_append, List.map_cons, List.map_cons] at hnodup
            have h1 := (List.nodup_cons.mp (List.nodup_append.mp hnodup).2.1).2
            have h2 := (List.nodup_cons.mp h1).1
            exact h2 (by rw [← hed]; exact List.mem_map.mpr ⟨e, he, rfl⟩)
          by_cases hC : xn.block.addressEnd ≤ dn.block.addressStart
          · -- between the current cell and the next one
            obtain ⟨h1, hs1, hl1, hg1, hf1⟩ :=
              setNode_spec (fun n => { n with next := some da }) hx
            have hdn1 : getNode h1 (some da) = some dn := by
              rw [hf1 da hxd.symm]; exact hdn
            obtain ⟨h2, hs2, hl2, hg2, hf2⟩ :=
              setNode_spec (fun n => { n with last := some xa }) hdn1
            have hx2 : getNode h2 (some xa) = some { xn with next := some da } := by
              rw [hf2 xa hxd]; exact hg1
            obtain ⟨h3, hs3, hl3, hg3, hf3⟩ :=
              setNode_spec (fun n => { n with last := some ca }) hx2
            have hcn3 : getNode h3 (some ca) = some cn := by
              rw [hf3 ca hxc.symm, hf2 ca hcd, hf1 ca hxc.symm]; exact hcn
            obtain ⟨h4, hs4, hl4, hg4, hf4⟩ :=
              setNode_spec (fun n => { n with next := some xa }) hcn3
            have hsame : ∀ a, a ≠ xa → a ≠ ca → a ≠ da →
                getNode h4 (some a) = getNode h (some a) := by
              intro a h1a h2a h3a
              rw [hf4 a h2a, hf3 a h1a, hf2 a h3a, hf1 a h1a]
            have hx4 : getNode h4 (some xa)
                = some { xn with next := some da, last := some ca } := by
              rw [hf4 xa hxc]; exact hg3
            have hd4 : getNode h4 (some da) = some { dn with last := some xa } := by
              rw [hf4 da hcd.symm, hf3 da hxd.symm]; exact hg2
            refine ⟨⟨h4, head, false⟩, ?_, ?_, ?_, ?_, ?_, ?_⟩
            · simp only [insertLoop, hx, hcn, if_neg hA, if_pos hB, hnext, hdn, if_pos hC,
                hs1, hs2, hs3, hs4]
            · simp only [insertSpec, if_neg hA, if_pos hB, if_pos hC]
              refine (IsSeg_append dl h4 none _ pre none head).mpr
                ⟨some ca, hpre_frame h4 (fun a h1a h2a h3a =>
                  hsame a h1a h2a (h3a (da, dn.block) (by simp))), ?_⟩
              refine ⟨rfl, { cn with next := some xa }, hg4, rfl, hcl, ?_⟩
              refine ⟨rfl, { xn with next := some da, last := some ca }, hx4, rfl,
                fun _ => rfl, ?_⟩
              refine ⟨rfl, { dn with last := some xa }, hd4, rfl, fun _ => rfl, ?_⟩
              exact IsSeg_frame dl h h4 none rest2 _ _
                (fun e he => hsame e.1 (hx_rest e (List.mem_cons_of_mem _ he))
                  (hc_rest e (List.mem_cons_of_mem _ he)) (hd_rest e he)) htail2
            · simp only [insertSpec, if_neg hA, if_pos hB, if_pos hC]
            · simp only [hl4, hl3, hl2, hl1]
            · intro a ha hnot
              refine hsame a ha ?_ ?_
              · intro e
                apply hnot
                rw [e]
                simp
              · intro e
                apply hnot
                rw [e]
                simp
            · intro a n hn
              by_cases ha1 : a = xa
              · rw [ha1, hx] at hn
                rw [ha1, ← Option.some.inj hn]
                exact ⟨_, hx4, rfl⟩
              · by_cases ha2 : a = ca
                · rw [ha2, hcn] at hn
                  rw [ha2, ← Option.some.inj hn]
                  exact ⟨_, hg4, rfl⟩
                · by_cases ha3 : a = da
                  · rw [ha3, hdn] at hn
                    rw [ha3, ← Option.some.inj hn]
                    exact ⟨_, hd4, rfl⟩
                  · exact ⟨n, by rw [hsame a ha1 ha2 ha3]; exact hn, rfl⟩
          · obtain ⟨r, h1, h2, h3, h4, h5, h6⟩ := hcontinue
            refine ⟨r, ?_, ?_, ?_, h4, h5, h6⟩
            · simp only [insertLoop, hx, hcn, if_neg hA, if_pos hB, hnext, hdn, if_neg hC]
              exact h1
            · rw [insertSpec_continue_next _ _ _ _ _ hA hB hC]
              exact h2
            · rw [insertSpec_continue_next _ _ _ _ _ hA hB hC]
              exact h3
      · obtain ⟨r, h1, h2, h3, h4, h5, h6⟩ := hcontinue
        refine ⟨r, ?_, ?_, ?_, h4, h5, h6⟩
        · simp only [insertLoop, hx, hcn, if_neg hA, if_neg hB]
          exact h1
        · rw [insertSpec_continue _ _ _ _ hA hB]
          exact h2
        · rw [insertSpec_continue _ _ _ _ hA hB]
          exact h3

/-! ## Insertion into an ordered list -/

theorem insertSpec_ordered (x : Nat × Block) :
    ∀ (rest pre : List (Nat × Block)),
      rest ≠ [] →
      (∀ b ∈ pre, b.2.addressEnd ≤ x.2.addressStart) →
      (pre ≠ [] → ∀ c ∈ rest.head?, ¬ x.2.addressEnd ≤ c.2.addressStart) →
      (∀ b ∈ rest, b.2.addressEnd ≤ x.2.addressStart ∨ x.2.addressEnd ≤ b.2.addressStart) →
      rest.Pairwise (fun a b => a.2.addressEnd ≤ b.2.addressStart) →
      (∀ b ∈ rest, b.2.addressStart < b.2.addressEnd) →
      ∃ r1 r2, rest = r1 ++ r2
        ∧ insertSpec x pre rest = (pre ++ r1 ++ x :: r2, decide (r2 = []))
        ∧ (∀ b ∈ r1, b.2.addressEnd ≤ x.2.addressStart)
        ∧ (∀ b ∈ r2, x.2.addressEnd ≤ b.2.addressStart) := by
  intro rest
  induction rest with
  | nil => intro pre hne; exact absurd rfl hne
  | cons c rest ih =>
    intro pre _ hpre hhead hdisj hpw hval
    have hc_val := hval c (List.mem_cons_self _ _)
    have hpw1 := List.pairwise_cons.mp hpw
    by_cases hA : x.2.addressEnd ≤ c.2.addressStart
    · have hpre_nil : pre = [] := by
        by_contra hne
        exact hhead hne c (by simp) hA
      subst hpre_nil
      refine ⟨[], c :: rest, rfl, ?_, by simp, ?_⟩
      · rw [insertSpec.eq_def]
        simp only [if_pos hA, List.nil_append, List.append_nil]
        simp
      · intro b hb
        rcases List.mem_cons.mp hb with rfl | hb1
        · exact hA
        · have := hpw1.1 b hb1
          omega
    · have hB : x.2.addressStart ≥ c.2.addressEnd := by
        rcases hdisj c (List.mem_cons_self _ _) with h1 | h1
        · exact h1
        · exact absurd h1 hA
      cases rest with
      | nil =>
        refine ⟨[c], [], rfl, ?_, ?_, by simp⟩
        · rw [insertSpec.eq_def]
          simp only [if_neg hA, if_pos hB]
          simp
        · intro b hb
          rw [List.mem_singleton.mp hb]
          exact hB
      | cons d rest2 =>
        by_cases hC : x.2.addressEnd ≤ d.2.addressStart
        · refine ⟨[c], d :: rest2, rfl, ?_, ?_, ?_⟩
          · rw [insertSpec.eq_def]
            simp only [if_neg hA, if_pos hB, if_pos hC]
            simp
          · intro b hb
            rw [List.mem_singleton.mp hb]
            exact hB
          · intro b hb
            rcases List.mem_cons.mp hb with rfl | hb1
            · exact hC
            · have h1 := (List.pairwise_cons.mp hpw1.2).1 b hb1
              have h2 := hval d (List.mem_cons_of_mem _ (List.mem_cons_self _ _))
              omega
        · obtain ⟨r1, r2, hsplit, hres, h1, h2⟩ := ih (pre ++ [c]) (by simp)
            (by
              intro b hb
              rcases List.mem_append.mp hb with hb1 | hb1
              · exact hpre b hb1
              · rw [List.mem_singleton.mp hb1]; exact hB)
            (by
              intro _ e he
              simp only [List.head?_cons, Option.mem_def, Option.some.injEq] at he
              subst he
              exact hC)
            (fun b hb => hdisj b (List.mem_cons_of_mem _ hb))
            hpw1.2
            (fun b hb => hval b (List.mem_cons_of_mem _ hb))
          refine ⟨c :: r1, r2, by rw [hsplit]; rfl, ?_, ?_, h2⟩
          · rw [insertSpec_continue_next _ _ _ _ _ hA hB hC, hres]
            simp
          · intro b hb
            rcases List.mem_cons.mp hb with rfl | hb1
            · exact hB
            · exact h1 b hb1

/-! ## Reading a list back -/

theorem blockCells_isSeg {s : State} {cells : List (Nat × LinkedList)}
    (hb : blockCells s = some cells) :
    IsSeg false s.heap none s.allocations (cells.map (fun c => (c.1, c.2.block))) none
      ∧ cells.length ≤ walkFuel s.heap :=
  cellsFrom_isSeg s.heap _ _ none cells hb

theorem blocksOf_of_isSeg (s : State) (l : List (Nat × Block)) (dl : Bool) (prev : Ptr)
    (hs : IsSeg dl s.heap prev s.allocations l none) (hlen : l.length ≤ walkFuel s.heap) :
    blocksOf s = some (l.map Prod.snd) := by
  obtain ⟨cells, hcells, hmap⟩ := isSeg_cellsFrom s.heap l _ dl prev _ hs hlen
  unfold blocksOf blockCells
  rw [hcells, ← hmap]
  simp [Function.comp]

theorem holesOf_of_isSeg (s : State) (l : List (Nat × Block)) (dl : Bool) (prev : Ptr)
    (hs : IsSeg dl s.heap prev s.holes l none) (hlen : l.length ≤ walkFuel s.heap) :
    holesOf s = some (l.map (fun c => (c.2.addressStart, c.2.addressEnd))) := by
  obtain ⟨cells, hcells, hmap⟩ := isSeg_cellsFrom s.heap l _ dl prev _ hs hlen
  unfold holesOf holeCells
  rw [hcells, ← hmap]
  simp [Function.comp]

/-! ## The parts of an allocation -/

/-- An accepted request has a chosen hole: a cell of the hole list that the
block fits in. -/
theorem chooseHole_of_accepted (s : State) (id size : Int)
    (hcells : List (Nat × LinkedList)) (hh : holeCells s = some hcells)
    (hacc : validateAllocate s id size = some []) :
    ∃ hole ∈ hcells, chooseHole s size = some (some hole.1) ∧ fits size hole.2 ∧ 0 < size := by
  have hfirst := firstFitScan_eq size s.heap _ _ hcells hh
  -- the validation found a hole
  have hex : (∃ c ∈ hcells, fits size c.2) ∧ 0 < size := by
    unfold validateAllocate at hacc
    by_cases hneg : id < 0
    · rw [if_pos hneg] at hacc; cases hacc
    · rw [if_neg hneg] at hacc
      cases hd : duplicateScan (walkFuel s.heap) s.heap s.allocations id with
      | none => rw [hd] at hacc; cases hacc
      | some d =>
        rw [hd] at hacc
        cases d with
        | true => cases hacc
        | false =>
          simp only at hacc
          by_cases hsz : size ≤ 0
          · rw [if_pos hsz] at hacc; cases hacc
          · rw [if_neg hsz] at hacc
            by_cases hcap : size + s.pm_allocated > s.pm_size
            · rw [if_pos hcap] at hacc; cases hacc
            · rw [if_neg hcap, hfirst] at hacc
              refine ⟨?_, by omega⟩
              by_contra hno
              have hnone : firstFitIn size hcells = none :=
                (firstFitIn_eq_none size hcells).mpr (fun c hc hf => hno ⟨c, hc, hf⟩)
              rw [hnone] at hacc
              cases hacc
  obtain ⟨hex, hpos⟩ := hex
  unfold chooseHole
  by_cases halg : s.holeFillingAlgorithm = 0
  · rw [if_pos halg, hfirst]
    obtain ⟨pre, c, post, hsplit, hres, hfit, _⟩ := firstFitIn_spec size hcells hex
    exact ⟨c, by rw [hsplit]; simp, by rw [hres], hfit, hpos⟩
  · rw [if_neg halg]
    have hscan := bestFitScan_eq size s.heap _ _ hcells none hh (by simp)
    simp only [Option.map_none'] at hscan
    rw [hscan]
    rcases bestFitIn_spec size hcells none with
      ⟨_, hall⟩ | ⟨pre, c, post, hsplit, hres, hf, _, _, _⟩
    · obtain ⟨c, hc, hcf⟩ := hex
      obtain ⟨b, hb, _⟩ := hall c hc hcf
      cases hb
    · exact ⟨c, by rw [hsplit]; simp, by rw [hres]; rfl, hf, hpos⟩

theorem IsSeg_append_heap (dl : Bool) (h : Heap) (x : Option LinkedList) (q : Ptr) :
    ∀ (l : List (Nat × Block)) (prev p : Ptr),
      IsSeg dl h prev p l q → IsSeg dl (h ++ [x]) prev p l q := by
  intro l prev p hs
  refine IsSeg_frame dl h (h ++ [x]) q l prev p ?_ hs
  intro c hc
  obtain ⟨n, hn, _⟩ := IsSeg_live dl h q l prev p hs c hc
  rw [getNode_append, if_neg (Nat.ne_of_lt (getNode_lt hn))]

theorem IsSeg_fst_lt (dl : Bool) (h : Heap) (q : Ptr) (l : List (Nat × Block)) (prev p : Ptr)
    (hs : IsSeg dl h prev p l q) : ∀ a ∈ l.map Prod.fst, a < h.length := by
  intro a ha
  obtain ⟨c, hc, rfl⟩ := List.mem_map.mp ha
  obtain ⟨n, hn, _⟩ := IsSeg_live dl h q l prev p hs c hc
  exact getNode_lt hn

theorem insertSpec_nil_of_nil (x : Nat × Block) (pre : List (Nat × Block)) :
    insertSpec x pre [] = (pre, false) := by
  rw [insertSpec.eq_def]

theorem storeAllocation_spec (dl : Bool) (s : State) (id size : Int) (hole : Nat)
    (hn : LinkedList) (bl : List (Nat × Block))
    (hhole : getNode s.heap (some hole) = some hn)
    (hbl : IsSeg dl s.heap none s.allocations bl none)
    (hlen : bl.length ≤ walkFuel s.heap) :
    ∃ s2, storeAllocation s id size (some hole) = some (s2, s.heap.length)
      ∧ s2.heap.length = s.heap.length + 1
      ∧ s2.holes = s.holes ∧ s2.pm_size = s.pm_size
      ∧ s2.holeFillingAlgorithm = s.holeFillingAlgorithm
      ∧ s2.pm_allocated = s.pm_allocated + size
      ∧ IsSeg dl s2.heap none s2.allocations
          (storedList (s.heap.length,
            ⟨id, hn.block.addressStart, hn.block.addressStart + size⟩) bl) none
      ∧ (s2.allocationsLast = some s.heap.length
          ∨ (bl ≠ [] ∧ s2.allocationsLast = s.allocationsLast))
      ∧ (∀ b, b ≠ s.heap.length → b ∉ bl.map Prod.fst →
          getNode s2.heap (some b) = getNode s.heap (some b))
      ∧ (∀ b n, getNode s.heap (some b) = some n →
          ∃ n1, getNode s2.heap (some b) = some n1 ∧ n1.block = n.block)
      ∧ (∃ n1, getNode s2.heap (some s.heap.length) = some n1
          ∧ n1.block = ⟨id, hn.block.addressStart, hn.block.addressStart + size⟩) := by
  cases hal : s.allocations with
  | none =>
    rw [hal] at hbl
    have hnil : bl = [] := by
      cases bl with
      | nil => rfl
      | cons c cs => exact absurd hbl.1 (by simp)
    subst hnil
    refine ⟨{ s with
        heap := s.heap ++ [some (⟨none,
          ⟨id, hn.block.addressStart, hn.block.addressStart + size⟩, none⟩ : LinkedList)],
        allocations := some s.heap.length, allocationsLast := some s.heap.length,
        pm_allocated := s.pm_allocated + size },
      by simp only [storeAllocation, hhole, hal, malloc], ?_, rfl, rfl, rfl, rfl, ?_,
      Or.inl rfl, ?_, ?_, ?_⟩
    · simp
    · simp only [storedList, if_true]
      refine ⟨rfl, ⟨none, ⟨id, hn.block.addressStart, hn.block.addressStart + size⟩, none⟩,
        ?_, rfl, fun _ => rfl, rfl⟩
      simp only [getNode_append, if_true]
    · intro b hb _
      simp only [getNode_append, if_neg hb]
    · intro b n hbn
      refine ⟨n, ?_, rfl⟩
      simp only [getNode_append, if_neg (Nat.ne_of_lt (getNode_lt hbn))]
      exact hbn
    · refine ⟨⟨none, ⟨id, hn.block.addressStart, hn.block.addressStart + size⟩, none⟩,
        ?_, rfl⟩
      simp only [getNode_append, if_true]
  | some c =>
    have hne : bl ≠ [] := by
      intro e
      subst e
      simp only [IsSeg] at hbl
      rw [hal] at hbl
      cases hbl
    have hx : getNode (s.heap ++ [some (⟨none,
          ⟨id, hn.block.addressStart, hn.block.addressStart + size⟩, none⟩ : LinkedList)])
        (some s.heap.length)
        = some ⟨none, ⟨id, hn.block.addressStart, hn.block.addressStart + size⟩, none⟩ := by
      simp only [getNode_append, if_true]
    have hfresh : s.heap.length ∉ (([] : List (Nat × Block)) ++ bl).map Prod.fst := by
      intro hmem
      have := IsSeg_fst_lt dl s.heap none bl none _ hbl _ (by simpa using hmem)
      omega
    obtain ⟨r, hr, hseg, happ, hrlen, hframe, hlive⟩ :=
      insertLoop_spec dl _ s.allocations s.heap.length _ hx rfl rfl bl []
        (walkFuel (s.heap ++ [some (⟨none,
          ⟨id, hn.block.addressStart, hn.block.addressStart + size⟩, none⟩ : LinkedList)]))
        s.allocations
        (by simp only [walkFuel, List.length_append, List.length_singleton] at hlen ⊢; omega)
        rfl (IsSeg_append_heap dl s.heap _ none bl _ _ hbl) hfresh
    rw [hal] at hr
    refine ⟨{ s with
        heap := r.heap, allocations := r.head,
        allocationsLast := if r.appended = true then some s.heap.length else s.allocationsLast,
        pm_allocated := s.pm_allocated + size },
      by simp only [storeAllocation, hhole, hal, malloc, hr], ?_, rfl, rfl, rfl, rfl, ?_,
      ?_, ?_, ?_, ?_⟩
    · simp only [hrlen, List.length_append, List.length_singleton]
    · simp only [storedList, if_neg hne]
      exact hseg
    · simp only
      by_cases hap : r.appended = true
      · left; rw [if_pos hap]
      · right; rw [if_neg hap]; exact ⟨hne, rfl⟩
    · intro b hb hnot
      simp only
      rw [hframe b hb (by simpa using hnot), getNode_append, if_neg hb]
    · intro b n hbn
      exact hlive b n (by
        rw [getNode_append, if_neg (Nat.ne_of_lt (getNode_lt hbn))]; exact hbn)
    · exact hlive _ _ hx

theorem updateHole_spec (s2 : State) (a hole : Nat) (lastN fh nb : LinkedList)
    (hlast : getNode s2.heap s2.allocationsLast = some lastN)
    (hfh : getNode s2.heap (some hole) = some fh)
    (hnb : getNode s2.heap (some a) = some nb) :
    ∃ s3, updateHole s2 a (some hole) = some s3
      ∧ s3.allocations = s2.allocations ∧ s3.allocationsLast = s2.allocationsLast
      ∧ s3.pm_size = s2.pm_size ∧ s3.pm_allocated = s2.pm_allocated
      ∧ s3.holeFillingAlgorithm = s2.holeFillingAlgorithm
      ∧ s3.heap.length = s2.heap.length
      ∧ (∀ b, b ≠ hole → getNode s3.heap (some b) = getNode s2.heap (some b))
      ∧ ((lastN.block.addressEnd = fh.block.addressEnd ∧ s3.heap = s2.heap
            ∧ ((s2.holes = some hole ∧ s3.holes = fh.next)
              ∨ (s2.holes ≠ some hole ∧ s3.holes = s2.holes)))
        ∨ (lastN.block.addressEnd ≠ fh.block.addressEnd ∧ s3.holes = s2.holes
            ∧ getNode s3.heap (some hole) = some { fh with block :=
                { fh.block with addressStart := nb.block.addressEnd } })) := by
  by_cases heq : lastN.block.addressEnd = fh.block.addressEnd
  · by_cases hhead : some hole = s2.holes
    · refine ⟨{ s2 with holes := fh.next }, ?_, rfl, rfl, rfl, rfl, rfl, rfl, fun _ _ => rfl,
        Or.inl ⟨heq, rfl, Or.inl ⟨hhead.symm, rfl⟩⟩⟩
      have hhd : getNode s2.heap s2.holes = some fh := by rw [← hhead]; exact hfh
      simp only [updateHole, hlast, hfh, hnb, if_pos heq, if_pos hhead, hhd]
    · refine ⟨s2, ?_, rfl, rfl, rfl, rfl, rfl, rfl, fun _ _ => rfl,
        Or.inl ⟨heq, rfl, Or.inr ⟨fun e => hhead e.symm, rfl⟩⟩⟩
      simp only [updateHole, hlast, hfh, hnb, if_pos heq, if_neg hhead]
  · obtain ⟨h3, hs3, hl3, hg3, hf3⟩ := setNode_spec
      (fun n => { n with block := { n.block with addressStart := nb.block.addressEnd } }) hfh
    refine ⟨{ s2 with heap := h3 }, ?_, rfl, rfl, rfl, rfl, rfl, hl3, hf3,
      Or.inr ⟨heq, rfl, hg3⟩⟩
    simp only [updateHole, hlast, hfh, hnb, if_neg heq, hs3]

/-! ## Loops at a freed node -/

theorem cellsFrom_dead (h : Heap) (a : Nat) (hd : getNode h (some a) = none) (fuel : Nat) :
    cellsFrom fuel h (some a) = none := by
  cases fuel with
  | zero => rfl
  | succ fuel => simp only [cellsFrom, hd]

theorem firstFitScan_dead (h : Heap) (a : Nat) (hd : getNode h (some a) = none) (fuel : Nat)
    (size : Int) : firstFitScan fuel h (some a) size = none := by
  cases fuel with
  | zero => rfl
  | succ fuel => simp only [firstFitScan, hd]

theorem insertLoop_dead (h : Heap) (a : Nat) (hd : getNode h (some a) = none) (fuel : Nat)
    (head : Ptr) (nw : Nat) : insertLoop fuel h head nw (some a) = none := by
  cases fuel with
  | zero => rfl
  | succ fuel =>
    simp only [insertLoop, hd]
    split <;> simp_all

theorem DeallocateLinkedList_dead (h : Heap) (a : Nat) (hd : getNode h (some a) = none)
    (fuel : Nat) : DeallocateLinkedList fuel h (some a) = none := by
  cases fuel with
  | zero => rfl
  | succ fuel => simp only [DeallocateLinkedList, hd]

theorem PrintAllocationTable_dead (h : Heap) (a : Nat) (hd : getNode h (some a) = none)
    (fuel : Nat) : PrintAllocationTable fuel h (some a) = none := by
  cases fuel with
  | zero => rfl
  | succ fuel => simp only [PrintAllocationTable, hd]

/-! ## The list after an insertion, in general -/

theorem insertSpec_mem (x : Nat × Block) :
    ∀ (rest pre : List (Nat × Block)),
      ∀ e ∈ (insertSpec x pre rest).1, e = x ∨ e ∈ pre ∨ e ∈ rest := by
  intro rest
  induction rest with
  | nil =>
    intro pre e he
    rw [insertSpec_nil_of_nil] at he
    exact Or.inr (Or.inl he)
  | cons c rest ih =>
    intro pre e he
    rw [insertSpec.eq_def] at he
    simp only at he
    have hrec : e ∈ (insertSpec x (pre ++ [c]) rest).1 → e = x ∨ e ∈ pre ∨ e ∈ c :: rest := by
      intro h1
      rcases ih (pre ++ [c]) e h1 with h2 | h2 | h2
      · exact Or.inl h2
      · rcases List.mem_append.mp h2 with h3 | h3
        · exact Or.inr (Or.inl h3)
        · rw [List.mem_singleton.mp h3]; exact Or.inr (Or.inr (List.mem_cons_self _ _))
      · exact Or.inr (Or.inr (List.mem_cons_of_mem _ h2))
    split at he
    · rcases List.mem_cons.mp he with h1 | h1
      · exact Or.inl h1
      · exact Or.inr (Or.inr h1)
    · split at he
      · cases rest with
        | nil =>
          simp only [List.mem_append, List.mem_cons, List.mem_singleton, List.not_mem_nil,
            or_false] at he
          rcases he with h1 | h1 | h1
          · exact Or.inr (Or.inl h1)
          · rw [h1]; exact Or.inr (Or.inr (List.mem_cons_self _ _))
          · exact Or.inl h1
        | cons d rest2 =>
          simp only at he
          split at he
          · simp only [List.mem_append, List.mem_cons] at he
            rcases he with h1 | h1 | h1 | h1 | h1
            · exact Or.inr (Or.inl h1)
            · rw [h1]; exact Or.inr (Or.inr (List.mem_cons_self _ _))
            · exact Or.inl h1
            · rw [h1]
              exact Or.inr (Or.inr (List.mem_cons_of_mem _ (List.mem_cons_self _ _)))
            · exact Or.inr (Or.inr (List.mem_cons_of_mem _ (List.mem_cons_of_mem _ h1)))
          · exact hrec he
      · exact hrec he

theorem insertSpec_length (x : Nat × Block) :
    ∀ (rest pre : List (Nat × Block)),
      (insertSpec x pre rest).1.length ≤ pre.length + rest.length + 1 := by
  intro rest
  induction rest with
  | nil =>
    intro pre
    rw [insertSpec_nil_of_nil]
    simp
  | cons c rest ih =>
    intro pre
    rw [insertSpec.eq_def]
    simp only
    have hrec : (insertSpec x (pre ++ [c]) rest).1.length
        ≤ pre.length + (c :: rest).length + 1 := by
      have := ih (pre ++ [c])
      simp only [List.length_append, List.length_singleton, List.length_cons,
        List.length_nil] at this ⊢
      omega
    split
    · simp only [List.length_cons]; omega
    · split
      · cases rest with
        | nil => simp
        | cons d rest2 =>
          simp only
          split
          · simp only [List.length_append, List.length_cons]; omega
          · exact hrec
      · exact hrec

theorem storedList_mem (x : Nat × Block) (bl : List (Nat × Block)) :
    ∀ e ∈ storedList x bl, e = x ∨ e ∈ bl := by
  intro e he
  unfold storedList at he
  split at he
  · exact Or.inl (List.mem_singleton.mp he)
  · rcases insertSpec_mem x bl [] e he with h1 | h1 | h1
    · exact Or.inl h1
    · simp at h1
    · exact Or.inr h1

theorem storedList_length (x : Nat × Block) (bl : List (Nat × Block)) :
    (storedList x bl).length ≤ bl.length + 1 := by
  unfold storedList
  split
  · simp
  · have := insertSpec_length x bl []
    simpa using this

theorem insertSpec_weakOrder (x : Nat × Block) :
    ∀ (rest pre : List (Nat × Block)),
      WeakOrder (pre ++ rest) → NonNegative (pre ++ rest) →
      WeakOrder (insertSpec x pre rest).1 := by
  intro rest
  induction rest with
  | nil =>
    intro pre hw _
    rw [insertSpec_nil_of_nil]
    simpa using hw
  | cons c rest ih =>
    intro pre hw hnn
    have hrec : WeakOrder (insertSpec x (pre ++ [c]) rest).1 :=
      ih (pre ++ [c]) (by simpa using hw) (by simpa using hnn)
    unfold WeakOrder at hw ⊢
    obtain ⟨H1, H2, H3⟩ := List.pairwise_append.mp hw
    obtain ⟨H2a, H2b⟩ := List.pairwise_cons.mp H2
    have hc := hnn c (by simp)
    rw [insertSpec.eq_def]
    simp only
    split
    · next hA =>
      refine List.pairwise_cons.mpr ⟨?_, H2⟩
      intro b hb
      rcases List.mem_cons.mp hb with rfl | hb1
      · exact hA
      · have := H2a b hb1
        omega
    · next hA =>
      split
      · next hB =>
        have hpx : ∀ a ∈ pre, a.2.addressEnd ≤ x.2.addressStart := by
          intro a ha
          have := H3 a ha c (List.mem_cons_self _ _)
          omega
        cases rest with
        | nil =>
          simp only
          refine List.pairwise_append.mpr ⟨H1, ?_, ?_⟩
          · refine List.pairwise_cons.mpr ⟨?_, List.pairwise_singleton _ _⟩
            intro b hb
            rw [List.mem_singleton.mp hb]
            exact hB
          · intro a ha b hb
            rcases List.mem_cons.mp hb with rfl | hb1
            · exact H3 a ha _ (List.mem_cons_self _ _)
            · rw [List.mem_singleton.mp hb1]
              exact hpx a ha
        | cons d rest2 =>
          simp only
          split
          · next hC =>
            obtain ⟨H2c, _⟩ := List.pairwise_cons.mp H2b
            have hd := hnn d (by simp)
            refine List.pairwise_append.mpr ⟨H1, ?_, ?_⟩
            · refine List.pairwise_cons.mpr ⟨?_, List.pairwise_cons.mpr ⟨?_, H2b⟩⟩
              · intro b hb
                rcases List.mem_cons.mp hb with rfl | hb1
                · exact hB
                · exact H2a b hb1
              · intro b hb
                rcases List.mem_cons.mp hb with rfl | hb1
                · exact hC
                · have := H2c b hb1
                  omega
            · intro a ha b hb
              rcases List.mem_cons.mp hb with rfl | hb1
              · exact H3 a ha _ (List.mem_cons_self _ _)
              · rcases List.mem_cons.mp hb1 with rfl | hb2
                · exact hpx a ha
                · exact H3 a ha b (List.mem_cons_of_mem _ hb2)
          · exact hrec
      · exact hrec

theorem storedList_weakOrder (x : Nat × Block) (l : List (Nat × Block))
    (hw : WeakOrder l) (hnn : NonNegative l) : WeakOrder (storedList x l) := by
  unfold storedList
  split
  · exact List.pairwise_singleton _ _
  · exact insertSpec_weakOrder x l [] (by simpa using hw) (by simpa using hnn)

theorem Separated.weakOrder {l : List (Nat × Block)} (hs : Separated l) : WeakOrder l :=
  List.Pairwise.imp (fun h => le_of_lt h) hs

/-! ## Changing the block of one cell -/

theorem setBlock_fst (a : Nat) (b : Block) (l : List (Nat × Block)) :
    (setBlock a b l).map Prod.fst = l.map Prod.fst := by
  unfold setBlock
  rw [List.map_map]
  apply List.map_congr_left
  intro c _
  simp only [Function.comp]
  split <;> rfl

theorem IsSeg_setBlock (dl : Bool) (h h1 : Heap) (a : Nat) (n : LinkedList) (b : Block) (q : Ptr)
    (hn : getNode h (some a) = some n)
    (hn1 : getNode h1 (some a) = some { n with block := b })
    (hsame : ∀ c, c ≠ a → getNode h1 (some c) = getNode h (some c)) :
    ∀ (l : List (Nat × Block)) (prev p : Ptr),
      IsSeg dl h prev p l q → IsSeg dl h1 prev p (setBlock a b l) q := by
  intro l
  induction l with
  | nil => intro prev p hs; exact hs
  | cons c cs ih =>
    intro prev p hs
    obtain ⟨hp, m, hm, hb, hl, hrest⟩ := hs
    by_cases hca : c.1 = a
    · have hmn : m = n := by
        rw [hca, hn] at hm
        exact (Option.some.inj hm).symm
      subst hmn
      simp only [setBlock, List.map_cons, if_pos hca]
      exact ⟨hp, { m with block := b }, by rw [hca]; exact hn1, rfl, hl, ih _ _ hrest⟩
    · simp only [setBlock, List.map_cons, if_neg hca]
      exact ⟨hp, m, by rw [hsame c.1 hca]; exact hm, hb, hl, ih _ _ hrest⟩

/-! ## The parts of a deallocation and of a compaction -/

theorem findScan_mem (h : Heap) (id : Int) :
    ∀ (l : List (Nat × Block)) (fuel : Nat) (dl : Bool) (prev p : Ptr) (a : Nat) (bad : Bool),
      IsSeg dl h prev p l none →
      findScan fuel h p id = some (some a, bad) → a ∈ l.map Prod.fst := by
  intro l
  induction l with
  | nil =>
    intro fuel dl prev p a bad hs hf
    simp only [IsSeg] at hs
    subst hs
    cases fuel <;> simp [findScan] at hf
  | cons c cs ih =>
    intro fuel dl prev p a bad hs hf
    obtain ⟨hp, n, hn, _, _, hrest⟩ := hs
    subst hp
    cases fuel with
    | zero => simp [findScan] at hf
    | succ fuel =>
      simp only [findScan, hn] at hf
      split at hf
      · simp only [Option.some.injEq, Prod.mk.injEq] at hf
        rw [← hf.1]
        simp
      · split at hf
        · simp only [Option.some.injEq, Prod.mk.injEq] at hf
          rw [← hf.1]
          simp
        · rw [List.map_cons]
          exact List.mem_cons_of_mem _ (ih fuel dl _ _ a bad hrest hf)

theorem nodup_mid {α : Type} {l1 l2 : List α} {x : α} (h : (l1 ++ x :: l2).Nodup) :
    x ∉ l1 ∧ x ∉ l2 ∧ (∀ y ∈ l1, y ∉ l2) ∧ l1.Nodup ∧ l2.Nodup := by
  obtain ⟨h1, h2, h3⟩ := List.nodup_append.mp h
  obtain ⟨h4, h5⟩ := List.nodup_cons.mp h2
  refine ⟨?_, h4, ?_, h1, h5⟩
  · intro hx
    exact h3 hx (List.mem_cons_self _ _)
  · intro y hy hy2
    exact h3 hy (List.mem_cons_of_mem _ hy2)

theorem DeallocateLinkedList_spec :
    ∀ (l : List (Nat × Block)) (fuel : Nat) (h h2 : Heap) (dl : Bool) (prev p : Ptr),
      IsSeg dl h prev p l none →
      DeallocateLinkedList fuel h p = some h2 →
      (∀ c ∈ l, getNode h2 (some c.1) = none)
        ∧ (∀ b, b ∉ l.map Prod.fst → getNode h2 (some b) = getNode h (some b))
        ∧ h2.length = h.length := by
  intro l
  induction l with
  | nil =>
    intro fuel h h2 dl prev p hs hd
    simp only [IsSeg] at hs
    subst hs
    have : h2 = h := by
      cases fuel <;> simp [DeallocateLinkedList] at hd <;> exact hd.symm
    subst this
    exact ⟨by simp, fun _ _ => rfl, rfl⟩
  | cons c cs ih =>
    intro fuel h h2 dl prev p hs hd
    obtain ⟨hp, n, hn, _, _, hrest⟩ := hs
    subst hp
    cases fuel with
    | zero => simp [DeallocateLinkedList] at hd
    | succ fuel =>
      simp only [DeallocateLinkedList, hn] at hd
      cases hr : DeallocateLinkedList fuel h n.next with
      | none => rw [hr] at hd; cases hd
      | some h1 =>
        rw [hr] at hd
        simp only at hd
        obtain ⟨hdead, hframe, hlen⟩ := ih fuel h h1 dl _ _ hrest hr
        cases hc1 : getNode h1 (some c.1) with
        | none => simp only [free, hc1] at hd; cases hd
        | some n1 =>
          rw [free_eq hc1] at hd
          have hh2 : h2 = h1.set c.1 none := (Option.some.inj hd).symm
          subst hh2
          have hlt := getNode_lt hc1
          refine ⟨?_, ?_, ?_⟩
          · intro d hdm
            rw [getNode_set h1 c.1 d.1 none hlt]
            split
            · rfl
            · rcases List.mem_cons.mp hdm with rfl | hd1
              · exact absurd rfl ‹_›
              · exact hdead d hd1
          · intro b hb
            rw [List.map_cons, List.mem_cons, not_or] at hb
            rw [getNode_set h1 c.1 b none hlt, if_neg (fun e => hb.1 e.symm)]
            exact hframe b hb.2
          · rw [List.length_set, hlen]

theorem unlinkBlock_spec (s : State) (a : Nat) (B : Block) (pre post : List (Nat × Block))
    (hs : IsSeg true s.heap none s.allocations (pre ++ (a, B) :: post) none) :
    ∃ s2, unlinkBlock s a = some s2
      ∧ s2.heap.length = s.heap.length ∧ s2.holes = s.holes ∧ s2.pm_size = s.pm_size
      ∧ s2.pm_allocated = s.pm_allocated
      ∧ s2.holeFillingAlgorithm = s.holeFillingAlgorithm
      ∧ s2.allocationsLast = s.allocationsLast
      ∧ (∀ b, b ∉ (pre ++ (a, B) :: post).map Prod.fst →
          getNode s2.heap (some b) = getNode s.heap (some b))
      ∧ getNode s2.heap (some a) = getNode s.heap (some a)
      ∧ ((pre = [] ∧ post = [] ∧ s2.allocations = some a)
        ∨ (pre ++ post ≠ [] ∧ IsSeg true s2.heap none s2.allocations (pre ++ post) none)) := by
  have hnodup := IsSeg_nodup s.heap _ true none _ hs
  rw [List.map_append, List.map_cons] at hnodup
  obtain ⟨ha_pre, ha_post, hpre_post, hpre_nodup, hpost_nodup⟩ := nodup_mid hnodup
  obtain ⟨m, hpre, hmid⟩ := (IsSeg_append true s.heap none _ pre none _).mp hs
  obtain ⟨hm, rb, hrb, _, hrbl, hpost⟩ := hmid
  simp only at hm hrb hrbl hpost
  subst hm
  have hrbl := hrbl trivial
  rcases List.eq_nil_or_concat pre with hpre_nil | ⟨pre1, pc, hpre_eq⟩
  · -- the removed block is the head
    subst hpre_nil
    simp only [IsSeg] at hpre
    simp only [lastPtr] at hrbl
    cases post with
    | nil =>
      simp only [IsSeg] at hpost
      refine ⟨s, ?_, rfl, rfl, rfl, rfl, rfl, rfl, fun _ _ => rfl, rfl,
        Or.inl ⟨rfl, rfl, hpre⟩⟩
      simp only [unlinkBlock, hrb, hrbl, hpost, ne_eq, not_true_eq_false, if_false, ite_self]
    | cons d post2 =>
      obtain ⟨da, db⟩ := d
      obtain ⟨hd, dn, hdn, hdb, _, hpost2⟩ := hpost
      simp only at hd hdn hdb hpost2
      have had : a ≠ da := by
        intro e
        apply ha_post
        rw [e]
        simp
      obtain ⟨h2, hs2, hl2, hg2, hf2⟩ :=
        setNode_spec (fun n => { n with last := (none : Ptr) }) hdn
      have hrb2 : getNode h2 (some a) = some rb := by rw [hf2 a had]; exact hrb
      refine ⟨{ s with allocations := some da, heap := h2 }, ?_, hl2, rfl, rfl, rfl, rfl, rfl,
        ?_, ?_, Or.inr ⟨by simp, ?_⟩⟩
      · simp only [unlinkBlock, hrb, hpre, hrbl, hd, ne_eq, not_true_eq_false, if_false,
          if_true, reduceCtorEq, not_false_eq_true, hs2, hrb2]
      · intro b hb
        apply hf2
        intro e
        apply hb
        rw [e]
        simp
      · rw [hf2 a had]
      · simp only [List.nil_append]
        refine ⟨rfl, { dn with last := none }, hg2, hdb, fun _ => rfl, ?_⟩
        refine IsSeg_frame true s.heap h2 none post2 _ _ ?_ hpost2
        intro e he
        apply hf2
        intro e1
        rw [List.map_cons, List.nodup_cons] at hpost_nodup
        exact hpost_nodup.1 (by rw [← e1]; exact List.mem_map.mpr ⟨e, he, rfl⟩)
  · -- the removed block has a predecessor
    obtain ⟨p, PB⟩ := pc
    rw [List.concat_eq_append] at hpre_eq
    subst hpre_eq
    obtain ⟨m1, hpre1, hlastseg⟩ := (IsSeg_append true s.heap (some a) _ pre1 none _).mp hpre
    obtain ⟨hm1, pn, hpn, hpb, hpl, hpnext⟩ := hlastseg
    simp only [IsSeg] at hm1 hpn hpb hpl hpnext
    subst hm1
    have hrbl1 : rb.last = some p := by
      rw [hrbl, lastPtr_append]
      rfl
    rw [List.map_append, List.map_cons, List.map_nil] at hpre_nodup ha_pre hpre_post
    obtain ⟨hp_pre1, _, _, _, _⟩ := nodup_mid hpre_nodup
    have hpa : p ≠ a := by
      intro e
      apply ha_pre
      rw [← e]
      simp
    have hhead : ¬ some a = s.allocations := by
      intro e
      cases pre1 with
      | nil =>
        simp only [IsSeg] at hpre1
        rw [hpre1] at e
        exact hpa (Option.some.inj e).symm
      | cons c cs =>
        have := hpre1.1
        rw [this] at e
        apply ha_pre
        rw [Option.some.inj e]
        simp
    cases post with
    | nil =>
      simp only [IsSeg] at hpost
      obtain ⟨h3, hs3, hl3, hg3, hf3⟩ :=
        setNode_spec (fun n => { n with next := (none : Ptr) }) hpn
      refine ⟨{ s with heap := h3 }, ?_, hl3, rfl, rfl, rfl, rfl, rfl, ?_, ?_,
        Or.inr ⟨by simp, ?_⟩⟩
      · simp only [unlinkBlock, hrb, if_neg hhead, hpost, ne_eq, not_true_eq_false, if_false,
          hrbl1, reduceCtorEq, not_false_eq_true, if_true, hs3]
      · intro b hb
        apply hf3
        intro e
        apply hb
        rw [e]
        simp
      · rw [hf3 a hpa.symm]
      · rw [List.append_nil]
        refine (IsSeg_append true h3 none _ pre1 none _).mpr ⟨some p, ?_, ?_⟩
        · refine IsSeg_frame true s.heap h3 (some p) pre1 _ _ ?_ hpre1
          intro e he
          apply hf3
          intro e1
          exact hp_pre1 (by rw [← e1]; exact List.mem_map.mpr ⟨e, he, rfl⟩)
        · exact ⟨rfl, { pn with next := none }, hg3, hpb, fun _ => hpl trivial, rfl⟩
    | cons d post2 =>
      obtain ⟨da, db⟩ := d
      obtain ⟨hd, dn, hdn, hdb, _, hpost2⟩ := hpost
      simp only at hd hdn hdb hpost2
      have had : a ≠ da := by
        intro e
        apply ha_post
        rw [e]
        simp
      have hpd : p ≠ da := by
        intro e
        exact hpre_post p (by simp) (by rw [e]; simp)
      obtain ⟨h2, hs2, hl2, hg2, hf2⟩ :=
        setNode_spec (fun n => { n with last := some p }) hdn
      have hrb2 : getNode h2 (some a) = some rb := by rw [hf2 a had]; exact hrb
      have hpn2 : getNode h2 (some p) = some pn := by rw [hf2 p hpd]; exact hpn
      obtain ⟨h3, hs3, hl3, hg3, hf3⟩ :=
        setNode_spec (fun n => { n with next := some da }) hpn2
      refine ⟨{ s with heap := h3 }, ?_, by rw [hl3, hl2], rfl, rfl, rfl, rfl, rfl, ?_, ?_,
        Or.inr ⟨by simp, ?_⟩⟩
      · simp only [unlinkBlock, hrb, if_neg hhead, hd, ne_eq, reduceCtorEq, not_false_eq_true,
          if_true, hrbl1, hs2, hrb2, hs3]
      · intro b hb
        rw [hf3 b (by intro e; apply hb; rw [e]; simp),
          hf2 b (by intro e; apply hb; rw [e]; simp)]
      · rw [hf3 a hpa.symm, hf2 a had]
      · rw [List.append_assoc]
        refine (IsSeg_append true h3 none _ pre1 none _).mpr ⟨some p, ?_, ?_⟩
        · refine IsSeg_frame true s.heap h3 (some p) pre1 _ _ ?_ hpre1
          intro e he
          have hemem : e.1 ∈ pre1.map Prod.fst := List.mem_map.mpr ⟨e, he, rfl⟩
          rw [hf3 e.1 (fun e1 => hp_pre1 (by rw [← e1]; exact hemem)),
            hf2 e.1 (fun e1 => hpre_post e.1 (by simp [hemem]) (by rw [e1]; simp))]
        · refine ⟨rfl, { pn with next := some da }, hg3, hpb, fun _ => hpl trivial, ?_⟩
          refine ⟨rfl, { dn with last := some p }, by rw [hf3 da hpd.symm]; exact hg2, hdb,
            fun _ => rfl, ?_⟩
          refine IsSeg_frame true s.heap h3 none post2 _ _ ?_ hpost2
          intro e he
          have hemem : e.1 ∈ post2.map Prod.fst := List.mem_map.mpr ⟨e, he, rfl⟩
          rw [List.map_cons, List.nodup_cons] at hpost_nodup
          rw [hf3 e.1 (fun e1 => hpre_post p (by simp) (by rw [← e1]; simp [hemem])),
            hf2 e.1 (fun e1 => hpost_nodup.1 (by rw [← e1]; exact hemem))]

theorem relocateLoop_spec (head : Ptr) :
    ∀ (rest pre : List (Nat × Block)) (fuel : Nat) (h h1 : Heap) (cur : Ptr),
      IsSeg true h none head pre cur →
      IsSeg true h (lastPtr none pre) cur rest none →
      (∀ b ∈ rest, b.2.addressStart < b.2.addressEnd) →
      relocateLoop fuel h head cur = some h1 →
      ∃ rest1, IsSeg true h1 none head (pre ++ rest1) none
        ∧ rest1.map Prod.fst = rest.map Prod.fst
        ∧ (∀ b ∈ rest1, b.2.addressStart < b.2.addressEnd)
        ∧ (∀ b, b ∉ rest.map Prod.fst → getNode h1 (some b) = getNode h (some b))
        ∧ h1.length = h.length := by
  intro rest
  induction rest with
  | nil =>
    intro pre fuel h h1 cur hpre hrest _ hrel
    simp only [IsSeg] at hrest
    subst hrest
    have : h1 = h := by
      cases fuel <;> simp [relocateLoop] at hrel <;> exact hrel.symm
    subst this
    exact ⟨[], by simpa using hpre, rfl, by simp, fun _ _ => rfl, rfl⟩
  | cons c rest ih =>
    intro pre fuel h h1 cur hpre hrest hval hrel
    have hwhole : IsSeg true h none head (pre ++ c :: rest) none :=
      (IsSeg_append true h none (c :: rest) pre none head).mpr ⟨cur, hpre, hrest⟩
    have hnodup := IsSeg_nodup h _ true none head hwhole
    rw [List.map_append, List.map_cons] at hnodup
    obtain ⟨hc_pre, hc_rest, _, _, _⟩ := nodup_mid hnodup
    obtain ⟨ca, cb⟩ := c
    obtain ⟨hcur, cn, hcn, hcb, hcl, htail⟩ := hrest
    simp only at hcur hcn hcb hcl htail hc_pre hc_rest
    subst hcur
    subst hcb
    have hcval := hval (ca, cn.block) (List.mem_cons_self _ _)
    simp only at hcval
    cases fuel with
    | zero => simp [relocateLoop] at hrel
    | succ fuel =>
    simp only [relocateLoop, hcn] at hrel
    -- the block after the move, whichever branch ran
    have hmoved : ∃ (nb : Block) (h2 : Heap), nb.addressStart < nb.addressEnd
        ∧ h2.length = h.length
        ∧ getNode h2 (some ca) = some { cn with block := nb }
        ∧ (∀ b, b ≠ ca → getNode h2 (some b) = getNode h (some b))
        ∧ relocateLoop fuel h2 head cn.next = some h1 := by
      by_cases hh : some ca = head
      · obtain ⟨h2, hs2, hl2, hg2, hf2⟩ := setNode_spec (fun n => { n with block :=
            { n.block with addressStart := 0,
                           addressEnd := cn.block.addressEnd - cn.block.addressStart } }) hcn
        rw [if_pos hh, hs2] at hrel
        simp only [hg2] at hrel
        exact ⟨_, h2, by simp only; omega, hl2, hg2, hf2, hrel⟩
      · rw [if_neg hh] at hrel
        cases hprev : getNode h cn.last with
        | none => simp only [hprev] at hrel; cases hrel
        | some prev =>
          obtain ⟨h2, hs2, hl2, hg2, hf2⟩ := setNode_spec (fun n => { n with block :=
            { n.block with addressStart := prev.block.addressEnd,
                           addressEnd := prev.block.addressEnd
                             + (cn.block.addressEnd - cn.block.addressStart) } }) hcn
          simp only [hprev, hs2, hg2] at hrel
          exact ⟨_, h2, by simp only; omega, hl2, hg2, hf2, hrel⟩
    obtain ⟨nb, h2, hnbval, hl2, hg2, hf2, hrel2⟩ := hmoved
    have hpre2 : IsSeg true h2 none head (pre ++ [(ca, nb)]) cn.next := by
      refine (IsSeg_append true h2 cn.next _ pre none head).mpr ⟨some ca, ?_, ?_⟩
      · refine IsSeg_frame true h h2 (some ca) pre _ _ ?_ hpre
        intro e he
        apply hf2
        intro e1
        exact hc_pre (by rw [← e1]; exact List.mem_map.mpr ⟨e, he, rfl⟩)
      · exact ⟨rfl, { cn with block := nb }, hg2, rfl, fun _ => hcl trivial, rfl⟩
    have htail2 : IsSeg true h2 (lastPtr none (pre ++ [(ca, nb)])) cn.next rest none := by
      rw [lastPtr_append]
      refine IsSeg_frame true h h2 none rest _ _ ?_ htail
      intro e he
      apply hf2
      intro e1
      exact hc_rest (by rw [← e1]; exact List.mem_map.mpr ⟨e, he, rfl⟩)
    obtain ⟨rest1, hseg1, hfst1, hval1, hframe1, hlen1⟩ :=
      ih (pre ++ [(ca, nb)]) fuel h2 h1 cn.next hpre2 htail2
        (fun b hb => hval b (List.mem_cons_of_mem _ hb)) hrel2
    refine ⟨(ca, nb) :: rest1, by simpa using hseg1, by simp [hfst1], ?_, ?_, by rw [hlen1, hl2]⟩
    · intro b hb
      rcases List.mem_cons.mp hb with rfl | hb1
      · exact hnbval
      · exact hval1 b hb1
    · intro b hb
      rw [List.map_cons, List.mem_cons, not_or] at hb
      rw [hframe1 b hb.2, hf2 b hb.1]

theorem mergeNext_spec (h h1 : Heap) (c nx : Nat) (B B2 : Block) (rest2 : List (Nat × Block))
    (prev : Ptr)
    (hs : IsSeg false h prev (some c) ((c, B) :: (nx, B2) :: rest2) none)
    (hm : mergeNext h c = some h1) :
    IsSeg false h1 prev (some c) ((c, { B with addressEnd := B2.addressEnd }) :: rest2) none
      ∧ (∀ b, b ∉ ((c, B) :: (nx, B2) :: rest2).map Prod.fst →
          getNode h1 (some b) = getNode h (some b))
      ∧ h1.length = h.length := by
  have hnodup := IsSeg_nodup h _ false prev _ hs
  simp only [List.map_cons, List.nodup_cons, List.mem_cons, not_or] at hnodup
  obtain ⟨⟨hcnx, hc_rest⟩, hnx_rest, hrest_nodup⟩ := hnodup
  obtain ⟨_, cn, hcn, hcb, _, hs1⟩ := hs
  obtain ⟨hnx, nn, hnn, hnb, _, hs2⟩ := hs1
  simp only at hcn hcb hnx hnn hnb hs2
  have hnn0 : getNode h cn.next = some nn := by rw [hnx]; exact hnn
  simp only [mergeNext, hcn, hnn0] at hm
  obtain ⟨g1, hg1s, hl1, hg1, hf1⟩ := setNode_spec
    (fun n => { n with block := { n.block with addressEnd := nn.block.addressEnd } }) hcn
  have hnn1 : getNode g1 cn.next = some nn := by
    rw [hnx, hf1 nx (Ne.symm hcnx)]; exact hnn
  simp only [hg1s, hg1, hnn1] at hm
  obtain ⟨g2, hg2s, hl2, hg2, hf2⟩ := setNode_spec
    (fun n => { n with next := nn.next }) hg1
  simp only [hg2s, hg2] at hm
  cases rest2 with
  | nil =>
    simp only [IsSeg] at hs2
    rw [hs2] at hm
    simp [setNode] at hm
  | cons d rest3 =>
    obtain ⟨da, db⟩ := d
    obtain ⟨hd, dn, hdn, hdb, _, hs3⟩ := hs2
    simp only at hd hdn hdb hs3
    simp only [List.map_cons, List.mem_cons, not_or] at hc_rest hnx_rest
    simp only [List.map_cons, List.nodup_cons] at hrest_nodup
    have hdn2 : getNode g2 (some da) = some dn := by
      rw [hf2 da (Ne.symm hc_rest.1), hf1 da (Ne.symm hc_rest.1)]; exact hdn
    obtain ⟨g3, hg3s, hl3, hg3, hf3⟩ := setNode_spec
      (fun n => { n with last := some c }) hdn2
    have hnx3 : getNode g3 (some nx) = some nn := by
      rw [hf3 nx hnx_rest.1, hf2 nx (Ne.symm hcnx), hf1 nx (Ne.symm hcnx)]; exact hnn
    rw [hd] at hm
    simp only [hg3s, hnx, free_eq hnx3] at hm
    have hh1 : h1 = g3.set nx none := (Option.some.inj hm).symm
    subst hh1
    have hlt := getNode_lt hnx3
    have hget : ∀ b, b ≠ nx → getNode (g3.set nx none) (some b) = getNode g3 (some b) := by
      intro b hb
      rw [getNode_set g3 nx b none hlt, if_neg (fun e => hb e.symm)]
    refine ⟨?_, ?_, ?_⟩
    · refine ⟨rfl, ⟨cn.last, ⟨cn.block.id, cn.block.addressStart, nn.block.addressEnd⟩,
          nn.next⟩, ?_, ?_, by simp, ?_⟩
      · rw [hget c hcnx, hf3 c hc_rest.1]
        exact hg2
      · simp only [hcb, hnb]
      · simp only [hd]
        refine ⟨rfl, { dn with last := some c }, ?_, hdb, by simp, ?_⟩
        · rw [hget da (Ne.symm hnx_rest.1)]
          exact hg3
        · refine IsSeg_frame false h _ none rest3 _ _ ?_ hs3
          intro e he
          have hemem : e.1 ∈ rest3.map Prod.fst := List.mem_map.mpr ⟨e, he, rfl⟩
          have h1e : e.1 ≠ c := fun e1 => hc_rest.2 (by rw [← e1]; exact hemem)
          have h2e : e.1 ≠ nx := fun e1 => hnx_rest.2 (by rw [← e1]; exact hemem)
          have h3e : e.1 ≠ da := fun e1 => hrest_nodup.1 (by rw [← e1]; exact hemem)
          rw [hget e.1 h2e, hf3 e.1 h3e, hf2 e.1 h1e, hf1 e.1 h1e]
    · intro b hb
      simp only [List.map_cons, List.mem_cons, not_or] at hb
      rw [hget b hb.2.1, hf3 b hb.2.2.1, hf2 b hb.1, hf1 b hb.1]
    · rw [List.length_set, hl3, hl2, hl1]

theorem coalesce_spec :
    ∀ (fuel : Nat) (l : List (Nat × Block)) (h h1 : Heap) (c : Nat) (prev : Ptr),
      IsSeg false h prev (some c) l none → WeakOrder l → NonNegative l →
      coalesce fuel h (some c) = some h1 →
      ∃ l1, IsSeg false h1 prev (some c) l1 none ∧ Separated l1 ∧ NonNegative l1
        ∧ (∀ e1 ∈ l1, ∃ e ∈ l, e1.1 = e.1 ∧ e1.2.addressStart = e.2.addressStart)
        ∧ l1.length ≤ l.length
        ∧ (∀ b, b ∉ l.map Prod.fst → getNode h1 (some b) = getNode h (some b))
        ∧ h1.length = h.length := by
  intro fuel
  induction fuel with
  | zero =>
    intro l h h1 c prev _ _ _ hco
    simp [coalesce] at hco
  | succ fuel ih =>
    intro l h h1 c prev hs hw hnn hco
    cases l with
    | nil => simp [IsSeg] at hs
    | cons e rest =>
    obtain ⟨ea, B⟩ := e
    have hs0 := hs
    obtain ⟨hp, cn, hcn, hcb, _, hs1⟩ := hs
    simp only at hp hcn hcb hs1
    have hea : ea = c := (Option.some.inj hp).symm
    subst hea
    simp only [coalesce, hcn] at hco
    cases rest with
    | nil =>
      simp only [IsSeg] at hs1
      simp only [hs1] at hco
      have hh : h1 = h := (Option.some.inj hco).symm
      subst hh
      exact ⟨[(ea, B)], hs0, List.pairwise_singleton _ _, hnn,
        fun e1 he1 => ⟨e1, he1, rfl, rfl⟩, le_refl _, fun _ _ => rfl, rfl⟩
    | cons d rest2 =>
      obtain ⟨nx, B2⟩ := d
      have hs1' := hs1
      obtain ⟨hnx, nn, hnn1, hnb, _, hs2⟩ := hs1
      simp only at hnx hnn1 hnb hs2
      rw [hnx] at hs1'
      simp only [hnx, hnn1] at hco
      unfold WeakOrder at hw
      obtain ⟨hw1, hw2⟩ := List.pairwise_cons.mp hw
      obtain ⟨hw3, hw4⟩ := List.pairwise_cons.mp hw2
      have hB := hnn (ea, B) (List.mem_cons_self _ _)
      have hB2 := hnn (nx, B2) (List.mem_cons_of_mem _ (List.mem_cons_self _ _))
      simp only at hB hB2
      have hB12 := hw1 (nx, B2) (List.mem_cons_self _ _)
      simp only at hB12
      by_cases heq : cn.block.addressEnd = nn.block.addressStart
      · rw [if_pos heq] at hco
        cases hm : mergeNext h ea with
        | none => simp only [hm] at hco; cases hco
        | some g =>
          simp only [hm] at hco
          obtain ⟨hg1, hg2, hg3⟩ := mergeNext_spec h g ea nx B B2 rest2 prev hs0 hm
          rw [hcb, hnb] at heq
          obtain ⟨l1, h1s, h1sep, h1nn, h1start, h1len, h1frame, h1hl⟩ :=
            ih _ g h1 ea prev hg1
              (by
                refine List.pairwise_cons.mpr ⟨?_, hw4⟩
                intro e he
                exact hw3 e he)
              (by
                intro e he
                rcases List.mem_cons.mp he with rfl | he1
                · simp only; omega
                · exact hnn e (List.mem_cons_of_mem _ (List.mem_cons_of_mem _ he1)))
              hco
          refine ⟨l1, h1s, h1sep, h1nn, ?_, ?_, ?_, by rw [h1hl, hg3]⟩
          · intro e1 he1
            obtain ⟨e, he, h1e, h2e⟩ := h1start e1 he1
            rcases List.mem_cons.mp he with rfl | he2
            · exact ⟨(ea, B), List.mem_cons_self _ _, h1e, h2e⟩
            · exact ⟨e, List.mem_cons_of_mem _ (List.mem_cons_of_mem _ he2), h1e, h2e⟩
          · simp only [List.length_cons] at h1len ⊢
            omega
          · intro b hb
            rw [h1frame b (by
              simp only [List.map_cons, List.mem_cons, not_or] at hb ⊢
              exact ⟨hb.1, hb.2.2⟩), hg2 b hb]
      · rw [if_neg heq] at hco
        rw [hcb, hnb] at heq
        have hnodup := IsSeg_nodup h _ false prev _ hs0
        simp only [List.map_cons, List.nodup_cons, List.mem_cons, not_or] at hnodup
        obtain ⟨l2, h2s, h2sep, h2nn, h2start, h2len, h2frame, h2hl⟩ :=
          ih _ h h1 nx (some ea) hs1' hw2
            (fun e he => hnn e (List.mem_cons_of_mem _ he)) hco
        refine ⟨(ea, B) :: l2, ?_, ?_, ?_, ?_, ?_, ?_, h2hl⟩
        · refine ⟨rfl, cn, ?_, hcb, by simp, by rw [hnx]; exact h2s⟩
          rw [h2frame ea (by
            simp only [List.map_cons, List.mem_cons, not_or]
            exact hnodup.1)]
          exact hcn
        · refine List.pairwise_cons.mpr ⟨?_, h2sep⟩
          intro e1 he1
          obtain ⟨e, he, _, h2e⟩ := h2start e1 he1
          rw [h2e]
          show B.addressEnd < e.2.addressStart
          rcases List.mem_cons.mp he with rfl | he2
          · simp only; omega
          · have := hw3 e he2
            simp only at this
            omega
        · intro e1 he1
          rcases List.mem_cons.mp he1 with rfl | he2
          · exact hB
          · exact h2nn e1 he2
        · intro e1 he1
          rcases List.mem_cons.mp he1 with rfl | he2
          · exact ⟨(ea, B), List.mem_cons_self _ _, rfl, rfl⟩
          · obtain ⟨e, he, h1e, h2e⟩ := h2start e1 he2
            exact ⟨e, List.mem_cons_of_mem _ he, h1e, h2e⟩
        · simp only [List.length_cons] at h2len ⊢
          omega
        · intro b hb
          apply h2frame
          simp only [List.map_cons, List.mem_cons, not_or] at hb ⊢
          exact hb.2

/-! ## Compaction as a whole, and an allocation list with distinct ids -/

theorem lastEnd_concat (l : List (Nat × Block)) (c : Nat × Block) :
    lastEnd (l ++ [c]) = c.2.addressEnd := by
  simp [lastEnd, List.foldl_append]

theorem IsSeg_head (dl : Bool) (h : Heap) (q prev p : Ptr) (c : Nat × Block)
    (cs : List (Nat × Block)) (hs : IsSeg dl h prev p (c :: cs) q) : p = some c.1 :=
  hs.1

theorem IsSeg_length_le (h : Heap) (l : List (Nat × Block)) (dl : Bool) (prev p : Ptr)
    (hs : IsSeg dl h prev p l none) : l.length ≤ h.length := by
  have hnd := IsSeg_nodup h l dl prev p hs
  have hlt := IsSeg_fst_lt dl h none l prev p hs
  have hsub : (l.map Prod.fst).toFinset ⊆ Finset.range h.length := by
    intro a ha
    rw [List.mem_toFinset] at ha
    exact Finset.mem_range.mpr (hlt a ha)
  have hcard := Finset.card_le_card hsub
  rw [List.toFinset_card_of_nodup hnd, Finset.card_range, List.length_map] at hcard
  exact hcard

theorem relocateLoop_total (head : Ptr) :
    ∀ (rest pre : List (Nat × Block)) (fuel : Nat) (h : Heap) (cur : Ptr),
      rest.length ≤ fuel →
      IsSeg true h none head pre cur →
      IsSeg true h (lastPtr none pre) cur rest none →
      ∃ h1, relocateLoop fuel h head cur = some h1
        ∧ IsSeg true h1 none head (pre ++ relocated (lastEnd pre) rest) none
        ∧ (∀ b, b ∉ rest.map Prod.fst → getNode h1 (some b) = getNode h (some b))
        ∧ h1.length = h.length := by
  intro rest
  induction rest with
  | nil =>
    intro pre fuel h cur _ hpre hrest
    simp only [IsSeg] at hrest
    subst hrest
    refine ⟨h, ?_, by simpa [relocated] using hpre, fun _ _ => rfl, rfl⟩
    cases fuel <;> simp [relocateLoop]
  | cons c rest ih =>
    intro pre fuel h cur hfuel hpre hrest
    have hwhole : IsSeg true h none head (pre ++ c :: rest) none :=
      (IsSeg_append true h none (c :: rest) pre none head).mpr ⟨cur, hpre, hrest⟩
    have hnodup := IsSeg_nodup h _ true none head hwhole
    rw [List.map_append, List.map_cons] at hnodup
    obtain ⟨hc_pre, hc_rest, _, _, _⟩ := nodup_mid hnodup
    obtain ⟨ca, cb⟩ := c
    obtain ⟨hcur, cn, hcn, hcb, hcl, htail⟩ := hrest
    simp only at hcur hcn hcb hcl htail hc_pre hc_rest
    subst hcur
    subst hcb
    cases fuel with
    | zero => simp at hfuel
    | succ fuel =>
    simp only [List.length_cons, Nat.add_le_add_iff_right] at hfuel
    -- the move of the current block
    have hmoved : ∃ h2, h2.length = h.length
        ∧ getNode h2 (some ca) = some { cn with block :=
            ⟨cn.block.id, lastEnd pre,
              lastEnd pre + (cn.block.addressEnd - cn.block.addressStart)⟩ }
        ∧ (∀ b, b ≠ ca → getNode h2 (some b) = getNode h (some b))
        ∧ relocateLoop (fuel + 1) h head (some ca) = relocateLoop fuel h2 head cn.next := by
      rcases List.eq_nil_or_concat pre with hnil | ⟨pre1, p, hpe⟩
      · subst hnil
        simp only [IsSeg] at hpre
        obtain ⟨h2, hs2, hl2, hg2, hf2⟩ := setNode_spec (fun n => { n with block :=
            { n.block with addressStart := 0,
                           addressEnd := cn.block.addressEnd - cn.block.addressStart } }) hcn
        refine ⟨h2, hl2, ?_, hf2, ?_⟩
        · rw [hg2]
          simp [lastEnd]
        · simp only [relocateLoop, hcn, if_pos hpre.symm, hs2, hg2]
      · rw [List.concat_eq_append] at hpe
        subst hpe
        have hhead : ¬ some ca = head := by
          intro e
          apply hc_pre
          cases pre1 with
          | nil =>
            have := IsSeg_head true h _ _ _ _ _ hpre
            rw [this] at e
            rw [Option.some.inj e]
            simp
          | cons d ds =>
            have := IsSeg_head true h _ _ _ _ _ hpre
            rw [this] at e
            rw [Option.some.inj e]
            simp
        have hlast : cn.last = some p.1 := by
          rw [hcl trivial, lastPtr_append]
          rfl
        obtain ⟨pn, hpn, hpb⟩ := IsSeg_live true h _ _ _ _ hpre p (by simp)
        obtain ⟨h2, hs2, hl2, hg2, hf2⟩ := setNode_spec (fun n => { n with block :=
            { n.block with addressStart := pn.block.addressEnd,
                           addressEnd := pn.block.addressEnd
                             + (cn.block.addressEnd - cn.block.addressStart) } }) hcn
        refine ⟨h2, hl2, ?_, hf2, ?_⟩
        · rw [hg2, lastEnd_concat, ← hpb]
        · simp only [relocateLoop, hcn, if_neg hhead, hlast, hpn, hs2, hg2]
    obtain ⟨h2, hl2, hg2, hf2, hstep⟩ := hmoved
    have hpre2 : IsSeg true h2 none head (pre ++ [(ca, (⟨cn.block.id, lastEnd pre,
        lastEnd pre + (cn.block.addressEnd - cn.block.addressStart)⟩ : Block))]) cn.next := by
      refine (IsSeg_append true h2 cn.next _ pre none head).mpr ⟨some ca, ?_, ?_⟩
      · refine IsSeg_frame true h h2 (some ca) pre _ _ ?_ hpre
        intro e he
        apply hf2
        intro e1
        exact hc_pre (by rw [← e1]; exact List.mem_map.mpr ⟨e, he, rfl⟩)
      · exact ⟨rfl, _, hg2, rfl, fun _ => hcl trivial, rfl⟩
    have htail2 : IsSeg true h2 (lastPtr none (pre ++ [(ca, (⟨cn.block.id, lastEnd pre,
        lastEnd pre + (cn.block.addressEnd - cn.block.addressStart)⟩ : Block))])) cn.next
        rest none := by
      rw [lastPtr_append]
      refine IsSeg_frame true h h2 none rest _ _ ?_ htail
      intro e he
      apply hf2
      intro e1
      exact hc_rest (by rw [← e1]; exact List.mem_map.mpr ⟨e, he, rfl⟩)
    obtain ⟨h1, hrel1, hseg1, hframe1, hlen1⟩ := ih _ fuel h2 cn.next hfuel hpre2 htail2
    refine ⟨h1, by rw [hstep]; exact hrel1, ?_, ?_, by rw [hlen1, hl2]⟩
    · rw [lastEnd_concat] at hseg1
      simpa [relocated] using hseg1
    · intro b hb
      rw [List.map_cons, List.mem_cons, not_or] at hb
      rw [hframe1 b hb.2, hf2 b hb.1]

theorem relocated_ids : ∀ (l : List (Nat × Block)) (e : Int),
    (relocated e l).map (fun c => c.2.id) = l.map (fun c => c.2.id) := by
  intro l
  induction l with
  | nil => intro e; rfl
  | cons c cs ih => intro e; simp [relocated, ih]

theorem relocated_sizes : ∀ (l : List (Nat × Block)) (e : Int),
    (relocated e l).map (fun c => c.2.size) = l.map (fun c => c.2.size) := by
  intro l
  induction l with
  | nil => intro e; rfl
  | cons c cs ih =>
    intro e
    simp only [relocated, List.map_cons, ih]
    congr 1
    simp only [Block.size]
    omega

theorem relocated_start : ∀ (l : List (Nat × Block)) (e : Int) (k : Nat) (c : Nat × Block),
    (relocated e l)[k]? = some c →
    c.2.addressStart = e + ((l.take k).map (fun b => b.2.size)).sum := by
  intro l
  induction l with
  | nil => intro e k c hc; simp [relocated] at hc
  | cons d ds ih =>
    intro e k c hc
    cases k with
    | zero =>
      simp only [relocated, List.getElem?_cons_zero, Option.some.injEq] at hc
      subst hc
      simp
    | succ k =>
      simp only [relocated, List.getElem?_cons_succ] at hc
      have := ih _ k c hc
      rw [this]
      simp only [List.take_succ_cons, List.map_cons, List.sum_cons, Block.size]
      omega

theorem relocated_valid : ∀ (l : List (Nat × Block)) (e : Int),
    (∀ b ∈ l, b.2.addressStart < b.2.addressEnd) →
    ∀ b ∈ relocated e l, b.2.addressStart < b.2.addressEnd ∧ e ≤ b.2.addressStart := by
  intro l
  induction l with
  | nil => intro e _ b hb; simp [relocated] at hb
  | cons c cs ih =>
    intro e hval b hb
    have hc := hval c (List.mem_cons_self _ _)
    simp only [relocated, List.mem_cons] at hb
    rcases hb with rfl | hb
    · simp only
      omega
    · have := ih _ (fun b hb => hval b (List.mem_cons_of_mem _ hb)) b hb
      omega

theorem relocated_weakOrder : ∀ (l : List (Nat × Block)) (e : Int),
    (∀ b ∈ l, b.2.addressStart < b.2.addressEnd) → WeakOrder (relocated e l) := by
  intro l
  induction l with
  | nil => intro e _; exact List.Pairwise.nil
  | cons c cs ih =>
    intro e hval
    simp only [relocated]
    refine List.pairwise_cons.mpr ⟨?_, ih _ (fun b hb => hval b (List.mem_cons_of_mem _ hb))⟩
    intro b hb
    exact (relocated_valid cs _ (fun b hb => hval b (List.mem_cons_of_mem _ hb)) b hb).2

theorem insertSpec_subperm (x : Nat × Block) :
    ∀ (rest pre : List (Nat × Block)),
      List.Subperm (insertSpec x pre rest).1 (x :: (pre ++ rest)) := by
  intro rest
  induction rest with
  | nil =>
    intro pre
    rw [insertSpec_nil_of_nil, List.append_nil]
    exact (List.sublist_cons_self x pre).subperm
  | cons c rest ih =>
    intro pre
    rw [insertSpec.eq_def]
    simp only
    have hrec : List.Subperm (insertSpec x (pre ++ [c]) rest).1 (x :: (pre ++ c :: rest)) := by
      have := ih (pre ++ [c])
      simpa using this
    split
    · exact (List.Sublist.cons₂ x (List.sublist_append_right pre (c :: rest))).subperm
    · split
      · cases rest with
        | nil =>
          have hp : List.Perm (pre ++ [c, x]) (x :: (pre ++ [c])) := by
            have := @List.perm_middle _ x (pre ++ [c]) []
            simpa using this
          exact hp.subperm
        | cons d rest2 =>
          simp only
          split
          · have hp : List.Perm (pre ++ c :: x :: d :: rest2) (x :: (pre ++ c :: d :: rest2)) := by
              have := @List.perm_middle _ x (pre ++ [c]) (d :: rest2)
              simpa using this
            exact hp.subperm
          · exact hrec
      · exact hrec

theorem storedList_subperm (x : Nat × Block) (bl : List (Nat × Block)) :
    List.Subperm (storedList x bl) (x :: bl) := by
  unfold storedList
  split
  · next h => rw [h]
  · have := insertSpec_subperm x bl []
    simpa using this

theorem nodup_map_of_subperm {α β : Type} (f : α → β) {l1 l2 : List α}
    (h : List.Subperm l1 l2) (hn : (l2.map f).Nodup) : (l1.map f).Nodup := by
  obtain ⟨l, hp, hs⟩ := h
  exact (hp.map f).nodup_iff.mp ((hs.map f).nodup hn)

theorem storedList_blocksOk (x : Nat × Block) (bl : List (Nat × Block))
    (hok : BlocksOk bl) (hval : ∀ b ∈ bl, b.2.addressStart < b.2.addressEnd)
    (hid : 0 ≤ x.2.id) (hfresh : ∀ b ∈ bl, b.2.id ≠ x.2.id) :
    BlocksOk (storedList x bl) := by
  obtain ⟨hw, hnd, hnn⟩ := hok
  refine ⟨storedList_weakOrder x bl hw (fun c hc => le_of_lt (hval c hc)), ?_, ?_⟩
  · apply nodup_map_of_subperm _ (storedList_subperm x bl)
    rw [List.map_cons, List.nodup_cons]
    refine ⟨?_, hnd⟩
    intro hm
    obtain ⟨b, hb, hbx⟩ := List.mem_map.mp hm
    exact hfresh b hb hbx
  · intro b hb
    rcases storedList_mem x bl b hb with rfl | hb1
    · exact hid
    · exact hnn b hb1

theorem relocated_blocksOk (bl : List (Nat × Block)) (e : Int) (hok : BlocksOk bl)
    (hval : ∀ b ∈ bl, b.2.addressStart < b.2.addressEnd) : BlocksOk (relocated e bl) := by
  obtain ⟨_, hnd, hnn⟩ := hok
  refine ⟨relocated_weakOrder bl e hval, by rw [relocated_ids]; exact hnd, ?_⟩
  intro b hb
  have hm : b.2.id ∈ (relocated e bl).map (fun c => c.2.id) := List.mem_map.mpr ⟨b, hb, rfl⟩
  rw [relocated_ids] at hm
  obtain ⟨c, hc, hcb⟩ := List.mem_map.mp hm
  rw [← hcb]
  exact hnn c hc

theorem BlocksOk.remove {pre post : List (Nat × Block)} {c : Nat × Block}
    (hok : BlocksOk (pre ++ c :: post)) : BlocksOk (pre ++ post) := by
  obtain ⟨hw, hnd, hnn⟩ := hok
  have hsub : List.Sublist (pre ++ post) (pre ++ c :: post) :=
    List.Sublist.append (List.Sublist.refl pre) (List.sublist_cons_self c post)
  refine ⟨List.Pairwise.sublist hsub hw, (hsub.map _).nodup hnd, ?_⟩
  intro b hb
  exact hnn b (hsub.subset hb)

theorem validateAllocate_id (s : State) (id size : Int)
    (hacc : validateAllocate s id size = some []) :
    0 ≤ id ∧ duplicateScan (walkFuel s.heap) s.heap s.allocations id = some false := by
  unfold validateAllocate at hacc
  by_cases hneg : id < 0
  · rw [if_pos hneg] at hacc; cases hacc
  · rw [if_neg hneg] at hacc
    refine ⟨by omega, ?_⟩
    cases hd : duplicateScan (walkFuel s.heap) s.heap s.allocations id with
    | none => rw [hd] at hacc; cases hacc
    | some b =>
      cases b with
      | true => rw [hd] at hacc; cases hacc
      | false => rfl

theorem fresh_of_duplicateScan (s : State) (id : Int) (bl : List (Nat × Block)) (dl : Bool)
    (hbl : IsSeg dl s.heap none s.allocations bl none)
    (hd : duplicateScan (walkFuel s.heap) s.heap s.allocations id = some false) :
    ∀ b ∈ bl, b.2.id ≠ id := by
  have hlen := IsSeg_length_le s.heap bl dl none _ hbl
  obtain ⟨cells, hcells, hmap⟩ := isSeg_cellsFrom s.heap bl (walkFuel s.heap) dl none _ hbl
    (by simp only [walkFuel]; omega)
  rw [duplicateScan_eq id s.heap _ _ cells hcells] at hd
  have hno : ¬ ∃ c ∈ cells, c.2.block.id = id := by
    intro hex
    have := Option.some.inj hd
    simp only [decide_eq_false_iff_not] at this
    exact this hex
  intro b hb hbid
  rw [← hmap] at hb
  obtain ⟨c, hc, hcb⟩ := List.mem_map.mp hb
  apply hno
  refine ⟨c, hc, ?_⟩
  rw [← hbid, ← hcb]

theorem relocated_chain : ∀ (l : List (Nat × Block)) (e : Int) (k : Nat) (a b : Nat × Block),
    (relocated e l)[k]? = some a → (relocated e l)[k + 1]? = some b →
    b.2.addressStart = a.2.addressEnd := by
  intro l
  induction l with
  | nil => intro e k a b ha; simp [relocated] at ha
  | cons c cs ih =>
    intro e k a b ha hb
    cases k with
    | zero =>
      simp only [relocated, List.getElem?_cons_zero, Option.some.injEq] at ha
      simp only [relocated, List.getElem?_cons_succ] at hb
      have := relocated_start cs _ 0 b hb
      rw [this, ← ha]
      simp
    | succ k =>
      simp only [relocated, List.getElem?_cons_succ] at ha hb
      exact ih _ k a b ha hb

theorem inv_initial : Inv initialState := by
  refine ⟨[], rfl, by simp, Or.inr ⟨[], rfl, List.Pairwise.nil, by simp [NonNegative], by simp,
    by simp⟩, List.Pairwise.nil, List.nodup_nil, by simp⟩

theorem Inv.blocks_le {s : State} {bl : List (Nat × Block)}
    (h : HolesDangling s bl ∨ HolesOk s bl) : bl.length ≤ s.heap.length := by
  rcases h with ⟨_, _, _, _, h1⟩ | ⟨_, _, _, _, _, h1⟩
  · exact h1
  · omega

theorem inv_configure (s s1 : State) (size algorithm : Int) (hinv : Inv s)
    (h : TakeParameters s size algorithm = Outcome.ok s1) : Inv s1 := by
  obtain ⟨bl, hbl, hval, hholes, hok⟩ := hinv
  have hle := Inv.blocks_le hholes
  unfold TakeParameters at h
  simp only at h
  by_cases hsz : size ≤ 0
  · rw [if_pos hsz] at h; cases h
  · rw [if_neg hsz] at h
    by_cases hal : algorithm ≠ 0 ∧ algorithm ≠ 1
    · rw [if_pos hal] at h; cases h
    · rw [if_neg hal] at h
      injection h with h
      subst h
      refine ⟨bl, IsSeg_append_heap true s.heap _ none bl _ _ hbl, hval, Or.inr ?_, hok⟩
      refine ⟨[(s.heap.length, ⟨0, 0, size⟩)], ?_, List.pairwise_singleton _ _, ?_, ?_, ?_⟩
      · refine ⟨rfl, ⟨none, ⟨0, 0, size⟩, none⟩, ?_, rfl, by simp, rfl⟩
        simp only [malloc, getNode_append, if_true]
      · intro c hc
        rw [List.mem_singleton.mp hc]
        simp only
        omega
      · intro b hb c hc
        rw [List.mem_singleton.mp hc]
        have := IsSeg_fst_lt true s.heap none bl none _ hbl b.1 (List.mem_map.mpr ⟨b, hb, rfl⟩)
        simp only
        omega
      · simp only [malloc, List.length_append, List.length_singleton]
        omega

theorem inv_compact (s s1 : State) (hinv : Inv s)
    (h : DefragmentMemory s = Outcome.ok s1) : Inv s1 := by
  obtain ⟨bl, hbl, hval, hholes, hok⟩ := hinv
  have hle := Inv.blocks_le hholes
  unfold DefragmentMemory at h
  cases hrel : relocateLoop (walkFuel s.heap) s.heap s.allocations s.allocations with
  | none => rw [hrel] at h; cases h
  | some h1 =>
    rw [hrel] at h
    simp only at h
    obtain ⟨bl1, hbl1, hfst1, hval1, hframe1, hlen1⟩ :=
      relocateLoop_spec s.allocations bl [] _ s.heap h1 s.allocations rfl hbl hval hrel
    rw [List.nil_append] at hbl1
    have hbl1len : bl1.length = bl.length := by
      have := congrArg List.length hfst1
      simpa using this
    have hbl1eq : bl1 = relocated 0 bl := by
      obtain ⟨h1', hrel', hseg', _, _⟩ :=
        relocateLoop_total s.allocations bl [] (walkFuel s.heap) s.heap s.allocations
          (by simp only [walkFuel]; omega) rfl hbl
      rw [hrel] at hrel'
      rw [← Option.some.inj hrel'] at hseg'
      exact IsSeg_det h1 bl1 _ true true none none _ hbl1 hseg'
    have hok1 : BlocksOk bl1 := by
      rw [hbl1eq]
      exact relocated_blocksOk bl 0 hok hval
    cases hde : DeallocateLinkedList (walkFuel h1) h1 s.holes with
    | none => rw [hde] at h; cases h
    | some h2 =>
      rw [hde] at h
      simp only at h
      rcases hholes with ⟨a, ha, hdead, _, _⟩ | ⟨hl, hhl, hsep, hnn, hdisj, hbound⟩
      · -- a dangling hole pointer cannot be freed again
        have hdead1 : getNode h1 (some a) = none := by
          rw [hframe1 a (by
            intro hmem
            obtain ⟨c, hc, hca⟩ := List.mem_map.mp hmem
            obtain ⟨n, hn, _⟩ := IsSeg_live true s.heap none bl _ _ hbl c hc
            rw [hca, hdead] at hn
            cases hn)]
          exact hdead
        rw [ha, DeallocateLinkedList_dead h1 a hdead1] at hde
        cases hde
      · have hhl1 : IsSeg false h1 none s.holes hl none := by
          refine IsSeg_frame false s.heap h1 none hl _ _ ?_ hhl
          intro c hc
          apply hframe1
          intro hmem
          obtain ⟨b, hb, hbc⟩ := List.mem_map.mp hmem
          exact hdisj b hb c hc hbc
        obtain ⟨hdead2, hframe2, hlen2⟩ :=
          DeallocateLinkedList_spec hl _ h1 h2 false none s.holes hhl1 hde
        have hbl2 : IsSeg true h2 none s.allocations bl1 none := by
          refine IsSeg_frame true h1 h2 none bl1 _ _ ?_ hbl1
          intro c hc
          apply hframe2
          intro hmem
          obtain ⟨d, hd, hdc⟩ := List.mem_map.mp hmem
          have hcmem : c.1 ∈ bl.map Prod.fst := by
            rw [← hfst1]; exact List.mem_map.mpr ⟨c, hc, rfl⟩
          obtain ⟨b, hb, hbc⟩ := List.mem_map.mp hcmem
          exact hdisj b hb d hd (by rw [hbc, hdc])
        cases hlast : getNode h2 s.allocationsLast with
        | none => rw [hlast] at h; cases h
        | some lastN =>
          rw [hlast] at h
          simp only at h
          by_cases hroom : lastN.block.addressEnd < s.pm_size
          · rw [if_pos hroom] at h
            unfold printAndReturn at h
            split at h
            · cases h
            · injection h with h
              subst h
              refine ⟨bl1, IsSeg_append_heap true h2 _ none bl1 _ _ hbl2, hval1, Or.inr ?_, hok1⟩
              refine ⟨[(h2.length, ⟨0, lastN.block.addressEnd, s.pm_size⟩)], ?_,
                List.pairwise_singleton _ _, ?_, ?_, ?_⟩
              · refine ⟨rfl, ⟨none, ⟨0, lastN.block.addressEnd, s.pm_size⟩, none⟩, ?_, rfl,
                  by simp, rfl⟩
                simp only [malloc, getNode_append, if_true]
              · intro c hc
                rw [List.mem_singleton.mp hc]
                simp only
                omega
              · intro b hb c hc
                rw [List.mem_singleton.mp hc]
                have := IsSeg_fst_lt true h2 none bl1 none _ hbl2 b.1
                  (List.mem_map.mpr ⟨b, hb, rfl⟩)
                simp only
                omega
              · simp only [malloc, List.length_append, List.length_singleton, hlen2, hlen1,
                  hbl1len]
                omega
          · rw [if_neg hroom] at h
            unfold printAndReturn at h
            split at h
            · cases h
            · injection h with h
              subst h
              refine ⟨bl1, hbl2, hval1, ?_, hok1⟩
              cases hl with
              | nil =>
                simp only [IsSeg] at hhl
                refine Or.inr ⟨[], ?_, List.Pairwise.nil, by simp [NonNegative], by simp, ?_⟩
                · simp only [IsSeg]
                  exact hhl
                · simp only [List.length_nil, hlen2, hlen1, hbl1len]
                  omega
              | cons c cs =>
                refine Or.inl ⟨c.1, hhl.1, hdead2 c (List.mem_cons_self _ _), ?_, ?_⟩
                · obtain ⟨n, hn, _⟩ := IsSeg_live false s.heap none _ _ _ hhl c
                    (List.mem_cons_self _ _)
                  have := getNode_lt hn
                  simp only [hlen2, hlen1]
                  exact this
                · simp only [hlen2, hlen1, hbl1len]
                  exact hle

theorem setBlock_shrink (hl : List (Nat × Block)) (ha : Nat) (B : Block) (newStart : Int)
    (hsep : Separated hl) (hnn : NonNegative hl)
    (hB : ∀ a ∈ hl, a.1 = ha → a.2 = B)
    (h1 : B.addressStart ≤ newStart) (h2 : newStart ≤ B.addressEnd) :
    Separated (setBlock ha { B with addressStart := newStart } hl)
      ∧ NonNegative (setBlock ha { B with addressStart := newStart } hl) := by
  constructor
  · unfold Separated setBlock
    rw [List.pairwise_map]
    refine List.Pairwise.imp_of_mem ?_ hsep
    intro a b hma hmb hab
    by_cases haa : a.1 = ha
    · have := hB a hma haa
      by_cases hbb : b.1 = ha
      · have := hB b hmb hbb
        simp only [if_pos haa, if_pos hbb]
        simp_all only
        omega
      · simp only [if_pos haa, if_neg hbb]
        simp_all only
    · by_cases hbb : b.1 = ha
      · have := hB b hmb hbb
        simp only [if_neg haa, if_pos hbb]
        simp_all only
        omega
      · simp only [if_neg haa, if_neg hbb]
        exact hab
  · intro c hc
    unfold setBlock at hc
    obtain ⟨a, hma, rfl⟩ := List.mem_map.mp hc
    by_cases haa : a.1 = ha
    · simp only [if_pos haa]
      exact h2
    · simp only [if_neg haa]
      exact hnn a hma

theorem validateAllocate_scan (s : State) (id size : Int)
    (hacc : validateAllocate s id size = some []) :
    ∃ p, firstFitScan (walkFuel s.heap) s.heap s.holes size = some (some p) := by
  unfold validateAllocate at hacc
  by_cases hneg : id < 0
  · rw [if_pos hneg] at hacc; cases hacc
  · rw [if_neg hneg] at hacc
    cases hd : duplicateScan (walkFuel s.heap) s.heap s.allocations id with
    | none => rw [hd] at hacc; cases hacc
    | some d =>
      rw [hd] at hacc
      cases d with
      | true => cases hacc
      | false =>
        simp only at hacc
        by_cases hsz : size ≤ 0
        · rw [if_pos hsz] at hacc; cases hacc
        · rw [if_neg hsz] at hacc
          by_cases hcap : size + s.pm_allocated > s.pm_size
          · rw [if_pos hcap] at hacc; cases hacc
          · rw [if_neg hcap] at hacc
            cases hf : firstFitScan (walkFuel s.heap) s.heap s.holes size with
            | none => rw [hf] at hacc; cases hacc
            | some r =>
              cases r with
              | none => rw [hf] at hacc; cases hacc
              | some p => exact ⟨p, rfl⟩

theorem updateHole_live (s2 s3 : State) (a : Nat) (p : Ptr)
    (h : updateHole s2 a p = some s3) :
    ∃ lastN, getNode s2.heap s2.allocationsLast = some lastN := by
  cases hl : getNode s2.heap s2.allocationsLast with
  | none =>
    unfold updateHole at h
    rw [hl] at h
    simp at h
  | some lastN => exact ⟨lastN, rfl⟩

theorem inv_allocate (s s1 : State) (id size : Int) (hinv : Inv s)
    (h : TakeAllocateBlock s id size = Outcome.ok s1) : Inv s1 := by
  obtain ⟨bl, hbl, hval, hholes, hok⟩ := hinv
  unfold TakeAllocateBlock at h
  cases hv : validateAllocate s id size with
  | none => rw [hv] at h; cases h
  | some errs =>
    cases errs with
    | cons e es => rw [hv] at h; cases h
    | nil =>
    rw [hv] at h
    simp only at h
    cases hch : chooseHole s size with
    | none => rw [hch] at h; cases h
    | some filledHole =>
    rw [hch] at h
    simp only at h
    cases hab : AllocateBlockHelper s id size filledHole with
    | none => rw [hab] at h; cases h
    | some s2 =>
    rw [hab] at h
    simp only at h
    have hs12 : s1 = s2 := by
      unfold printAndReturn at h
      split at h
      · cases h
      · injection h with h
        exact h.symm
    subst hs12
    obtain ⟨p0, hscan⟩ := validateAllocate_scan s id size hv
    rcases hholes with ⟨a, ha, hdead, _, _⟩ | ⟨hl, hhl, hsep, hnn, hdisj, hbound⟩
    · rw [ha, firstFitScan_dead s.heap a hdead] at hscan
      cases hscan
    · -- the chosen hole
      obtain ⟨hcells, hhc, hmap⟩ := isSeg_cellsFrom s.heap hl (walkFuel s.heap) false none _ hhl
        (by simp only [walkFuel]; omega)
      obtain ⟨hole, hmem, hchoose, hfit, hpos⟩ :=
        chooseHole_of_accepted s id size hcells hhc hv
      rw [hch] at hchoose
      have hfh : filledHole = some hole.1 := Option.some.inj hchoose
      subst hfh
      have hholeN : getNode s.heap (some hole.1) = some hole.2 :=
        cellsFrom_getNode s.heap _ _ hcells hhc hole hmem
      have hhole_mem : (hole.1, hole.2.block) ∈ hl := by
        rw [← hmap]
        exact List.mem_map.mpr ⟨hole, hmem, rfl⟩
      have hhole_lt := getNode_lt hholeN
      unfold fits at hfit
      -- the allocation list after the insertion
      obtain ⟨s2', hstore, hs2len, hs2holes, _, _, _, hs2seg, _, hs2frame, hs2live,
          hs2new⟩ :=
        storeAllocation_spec true s id size hole.1 hole.2 bl hholeN hbl
          (by simp only [walkFuel]; omega)
      unfold AllocateBlockHelper at hab
      rw [hstore] at hab
      simp only at hab
      obtain ⟨lastN, hlastN⟩ := updateHole_live _ _ _ _ hab
      obtain ⟨fh, hfh, hfhb⟩ := hs2live hole.1 hole.2 hholeN
      obtain ⟨nb, hnb, hnbb⟩ := hs2new
      obtain ⟨s3, hupd, hs3al, _, _, _, _, hs3len, hs3frame, hs3cases⟩ :=
        updateHole_spec s2' s.heap.length hole.1 lastN fh nb hlastN hfh hnb
      rw [hupd] at hab
      have hs31 : s3 = s1 := Option.some.inj hab
      subst hs31
      have hbl'_ne : ∀ e ∈ storedList (s.heap.length,
          (⟨id, hole.2.block.addressStart, hole.2.block.addressStart + size⟩ : Block)) bl,
          e.1 ≠ hole.1 := by
        intro e he
        rcases storedList_mem _ _ e he with rfl | he1
        · exact Nat.ne_of_gt hhole_lt
        · exact hdisj e he1 _ hhole_mem
      refine ⟨storedList (s.heap.length,
          (⟨id, hole.2.block.addressStart, hole.2.block.addressStart + size⟩ : Block)) bl,
        ?_, ?_, Or.inr ?_, ?_⟩
      · rw [hs3al]
        exact IsSeg_frame true s2'.heap s3.heap none _ _ _
          (fun e he => hs3frame e.1 (hbl'_ne e he)) hs2seg
      · intro e he
        rcases storedList_mem _ _ e he with rfl | he1
        · simp only; omega
        · exact hval e he1
      · -- the hole list
        have hhl2 : IsSeg false s2'.heap none s2'.holes hl none := by
          rw [hs2holes]
          refine IsSeg_frame false s.heap s2'.heap none hl _ _ ?_ hhl
          intro c hc
          obtain ⟨n, hn, _⟩ := IsSeg_live false s.heap none hl _ _ hhl c hc
          apply hs2frame
          · exact Nat.ne_of_lt (getNode_lt hn)
          · intro hm
            obtain ⟨b, hb, hbc⟩ := List.mem_map.mp hm
            exact hdisj b hb c hc hbc
        have hlen' := storedList_length (s.heap.length,
          (⟨id, hole.2.block.addressStart, hole.2.block.addressStart + size⟩ : Block)) bl
        have hdisj' : ∀ b ∈ storedList (s.heap.length,
            (⟨id, hole.2.block.addressStart, hole.2.block.addressStart + size⟩ : Block)) bl,
            ∀ c ∈ hl, b.1 ≠ c.1 := by
          intro b hb c hc
          rcases storedList_mem _ _ b hb with rfl | hb1
          · obtain ⟨n, hn, _⟩ := IsSeg_live false s.heap none hl _ _ hhl c hc
            exact Nat.ne_of_gt (getNode_lt hn)
          · exact hdisj b hb1 c hc
        rcases hs3cases with ⟨_, hheap, hcase⟩ | ⟨_, hholes3, hnode3⟩
        · rcases hcase with ⟨hhead, hnext⟩ | ⟨_, hsame⟩
          · -- the head hole is dropped
            rw [hhead] at hhl2
            cases hl with
            | nil => simp [IsSeg] at hhl2
            | cons c cs =>
              obtain ⟨hc1, n, hn, _, _, hrest⟩ := hhl2
              have hc_eq : c.1 = hole.1 := (Option.some.inj hc1).symm
              rw [hc_eq, hfh] at hn
              have hnfh : n = fh := (Option.some.inj hn).symm
              subst hnfh
              refine ⟨cs, ?_, (List.pairwise_cons.mp hsep).2,
                fun e he => hnn e (List.mem_cons_of_mem _ he),
                fun b hb e he => hdisj' b hb e (List.mem_cons_of_mem _ he), ?_⟩
              · rw [hnext, hheap]
                exact IsSeg_weaken false s2'.heap none cs _ none _ hrest
              · simp only [List.length_cons] at hbound
                rw [hs3len, hs2len]
                omega
          · refine ⟨hl, ?_, hsep, hnn, hdisj', ?_⟩
            · rw [hsame, hheap]
              exact hhl2
            · rw [hs3len, hs2len]
              omega
        · -- the hole is shrunk
          have hnbend : nb.block.addressEnd = hole.2.block.addressStart + size := by
            rw [hnbb]
          have hB : ∀ a ∈ hl, a.1 = hole.1 → a.2 = fh.block := by
            intro a ha hae
            obtain ⟨n, hn, hnb2⟩ := IsSeg_live false s.heap none hl _ _ hhl a ha
            rw [hae, hholeN] at hn
            rw [← hnb2, ← Option.some.inj hn, hfhb]
          obtain ⟨hsep3, hnn3⟩ := setBlock_shrink hl hole.1 fh.block nb.block.addressEnd
            hsep hnn hB (by rw [hnbend, hfhb]; omega) (by rw [hnbend, hfhb]; omega)
          refine ⟨setBlock hole.1 { fh.block with addressStart := nb.block.addressEnd } hl,
            ?_, hsep3, hnn3, ?_, ?_⟩
          · rw [hholes3]
            exact IsSeg_setBlock false s2'.heap s3.heap hole.1 fh _ none hfh hnode3
              hs3frame hl _ _ hhl2
          · intro b hb c hc
            have hcm : c.1 ∈ (setBlock hole.1
                { fh.block with addressStart := nb.block.addressEnd } hl).map Prod.fst :=
              List.mem_map.mpr ⟨c, hc, rfl⟩
            rw [setBlock_fst] at hcm
            obtain ⟨c0, hc0, hc0e⟩ := List.mem_map.mp hcm
            rw [← hc0e]
            exact hdisj' b hb c0 hc0
          · have : (setBlock hole.1 { fh.block with addressStart := nb.block.addressEnd }
                hl).length = hl.length := by
              unfold setBlock
              simp
            rw [this, hs3len, hs2len]
            omega
      · obtain ⟨hid, hdup⟩ := validateAllocate_id s id size hv
        exact storedList_blocksOk _ bl hok hval hid
          (fresh_of_duplicateScan s id bl true hbl hdup)

theorem placeHole_spec (s s1 : State) (rb : LinkedList) (hl : List (Nat × Block))
    (hhl : IsSeg false s.heap none s.holes hl none)
    (hlen : hl.length ≤ walkFuel s.heap)
    (hp : placeHole s rb = some s1) :
    s1.heap.length = s.heap.length + 1
      ∧ s1.allocations = s.allocations ∧ s1.pm_allocated = s.pm_allocated
      ∧ IsSeg false s1.heap none s1.holes
          (storedList (s.heap.length, ⟨0, rb.block.addressStart, rb.block.addressEnd⟩) hl) none
      ∧ (∀ b, b ≠ s.heap.length → b ∉ hl.map Prod.fst →
          getNode s1.heap (some b) = getNode s.heap (some b)) := by
  unfold placeHole at hp
  simp only [malloc] at hp
  cases hho : s.holes with
  | none =>
    rw [hho] at hhl hp
    have hnil : hl = [] := by
      cases hl with
      | nil => rfl
      | cons c cs => exact absurd hhl.1 (by simp)
    subst hnil
    simp only at hp
    have hs1 := (Option.some.inj hp).symm
    subst hs1
    refine ⟨by simp, rfl, rfl, ?_, ?_⟩
    · simp only [storedList, if_true]
      refine ⟨rfl, ⟨none, ⟨0, rb.block.addressStart, rb.block.addressEnd⟩, none⟩, ?_, rfl,
        by simp, rfl⟩
      simp only [getNode_append, if_true]
    · intro b hb _
      simp only [getNode_append, if_neg hb]
  | some c =>
    have hne : hl ≠ [] := by
      intro e
      subst e
      simp only [IsSeg] at hhl
      rw [hho] at hhl
      cases hhl
    have hx : getNode (s.heap ++ [some (⟨none,
          ⟨0, rb.block.addressStart, rb.block.addressEnd⟩, none⟩ : LinkedList)])
        (some s.heap.length)
        = some ⟨none, ⟨0, rb.block.addressStart, rb.block.addressEnd⟩, none⟩ := by
      simp only [getNode_append, if_true]
    have hfresh : s.heap.length ∉ (([] : List (Nat × Block)) ++ hl).map Prod.fst := by
      intro hmem
      have := IsSeg_fst_lt false s.heap none hl none _ hhl _ (by simpa using hmem)
      omega
    obtain ⟨r, hr, hseg, _, hrlen, hframe, _⟩ :=
      insertLoop_spec false _ s.holes s.heap.length _ hx rfl rfl hl []
        (walkFuel (s.heap ++ [some (⟨none,
          ⟨0, rb.block.addressStart, rb.block.addressEnd⟩, none⟩ : LinkedList)]))
        s.holes
        (by simp only [walkFuel, List.length_append, List.length_singleton] at hlen ⊢; omega)
        rfl (IsSeg_append_heap false s.heap _ none hl _ _ hhl) hfresh
    rw [hho] at hr hp
    simp only [hr] at hp
    have hs1 := (Option.some.inj hp).symm
    subst hs1
    refine ⟨?_, rfl, rfl, ?_, ?_⟩
    · simp only [hrlen, List.length_append, List.length_singleton]
    · simp only [storedList, if_neg hne]
      exact hseg
    · intro b hb hnot
      simp only
      rw [hframe b hb (by simpa using hnot), getNode_append, if_neg hb]

theorem placeHole_dead (s : State) (rb : LinkedList) (a : Nat) (ha : s.holes = some a)
    (hdead : getNode s.heap (some a) = none) (hlt : a < s.heap.length) :
    placeHole s rb = none := by
  unfold placeHole
  simp only [malloc, ha]
  rw [insertLoop_dead]
  rw [getNode_append, if_neg (Nat.ne_of_lt hlt)]
  exact hdead

theorem coalesce_none (h : Heap) (fuel : Nat) : coalesce fuel h none = some h := by
  cases fuel <;> rfl

theorem inv_deallocate (s s1 : State) (id : Int) (hinv : Inv s)
    (h : TakeDeallocateBlock s id = Outcome.ok s1) : Inv s1 := by
  obtain ⟨bl, hbl, hval, hholes, hok⟩ := hinv
  unfold TakeDeallocateBlock at h
  cases hf : findScan (walkFuel s.heap) s.heap s.allocations id with
  | none => rw [hf] at h; cases h
  | some res =>
  obtain ⟨removedBlock, scanBad⟩ := res
  rw [hf] at h
  simp only at h
  by_cases hneg : id < 0
  · rw [if_pos hneg] at h
    cases scanBad <;> simp at h
  · rw [if_neg hneg] at h
    cases scanBad with
    | true => simp at h
    | false =>
    simp only [Bool.false_eq_true, if_false, List.append_nil] at h
    cases removedBlock with
    | none =>
      cases hg : getNode s.heap none <;> simp [hg] at h
    | some rbA =>
    cases hrb : getNode s.heap (some rbA) with
    | none => simp [hrb] at h
    | some rb =>
    simp only [hrb] at h
    -- the removed block is a cell of the allocation list
    have hmem := findScan_mem s.heap id bl _ true none _ rbA false hbl hf
    obtain ⟨rc, hrc, hrca⟩ := List.mem_map.mp hmem
    obtain ⟨pre, post, hsplit⟩ := List.append_of_mem hrc
    obtain ⟨rn, hrn, hrnb⟩ := IsSeg_live true s.heap none bl _ _ hbl rc hrc
    rw [hrca, hrb] at hrn
    have hrn1 : rn = rb := (Option.some.inj hrn).symm
    subst hrn1
    have hrbval := hval rc hrc
    rw [← hrnb] at hrbval
    have hrc_eq : rc = (rbA, rn.block) := Prod.ext hrca hrnb.symm
    subst hrc_eq
    have hnodup := IsSeg_nodup s.heap _ true none _ hbl
    rw [hsplit, List.map_append, List.map_cons] at hnodup
    obtain ⟨hr_pre, hr_post, _, _, _⟩ := nodup_mid hnodup
    cases hpl : placeHole s rn with
    | none => simp [hpl] at h
    | some s2 =>
    simp only [hpl] at h
    rcases hholes with ⟨a, ha, hdead, hlt, _⟩ | ⟨hl, hhl, hsep, hnn, hdisj, hbound⟩
    · rw [placeHole_dead s rn a ha hdead hlt] at hpl
      cases hpl
    · obtain ⟨hs2len, hs2al, _, hs2seg, hs2frame⟩ :=
        placeHole_spec s s2 rn hl hhl (by simp only [walkFuel]; omega) hpl
      -- the allocation list is untouched by the insertion of the hole
      have hbl2 : IsSeg true s2.heap none s2.allocations (pre ++ (rbA, rn.block) :: post)
          none := by
        rw [hs2al, ← hsplit]
        refine IsSeg_frame true s.heap s2.heap none bl _ _ ?_ hbl
        intro c hc
        obtain ⟨n, hn, _⟩ := IsSeg_live true s.heap none bl _ _ hbl c hc
        apply hs2frame
        · exact Nat.ne_of_lt (getNode_lt hn)
        · intro hm
          obtain ⟨d, hd, hdc⟩ := List.mem_map.mp hm
          exact hdisj c hc d hd hdc.symm
      obtain ⟨s3, hun, hs3len, hs3holes, _, _, _, _, hs3frame, hs3rb, hs3cases⟩ :=
        unlinkBlock_spec s2 rbA rn.block pre post hbl2
      simp only [hun] at h
      have hrb2 : getNode s2.heap (some rbA) = some rn := by
        rw [hs2frame rbA (Nat.ne_of_lt (getNode_lt hrb)) (by
          intro hm
          obtain ⟨d, hd, hdc⟩ := List.mem_map.mp hm
          exact hdisj _ hrc d hd hdc.symm)]
        exact hrb
      have hrb3 : getNode s3.heap (some rbA) = some rn := by rw [hs3rb]; exact hrb2
      simp only [hrb3, free_eq hrb3] at h
      have hlt3 := getNode_lt hrb3
      -- the hole list before the coalescing pass
      have hstored_mem : ∀ e ∈ storedList
          (s.heap.length, (⟨0, rn.block.addressStart, rn.block.addressEnd⟩ : Block)) hl,
          e.1 ∉ bl.map Prod.fst := by
        intro e he hm
        obtain ⟨b, hb, hbe⟩ := List.mem_map.mp hm
        rcases storedList_mem _ _ e he with rfl | he1
        · obtain ⟨n, hn, _⟩ := IsSeg_live true s.heap none bl _ _ hbl b hb
          have := getNode_lt hn
          simp only at hbe
          omega
        · exact hdisj b hb e he1 hbe
      have hhl4 : IsSeg false (s3.heap.set rbA none) none s2.holes
          (storedList (s.heap.length,
            (⟨0, rn.block.addressStart, rn.block.addressEnd⟩ : Block)) hl) none := by
        refine IsSeg_frame false s2.heap _ none _ _ _ ?_ hs2seg
        intro e he
        have hne := hstored_mem e he
        rw [getNode_set s3.heap rbA e.1 none hlt3, if_neg (by
          intro e1
          apply hne
          rw [← e1]
          exact hmem)]
        apply hs3frame
        rw [← hsplit]
        exact hne
      have hw : WeakOrder (storedList (s.heap.length,
          (⟨0, rn.block.addressStart, rn.block.addressEnd⟩ : Block)) hl) :=
        storedList_weakOrder _ hl hsep.weakOrder hnn
      have hnn1 : NonNegative (storedList (s.heap.length,
          (⟨0, rn.block.addressStart, rn.block.addressEnd⟩ : Block)) hl) := by
        intro e he
        rcases storedList_mem _ _ e he with rfl | he1
        · simp only; omega
        · exact hnn e he1
      have hlen1 := storedList_length (s.heap.length,
          (⟨0, rn.block.addressStart, rn.block.addressEnd⟩ : Block)) hl
      cases hco : coalesce (walkFuel (s3.heap.set rbA none)) (s3.heap.set rbA none) s3.holes with
      | none => simp [hco] at h
      | some h5 =>
      simp only [hco] at h
      -- the hole list after the coalescing pass
      have hafter : ∃ l1, IsSeg false h5 none s3.holes l1 none ∧ Separated l1 ∧ NonNegative l1
          ∧ (∀ e1 ∈ l1, e1.1 ∉ bl.map Prod.fst)
          ∧ l1.length ≤ hl.length + 1
          ∧ (∀ b, b ∈ bl.map Prod.fst →
              getNode h5 (some b) = getNode (s3.heap.set rbA none) (some b))
          ∧ h5.length = s3.heap.length := by
        rw [hs3holes] at hco ⊢
        cases hho : s2.holes with
        | none =>
          rw [hho] at hco hhl4
          rw [coalesce_none] at hco
          have := (Option.some.inj hco).symm
          subst this
          have hnil : storedList (s.heap.length,
              (⟨0, rn.block.addressStart, rn.block.addressEnd⟩ : Block)) hl = [] := by
            cases hst : storedList (s.heap.length,
              (⟨0, rn.block.addressStart, rn.block.addressEnd⟩ : Block)) hl with
            | nil => rfl
            | cons c cs => rw [hst] at hhl4; exact absurd hhl4.1 (by simp)
          exact ⟨[], rfl, List.Pairwise.nil, by simp [NonNegative], by simp, by simp,
            fun _ _ => rfl, by simp⟩
        | some c =>
          rw [hho] at hco hhl4
          obtain ⟨l1, h1s, h1sep, h1nn, h1start, h1len, h1frame, h1hl⟩ :=
            coalesce_spec _ _ _ h5 c none hhl4 hw hnn1 hco
          refine ⟨l1, h1s, h1sep, h1nn, ?_, by omega, ?_, by rw [h1hl]; simp⟩
          · intro e1 he1
            obtain ⟨e, he, hee, _⟩ := h1start e1 he1
            rw [hee]
            exact hstored_mem e he
          · intro b hb
            apply h1frame
            intro hm
            obtain ⟨e, he, heb⟩ := List.mem_map.mp hm
            exact hstored_mem e he (by rw [heb]; exact hb)
      obtain ⟨l1, h1s, h1sep, h1nn, h1disj, h1len, h1frame, h1hl⟩ := hafter
      have hs1 : s1 = { s3 with
          pm_allocated := s3.pm_allocated - (rn.block.addressEnd - rn.block.addressStart),
          heap := h5 } ∧ PrintAllocationTable (walkFuel h5) h5 s3.allocations ≠ none := by
        unfold printAndReturn at h
        simp only at h
        split at h
        · cases h
        · next rows hrows =>
          injection h with h
          exact ⟨h.symm, by rw [hrows]; simp⟩
      obtain ⟨hs1, hprint⟩ := hs1
      subst hs1
      rcases hs3cases with ⟨hpre, hpost, hal⟩ | ⟨hne, hseg3⟩
      · -- the only block was removed: the table is printed from a freed node
        exfalso
        apply hprint
        rw [hal]
        apply PrintAllocationTable_dead
        rw [h1frame rbA hmem, getNode_set s3.heap rbA rbA none hlt3, if_pos rfl]
      · have hsub : ∀ e ∈ pre ++ post, e ∈ bl := by
          intro e he
          rw [hsplit]
          rcases List.mem_append.mp he with h1 | h1
          · exact List.mem_append_left _ h1
          · exact List.mem_append_right _ (List.mem_cons_of_mem _ h1)
        refine ⟨pre ++ post, ?_, fun e he => hval e (hsub e he), Or.inr ⟨l1, h1s, h1sep, h1nn,
          ?_, ?_⟩, @BlocksOk.remove pre post (rbA, rn.block) (by rw [← hsplit]; exact hok)⟩
        · refine IsSeg_frame true s3.heap h5 none _ _ _ ?_ hseg3
          intro e he
          have hem : e.1 ∈ bl.map Prod.fst := List.mem_map.mpr ⟨e, hsub e he, rfl⟩
          rw [h1frame e.1 hem, getNode_set s3.heap rbA e.1 none hlt3, if_neg]
          intro e1
          rcases List.mem_append.mp he with h1 | h1
          · exact hr_pre (by rw [e1]; exact List.mem_map.mpr ⟨e, h1, rfl⟩)
          · exact hr_post (by rw [e1]; exact List.mem_map.mpr ⟨e, h1, rfl⟩)
        · intro b hb c hc hbc
          exact h1disj c hc (by rw [← hbc]; exact List.mem_map.mpr ⟨b, hsub b hb, rfl⟩)
        · have hbllen : bl.length = pre.length + post.length + 1 := by
            rw [hsplit]
            simp only [List.length_append, List.length_cons]
            omega
          simp only [List.length_append, h1hl, hs3len, hs2len]
          omega

theorem inv_step (s s1 : State) (op : Op) (hinv : Inv s)
    (h : applyOp s op = Outcome.ok s1) : Inv s1 := by
  cases op with
  | configure size algorithm => exact inv_configure s s1 size algorithm hinv h
  | allocate id size => exact inv_allocate s s1 id size hinv h
  | deallocate id => exact inv_deallocate s s1 id hinv h
  | compact => exact inv_compact s s1 hinv h

theorem inv_run : ∀ (ops : List Op) (s s1 : State), Inv s → run s ops = some s1 → Inv s1 := by
  intro ops
  induction ops with
  | nil =>
    intro s s1 hinv h
    simp only [run] at h
    rw [← Option.some.inj h]
    exact hinv
  | cons op ops ih =>
    intro s s1 hinv h
    simp only [run] at h
    cases hop : applyOp s op with
    | ok s2 =>
      rw [hop] at h
      exact ih s2 s1 (inv_step s s2 op hinv hop) h
    | rejected es s2 => rw [hop] at h; cases h
    | fault => rw [hop] at h; cases h

theorem inv_holes (s : State) (hs : List (Int × Int)) (hinv : Inv s)
    (hholes : holesOf s = some hs) :
    hs.Pairwise (fun a b => a.2 < b.1) ∧ ∀ a ∈ hs, a.1 ≤ a.2 := by
  obtain ⟨bl, _, _, hcase, _⟩ := hinv
  rcases hcase with ⟨a, ha, hdead, _, _⟩ | ⟨hl, hhl, hsep, hnn, _, hbound⟩
  · unfold holesOf holeCells at hholes
    rw [ha, cellsFrom_dead s.heap a hdead] at hholes
    cases hholes
  · rw [holesOf_of_isSeg s hl false none hhl (by simp only [walkFuel]; omega)] at hholes
    have := (Option.some.inj hholes).symm
    subst this
    constructor
    · rw [List.pairwise_map]
      exact hsep
    · intro a ha
      obtain ⟨c, hc, rfl⟩ := List.mem_map.mp ha
      exact hnn c hc

theorem noAdjacent_of_separated (hs : List (Int × Int))
    (hsep : hs.Pairwise (fun a b => a.2 < b.1)) (hnn : ∀ a ∈ hs, a.1 ≤ a.2) :
    NoAdjacentHoles hs := by
  intro i j hij
  rw [List.pairwise_iff_get] at hsep
  have hi := hnn (hs.get i) (List.get_mem _ _ _)
  have hj := hnn (hs.get j) (List.get_mem _ _ _)
  rcases lt_or_gt_of_ne hij with hlt | hgt
  · have := hsep i j hlt
    omega
  · have := hsep j i hgt
    omega

theorem inv_blocks (s : State) (hinv : Inv s) :
    ∃ bl : List (Nat × Block), blocksOf s = some (bl.map Prod.snd)
      ∧ (∀ b ∈ bl, b.2.addressStart < b.2.addressEnd) ∧ BlocksOk bl := by
  obtain ⟨bl, hbl, hval, _, hok⟩ := hinv
  have hlen := IsSeg_length_le s.heap bl true none _ hbl
  exact ⟨bl, blocksOf_of_isSeg s bl true none hbl (by simp only [walkFuel]; omega), hval, hok⟩

/-! ## The insertion of a freed hole, and the chosen hole -/

theorem placeHole_total (s : State) (rb : LinkedList) (hl : List (Nat × Block))
    (hhl : IsSeg false s.heap none s.holes hl none) :
    ∃ s1, placeHole s rb = some s1 := by
  have hlen := IsSeg_length_le s.heap hl false none _ hhl
  unfold placeHole
  simp only [malloc]
  cases hho : s.holes with
  | none => exact ⟨_, rfl⟩
  | some c =>
    have hx : getNode (s.heap ++ [some (⟨none,
          ⟨0, rb.block.addressStart, rb.block.addressEnd⟩, none⟩ : LinkedList)])
        (some s.heap.length)
        = some ⟨none, ⟨0, rb.block.addressStart, rb.block.addressEnd⟩, none⟩ := by
      simp only [getNode_append, if_true]
    have hfresh : s.heap.length ∉ (([] : List (Nat × Block)) ++ hl).map Prod.fst := by
      intro hmem
      have := IsSeg_fst_lt false s.heap none hl none _ hhl _ (by simpa using hmem)
      omega
    obtain ⟨r, hr, _⟩ :=
      insertLoop_spec false _ s.holes s.heap.length _ hx rfl rfl hl []
        (walkFuel (s.heap ++ [some (⟨none,
          ⟨0, rb.block.addressStart, rb.block.addressEnd⟩, none⟩ : LinkedList)]))
        s.holes
        (by simp only [walkFuel, List.length_append, List.length_singleton]; omega)
        rfl (IsSeg_append_heap false s.heap _ none hl _ _ hhl) hfresh
    rw [hho] at hr
    simp only [hr]
    exact ⟨_, rfl⟩

theorem storedList_ordered (x : Nat × Block) (hl : List (Nat × Block))
    (hval : ∀ b ∈ hl, b.2.addressStart < b.2.addressEnd)
    (hord : hl.Pairwise (fun a b => a.2.addressEnd ≤ b.2.addressStart))
    (hdisj : ∀ b ∈ hl, b.2.addressEnd ≤ x.2.addressStart ∨ x.2.addressEnd ≤ b.2.addressStart) :
    ∃ r1 r2, hl = r1 ++ r2 ∧ storedList x hl = r1 ++ x :: r2
      ∧ (∀ b ∈ r1, b.2.addressEnd ≤ x.2.addressStart)
      ∧ (∀ b ∈ r2, x.2.addressEnd ≤ b.2.addressStart) := by
  by_cases hne : hl = []
  · subst hne
    exact ⟨[], [], rfl, by simp [storedList], by simp, by simp⟩
  · obtain ⟨r1, r2, hsplit, hins, h1, h2⟩ :=
      insertSpec_ordered x hl [] hne (by simp) (fun h => absurd rfl h) hdisj hord hval
    refine ⟨r1, r2, hsplit, ?_, h1, h2⟩
    simp only [storedList, if_neg hne, hins, List.nil_append]

theorem wrap32_of_inInt32 (x : Int) (hx : inInt32 x) : wrap32 x = x := by
  unfold inInt32 at hx
  unfold wrap32
  omega

theorem fits32_iff_fits (newBlockSize : Int) (n : LinkedList)
    (hx : inInt32 (n.block.addressStart + newBlockSize)) :
    fits32 newBlockSize n ↔ fits newBlockSize n := by
  unfold fits32 fits
  rw [wrap32_of_inInt32 _ hx]

theorem firstFitScan32_eq (newBlockSize : Int) (h : Heap) :
    ∀ (fuel : Nat) (p : Ptr) (cells : List (Nat × LinkedList)),
      cellsFrom fuel h p = some cells →
      (∀ c ∈ cells, inInt32 (c.2.block.addressStart + newBlockSize)) →
      firstFitScan32 fuel h p newBlockSize = some (firstFitIn newBlockSize cells) := by
  intro fuel
  induction fuel with
  | zero =>
    intro p cells hc _
    cases p with
    | none => simp [cellsFrom] at hc; subst hc; simp [firstFitScan32, firstFitIn]
    | some a => simp [cellsFrom] at hc
  | succ fuel ih =>
    intro p cells hc hr32
    cases p with
    | none => simp [cellsFrom] at hc; subst hc; simp [firstFitScan32, firstFitIn]
    | some a =>
      simp only [cellsFrom] at hc
      cases hn : getNode h (some a) with
      | none => simp [hn] at hc
      | some n =>
        simp only [hn] at hc
        cases hr : cellsFrom fuel h n.next with
        | none => simp [hr] at hc
        | some rest =>
          simp only [hr, Option.some.injEq] at hc
          subst hc
          have hiff := fits32_iff_fits newBlockSize n (hr32 (a, n) (List.mem_cons_self _ _))
          simp only [firstFitScan32, hn, firstFitIn]
          by_cases hf : fits newBlockSize n
          · rw [if_pos (hiff.mpr hf), if_pos hf]
          · rw [if_neg (fun h32 => hf (hiff.mp h32)), if_neg hf]
            exact ih n.next rest hr (fun c hc => hr32 c (List.mem_cons_of_mem _ hc))

/-- Where the sums of lines 276 and 293 do not overflow, the checks of the
input loops give the verdict the exact sums give. -/
theorem validateAllocate32_eq (s : State) (id size : Int) (hcells : List (Nat × LinkedList))
    (hh : holeCells s = some hcells)
    (hsum : inInt32 (size + s.pm_allocated))
    (hends : ∀ c ∈ hcells, inInt32 (c.2.block.addressStart + size)) :
    validateAllocate32 s id size = validateAllocate s id size := by
  have h32 := firstFitScan32_eq size s.heap _ _ hcells hh hends
  have hex := firstFitScan_eq size s.heap _ _ hcells hh
  simp only [validateAllocate32, validateAllocate, capacityExceeded32,
    wrap32_of_inInt32 _ hsum, h32, hex]

/-- With exact sums, the verdict of the input checks is that of the first
failing check, and a request is accepted exactly when every check passes. -/
theorem validateAllocate_verdict (s : State) (id size : Int)
    (bcells hcells : List (Nat × LinkedList))
    (hb : blockCells s = some bcells) (hh : holeCells s = some hcells) :
    validateAllocate s id size
        = some (expectedVerdict s (bcells.map (fun c => c.2.block))
            (hcells.map (fun c => c.2.block)) id size)
      ∧ (validateAllocate s id size = some [] ↔
          (0 ≤ id ∧ (∀ c ∈ bcells, c.2.block.id ≠ id) ∧ size > 0
            ∧ s.pm_allocated + size ≤ s.pm_size
            ∧ ∃ c ∈ hcells, c.2.block.size ≥ size)) := by
  have hdup := duplicateScan_eq id s.heap _ _ bcells hb
  have hfirst := firstFitScan_eq size s.heap _ _ hcells hh
  have hfit : ∀ c : Nat × LinkedList, fits size c.2 ↔ c.2.block.size ≥ size := by
    intro c
    unfold fits Block.size
    constructor <;> intro hc <;> omega
  have hv : validateAllocate s id size
      = some (expectedVerdict s (bcells.map (fun c => c.2.block))
          (hcells.map (fun c => c.2.block)) id size) := by
    unfold validateAllocate expectedVerdict
    by_cases hneg : id < 0
    · simp [hneg]
    · rw [if_neg hneg, if_neg hneg, hdup]
      by_cases hd : ∃ c ∈ bcells, c.2.block.id = id
      · have hd1 : ∃ b ∈ bcells.map (fun c => c.2.block), b.id = id := by
          obtain ⟨c, hc, hcid⟩ := hd
          exact ⟨c.2.block, List.mem_map.mpr ⟨c, hc, rfl⟩, hcid⟩
        simp only [hd, decide_True, hd1, if_true]
      · have hd1 : ¬ ∃ b ∈ bcells.map (fun c => c.2.block), b.id = id := by
          rintro ⟨b, hbm, hbid⟩
          obtain ⟨c, hc, rfl⟩ := List.mem_map.mp hbm
          exact hd ⟨c, hc, hbid⟩
        simp only [hd, decide_False, hd1, if_false]
        by_cases hsz : size ≤ 0
        · simp [hsz]
        · rw [if_neg hsz, if_neg hsz]
          by_cases hcap : size + s.pm_allocated > s.pm_size
          · have hcap1 : s.pm_allocated + size > s.pm_size := by omega
            simp [hcap, hcap1]
          · have hcap1 : ¬ s.pm_allocated + size > s.pm_size := by omega
            rw [if_neg hcap, if_neg hcap1, hfirst]
            by_cases hnone : ∀ c ∈ hcells, ¬ fits size c.2
            · have hsmall : ∀ h ∈ hcells.map (fun c => c.2.block), h.size < size := by
                intro h hm
                obtain ⟨c, hc, rfl⟩ := List.mem_map.mp hm
                have := hnone c hc
                rw [hfit] at this
                omega
              rw [(firstFitIn_eq_none size hcells).mpr hnone, if_pos hsmall]
            · have hsmall : ¬ ∀ h ∈ hcells.map (fun c => c.2.block), h.size < size := by
                intro hall
                apply hnone
                intro c hc
                have := hall c.2.block (List.mem_map.mpr ⟨c, hc, rfl⟩)
                rw [hfit]
                omega
              rw [if_neg hsmall]
              cases hres : firstFitIn size hcells with
              | none => exact absurd ((firstFitIn_eq_none size hcells).mp hres) hnone
              | some a => rfl
  refine ⟨hv, ?_⟩
  · rw [hv]
    unfold expectedVerdict
    constructor
    · intro hacc
      by_cases hneg : id < 0
      · rw [if_pos hneg] at hacc; cases hacc
      · rw [if_neg hneg] at hacc
        by_cases hd : ∃ b ∈ bcells.map (fun c => c.2.block), b.id = id
        · rw [if_pos hd] at hacc; cases hacc
        · rw [if_neg hd] at hacc
          by_cases hsz : size ≤ 0
          · rw [if_pos hsz] at hacc; cases hacc
          · rw [if_neg hsz] at hacc
            by_cases hcap : s.pm_allocated + size > s.pm_size
            · rw [if_pos hcap] at hacc; cases hacc
            · rw [if_neg hcap] at hacc
              by_cases hsmall : ∀ h ∈ hcells.map (fun c => c.2.block), h.size < size
              · rw [if_pos hsmall] at hacc; cases hacc
              · refine ⟨by omega, ?_, by omega, by omega, ?_⟩
                · intro c hc hcid
                  exact hd ⟨c.2.block, List.mem_map.mpr ⟨c, hc, rfl⟩, hcid⟩
                · by_contra hno
                  apply hsmall
                  intro h hm
                  obtain ⟨c, hc, rfl⟩ := List.mem_map.mp hm
                  by_contra hge
                  exact hno ⟨c, hc, by omega⟩
    · rintro ⟨hid, hnodup, hsz, hcap, c, hc, hcs⟩
      have hd : ¬ ∃ b ∈ bcells.map (fun c => c.2.block), b.id = id := by
        rintro ⟨b, hbm, hbid⟩
        obtain ⟨c1, hc1, rfl⟩ := List.mem_map.mp hbm
        exact hnodup c1 hc1 hbid
      have hsmall : ¬ ∀ h ∈ hcells.map (fun c => c.2.block), h.size < size := by
        intro hall
        have := hall c.2.block (List.mem_map.mpr ⟨c, hc, rfl⟩)
        omega
      rw [if_neg (by omega), if_neg hd, if_neg (by omega), if_neg (by omega), if_neg hsmall]

/-! ## The claims -/

/-- C1 (partition coverage in every reachable state) fails on the code: after
configure(100, first fit), allocate(0,30), allocate(1,20), deallocate(0),
allocate(2,50) the hole [50,100) that the new last block filled is not the
head of the hole list and stays in it, so address 50 lies both in Block 2 and
in a Hole. -/
theorem partition_coverage_violated :
    ∃ s, run initialState [Op.configure 100 0, Op.allocate 0 30, Op.allocate 1 20,
            Op.deallocate 0, Op.allocate 2 50] = some s
      ∧ blocksOf s = some [⟨1, 30, 50⟩, ⟨2, 50, 100⟩]
      ∧ holesOf s = some [(0, 30), (50, 100)]
      ∧ ¬ PartitionCoverage s := by
  refine ⟨_, rfl, by decide, by decide, ?_⟩
  rintro ⟨bs, hs, hb, hh, hcov⟩
  have hb1 : some [(⟨1, 30, 50⟩ : Block), ⟨2, 50, 100⟩] = some bs := by rw [← hb]; decide
  have hh1 : some [((0 : Int), (30 : Int)), (50, 100)] = some hs := by rw [← hh]; decide
  cases hb1; cases hh1
  have := hcov 50 (by decide) (by decide)
  revert this
  decide

/-- C2 (no two Holes are adjacent in any reachable state) fails on the code.
After configure(100, first fit), allocate(0,30), allocate(1,20) and
deallocate(0) the Holes are {[0,30),[50,100)} and `pm_allocated` is 20.  The
request (2, 2147483647) passes the checks of lines 276 and 293 because both
sums wrap around, and the block is carved out of the hole [50,100), whose
start becomes the wrapped end -2147483599 of the block (line 208).  The
request (3, 2147483629) then fits that hole (-2147483599 + 2147483629 = 30)
and moves its start to 30: the Holes are {[0,30),[30,100)}, two adjacent
holes, and no deallocation has run the coalescing pass on them. -/
theorem adjacent_holes_after_wrapped_allocations :
    ∃ s0 s1 s,
      run32 initialState [Op.configure 100 0, Op.allocate 0 30, Op.allocate 1 20,
          Op.deallocate 0] = some s0
      ∧ holesOf s0 = some [(0, 30), (50, 100)] ∧ s0.pm_allocated = 20
      ∧ validateAllocate32 s0 2 2147483647 = some []
      ∧ TakeAllocateBlock32 s0 2 2147483647 = Outcome.ok s1
      ∧ holesOf s1 = some [(0, 30), (-2147483599, 100)] ∧ s1.pm_allocated = -2147483629
      ∧ validateAllocate32 s1 3 2147483629 = some []
      ∧ TakeAllocateBlock32 s1 3 2147483629 = Outcome.ok s
      ∧ run32 initialState [Op.configure 100 0, Op.allocate 0 30, Op.allocate 1 20,
          Op.deallocate 0, Op.allocate 2 2147483647, Op.allocate 3 2147483629] = some s
      ∧ blocksOf s = some [⟨3, -2147483599, 30⟩, ⟨2, 50, -2147483599⟩, ⟨1, 30, 50⟩]
      ∧ holesOf s = some [(0, 30), (30, 100)]
      ∧ ¬ NoAdjacentHoles [(0, 30), (30, 100)] := by
  refine ⟨_, _, _, rfl, by decide, rfl, by decide, rfl, by decide, rfl, by decide, rfl, rfl,
    by decide, by decide, ?_⟩
  intro h
  exact h ⟨0, by decide⟩ ⟨1, by decide⟩ (by decide) rfl

/-- C3 (conservation, also across a second configure) fails on the code:
`TakeParameters` sets `pm_allocated` to 0 but leaves the allocation list as it
is, so after configure, allocate(0,30), configure the counter is 0 while
Block 0 of size 30 is still in the list.  It also fails after a single
configure: in a 6-unit space the last run below ends with a request that is
given the consumed hole [4,6), which was left in the hole list; its block
overlaps Block 4, is not stored in the allocation list, and `pm_allocated` is
raised to 6 while the Blocks sum to 4. -/
theorem conservation_violated_by_second_configure :
    (∃ s, run initialState [Op.configure 100 0, Op.allocate 0 30, Op.configure 100 0] = some s
      ∧ s.pm_allocated = 0
      ∧ blocksOf s = some [⟨0, 0, 30⟩]
      ∧ ¬ Conservation s)
    ∧ ∃ s, run initialState [Op.configure 6 0, Op.allocate 4 1, Op.allocate 0 1,
          Op.allocate 2 1, Op.allocate 1 1, Op.deallocate 2, Op.deallocate 4,
          Op.allocate 4 2, Op.allocate 2 2] = some s
      ∧ s.pm_allocated = 6
      ∧ blocksOf s = some [⟨0, 1, 2⟩, ⟨1, 3, 4⟩, ⟨4, 4, 6⟩]
      ∧ ¬ Conservation s := by
  constructor
  · refine ⟨_, rfl, rfl, by decide, ?_⟩
    rintro ⟨bs, hb, hsum⟩
    have hb1 : some [(⟨0, 0, 30⟩ : Block)] = some bs := by rw [← hb]; decide
    cases hb1
    revert hsum
    decide
  · refine ⟨_, rfl, rfl, by decide, ?_⟩
    rintro ⟨bs, hb, hsum⟩
    have hb1 : some [(⟨0, 1, 2⟩ : Block), ⟨1, 3, 4⟩, ⟨4, 4, 6⟩] = some bs := by
      rw [← hb]; decide
    cases hb1
    revert hsum
    decide

/-- C4 (configure resets Blocks to empty) fails on the code: applied to the
state that holds Block 0 = [0,30), `TakeParameters` yields the single hole
[0,100) and `pm_allocated = 0`, but the Blocks list still holds Block 0. -/
theorem configure_keeps_old_blocks :
    ∃ s s1, run initialState [Op.configure 100 0, Op.allocate 0 30] = some s
      ∧ TakeParameters s 100 0 = Outcome.ok s1
      ∧ holesOf s1 = some [(0, 100)]
      ∧ s1.pm_allocated = 0
      ∧ blocksOf s1 = some [⟨0, 0, 30⟩]
      ∧ blocksOf s1 ≠ some [] := by
  refine ⟨_, _, rfl, rfl, by decide, rfl, by decide, by decide⟩

/-- C5: first fit.  With strategy 0, when the hole list can be read, is in
ascending address order and holds a hole of size at least `newBlockSize`, the
chosen hole is the first such hole of the list: every hole before it is too
small, and no sufficient hole has a lower address. -/
theorem first_fit_selects_first_sufficient (s : State) (newBlockSize : Int)
    (cells : List (Nat × LinkedList))
    (halg : s.holeFillingAlgorithm = 0)
    (hcells : holeCells s = some cells)
    (hsorted : cells.Pairwise
      (fun a b => a.2.block.addressStart ≤ b.2.block.addressStart))
    (hex : ∃ c ∈ cells, c.2.block.size ≥ newBlockSize) :
    ∃ pre c post, cells = pre ++ c :: post
      ∧ chooseHole s newBlockSize = some (some c.1)
      ∧ c.2.block.size ≥ newBlockSize
      ∧ (∀ d ∈ pre, d.2.block.size < newBlockSize)
      ∧ (∀ d ∈ cells, d.2.block.size ≥ newBlockSize →
          c.2.block.addressStart ≤ d.2.block.addressStart) := by
  have hex1 : ∃ c ∈ cells, fits newBlockSize c.2 := by
    obtain ⟨c, hc, hsz⟩ := hex
    exact ⟨c, hc, by unfold fits; unfold Block.size at hsz; omega⟩
  obtain ⟨pre, c, post, hsplit, hres, hfit, hpre⟩ := firstFitIn_spec newBlockSize cells hex1
  refine ⟨pre, c, post, hsplit, ?_, ?_, ?_, ?_⟩
  · unfold chooseHole
    rw [if_pos halg]
    unfold holeCells at hcells
    rw [firstFitScan_eq newBlockSize s.heap _ _ cells hcells, hres]
  · unfold fits at hfit; unfold Block.size; omega
  · intro d hd
    have := hpre d hd
    unfold fits at this; unfold Block.size; omega
  · intro d hd hsz
    rw [hsplit] at hd hsorted
    rcases List.mem_append.mp hd with hd1 | hd1
    · have := hpre d hd1
      unfold fits at this; unfold Block.size at hsz; omega
    · rcases List.mem_cons.mp hd1 with rfl | hd2
      · exact le_refl _
      · have h2 := (List.pairwise_append.mp hsorted).2.1
        exact (List.pairwise_cons.mp h2).1 d hd2

/-- Witness for C5: in Scenario B the request of size 40 skips the hole
[0,30) and takes [50,100). -/
theorem first_fit_witness :
    holesOf scenarioB = some [(0, 30), (50, 100)]
      ∧ ∃ pre c post,
        [((3 : Nat), (⟨none, ⟨0, 0, 30⟩, some 0⟩ : LinkedList)),
          (0, ⟨some 3, ⟨0, 50, 100⟩, none⟩)] = pre ++ c :: post
        ∧ chooseHole scenarioB 40 = some (some c.1)
        ∧ c.2.block.size ≥ 40
        ∧ (∀ d ∈ pre, d.2.block.size < 40)
        ∧ (∀ d ∈ [((3 : Nat), (⟨none, ⟨0, 0, 30⟩, some 0⟩ : LinkedList)),
              (0, ⟨some 3, ⟨0, 50, 100⟩, none⟩)],
            d.2.block.size ≥ 40 → c.2.block.addressStart ≤ d.2.block.addressStart) :=
  ⟨by decide,
   first_fit_selects_first_sufficient scenarioB 40 _ (by decide) (by decide) (by decide)
    ⟨(0, ⟨some 3, ⟨0, 50, 100⟩, none⟩), by decide, by decide⟩⟩

/-- C6 (the hole chosen by best fit is sufficient and no sufficient hole is
smaller) fails on the code.  After configure(2147483647, best fit),
allocate(0,1073741825), allocate(1,5), allocate(2,10), allocate(3,5),
deallocate(0) and deallocate(2), none of which overflows, the Holes are
{[0,1073741825), [1073741830,1073741840), [1073741845,2147483647)}.  For the
size 1073741825 only the first hole is sufficient.  In the test of line 345
the sum 1073741830 + 1073741825 wraps around to a negative number, so the
10-unit hole passes the test, is smaller than the first hole, and is chosen;
the allocation carves the block [1073741830, -2147483641) out of it. -/
theorem best_fit_chooses_insufficient_hole :
    ∃ s hcells a n s1,
      run32 initialState [Op.configure 2147483647 1, Op.allocate 0 1073741825,
          Op.allocate 1 5, Op.allocate 2 10, Op.allocate 3 5, Op.deallocate 0,
          Op.deallocate 2] = some s
      ∧ run initialState [Op.configure 2147483647 1, Op.allocate 0 1073741825,
          Op.allocate 1 5, Op.allocate 2 10, Op.allocate 3 5, Op.deallocate 0,
          Op.deallocate 2] = some s
      ∧ s.holeFillingAlgorithm = 1 ∧ s.pm_allocated = 10 ∧ s.pm_size = 2147483647
      ∧ holeCells s = some hcells
      ∧ holesOf s = some [(0, 1073741825), (1073741830, 1073741840),
          (1073741845, 2147483647)]
      ∧ (∃ c ∈ hcells, c.2.block.size ≥ 1073741825)
      ∧ validateAllocate32 s 4 1073741825 = some []
      ∧ chooseHole32 s 1073741825 = some (some a)
      ∧ getNode s.heap (some a) = some n
      ∧ n.block.addressStart = 1073741830 ∧ n.block.addressEnd = 1073741840
      ∧ n.block.size = 10
      ∧ ¬ n.block.size ≥ 1073741825
      ∧ wrap32 (n.block.addressStart + 1073741825) = -2147483641
      ∧ TakeAllocateBlock32 s 4 1073741825 = Outcome.ok s1
      ∧ blocksOf s1 = some [⟨4, 1073741830, -2147483641⟩, ⟨1, 1073741825, 1073741830⟩,
          ⟨3, 1073741840, 1073741845⟩] := by
  refine ⟨_, _, _, _, _, rfl, by decide, rfl, rfl, rfl, rfl, by decide, by decide, by decide,
    rfl, rfl, rfl, rfl, by decide, by decide, by decide, rfl, by decide⟩

/-- C7 (for every well-formed state and accepted request, allocate leaves the
previous Blocks plus the new Block, in address order) fails on the code.
After configure(100, first fit), allocate(0,30), allocate(1,20),
allocate(2,50), deallocate(0) and deallocate(2) the state is well formed:
Blocks {1:[30,50)}, Holes {[0,30),[50,100)}.  The request (3, 10) is
accepted and the hole [0,30) is chosen.  Lines 127-190 store the Block
3:[0,10) before Block 1, but `allocationsLast` still designates the node of
Block 2, freed by the deallocation, and line 194 reads
`allocationsLast->block.addressEnd` from it: the operation does not complete
on defined behaviour. -/
theorem accepted_allocation_reads_freed_last_block :
    ∃ s a s2 nb,
      run32 initialState [Op.configure 100 0, Op.allocate 0 30, Op.allocate 1 20,
          Op.allocate 2 50, Op.deallocate 0, Op.deallocate 2] = some s
      ∧ blocksOf s = some [⟨1, 30, 50⟩]
      ∧ holesOf s = some [(0, 30), (50, 100)]
      ∧ s.pm_allocated = 20 ∧ s.pm_size = 100
      ∧ validateAllocate32 s 3 10 = some []
      ∧ chooseHole32 s 10 = some (some a)
      ∧ (getNode s.heap (some a)).map (fun n => (n.block.addressStart, n.block.addressEnd))
          = some (0, 30)
      ∧ storeAllocation32 s 3 10 (some a) = some (s2, nb)
      ∧ blocksOf s2 = some [⟨3, 0, 10⟩, ⟨1, 30, 50⟩]
      ∧ s2.allocationsLast = s.allocationsLast
      ∧ getNode s2.heap s2.allocationsLast = none
      ∧ updateHole s2 nb (some a) = none
      ∧ TakeAllocateBlock32 s 3 10 = Outcome.fault := by
  refine ⟨_, _, _, _, rfl, by decide, by decide, rfl, rfl, by decide, rfl, by decide, rfl,
    by decide, rfl, by decide, by decide, by decide⟩

/-- C8 (a fully consumed hole is absent afterwards, head or not, new block
last or not) fails on the code.  From Blocks {1:[30,50)} and Holes
{[0,30),[50,100)}: allocate(2,50) consumes the non-head hole [50,100), which
stays in the list unchanged; allocate(2,30) consumes the head hole [0,30)
while the new block is not the last one, and the hole stays as [30,30). -/
theorem consumed_hole_stays_in_list :
    ∃ s s1 s2, run initialState [Op.configure 100 0, Op.allocate 0 30, Op.allocate 1 20,
            Op.deallocate 0] = some s
      ∧ blocksOf s = some [⟨1, 30, 50⟩]
      ∧ holesOf s = some [(0, 30), (50, 100)]
      ∧ TakeAllocateBlock s 2 50 = Outcome.ok s1
      ∧ blocksOf s1 = some [⟨1, 30, 50⟩, ⟨2, 50, 100⟩]
      ∧ holesOf s1 = some [(0, 30), (50, 100)]
      ∧ TakeAllocateBlock s 2 30 = Outcome.ok s2
      ∧ blocksOf s2 = some [⟨2, 0, 30⟩, ⟨1, 30, 50⟩]
      ∧ holesOf s2 = some [(30, 30), (50, 100)] := by
  refine ⟨_, _, _, rfl, by decide, by decide, rfl, by decide, by decide, rfl,
    by decide, by decide⟩

/-- C9 as stated fails on the code: in the freshly configured 100-unit space
the request (-1, 10) meets the four conditions of the claim (the id is not
the id of a Block, the size is positive, it does not exceed the capacity and
the hole [0,100) is large enough), and it is rejected all the same, by the
check `newBlockId < 0` of line 227. -/
theorem negative_id_is_rejected :
    ∃ s bs hs, configured 100 0 = some s
      ∧ blocksOf s = some bs ∧ holesOf s = some hs
      ∧ (∀ b ∈ bs, b.id ≠ -1)
      ∧ (10 : Int) > 0
      ∧ s.pm_allocated + 10 ≤ s.pm_size
      ∧ (∃ h ∈ hs, h.2 - h.1 ≥ 10)
      ∧ TakeAllocateBlock s (-1) 10 = Outcome.rejected [Error.NegativeId] s := by
  refine ⟨_, [], [(0, 100)], rfl, by decide, by decide, by decide, by decide, by decide,
    by decide, by decide⟩

/-- C9, amended.  In a state whose two lists can be read, and for a request
(id, size) for which the sum size + pm_allocated of line 276 and, for every
hole, the sum start + size of line 293 are representable as 32-bit ints, the
verdict is that of the first failing check among: id < 0 (NegativeId), id is
the id of a current Block (DuplicateId), size <= 0 (InvalidSize),
pm_allocated + size > pm_size (InsufficientTotalMemory), every hole smaller
than size (NoFittingHole).  Hence such a request is accepted if and only if
id >= 0, no Block has the id, size > 0, pm_allocated + size <= pm_size and
some Hole has end - start >= size; and a rejected request leaves the state
as it was.  (Requests on which one of the sums overflows are the subject of
C23.) -/
theorem allocate_verdict (s : State) (id size : Int)
    (bcells hcells : List (Nat × LinkedList))
    (hb : blockCells s = some bcells) (hh : holeCells s = some hcells)
    (hsum : inInt32 (size + s.pm_allocated))
    (hends : ∀ c ∈ hcells, inInt32 (c.2.block.addressStart + size)) :
    validateAllocate32 s id size
        = some (expectedVerdict s (bcells.map (fun c => c.2.block))
            (hcells.map (fun c => c.2.block)) id size)
      ∧ (validateAllocate32 s id size = some [] ↔
          (0 ≤ id ∧ (∀ c ∈ bcells, c.2.block.id ≠ id) ∧ size > 0
            ∧ s.pm_allocated + size ≤ s.pm_size
            ∧ ∃ c ∈ hcells, c.2.block.size ≥ size))
      ∧ (∀ e es, validateAllocate32 s id size = some (e :: es) →
          TakeAllocateBlock32 s id size = Outcome.rejected (e :: es) s) := by
  have heq := validateAllocate32_eq s id size hcells hh hsum hends
  have hv := validateAllocate_verdict s id size bcells hcells hb hh
  refine ⟨heq.trans hv.1, ?_, ?_⟩
  · rw [heq]
    exact hv.2
  · intro e es hrej
    unfold TakeAllocateBlock32
    rw [hrej]

/-- Witness for C9 (Scenario E): in the 20-unit space filled by Block 0 the
request (1, 1) is rejected with InsufficientTotalMemory. -/
theorem allocate_verdict_witness :
    blocksOf scenarioE = some [⟨0, 0, 20⟩] ∧ holesOf scenarioE = some []
      ∧ inInt32 (1 + scenarioE.pm_allocated)
      ∧ validateAllocate32 scenarioE 1 1 = some [Error.InsufficientTotalMemory]
      ∧ TakeAllocateBlock32 scenarioE 1 1
          = Outcome.rejected [Error.InsufficientTotalMemory] scenarioE :=
  ⟨by decide, by decide, by decide,
   (allocate_verdict scenarioE 1 1 [(1, ⟨none, ⟨0, 0, 20⟩, none⟩)] []
      (by decide) (by decide) (by decide) (by decide)).1,
   (allocate_verdict scenarioE 1 1 [(1, ⟨none, ⟨0, 0, 20⟩, none⟩)] []
      (by decide) (by decide) (by decide) (by decide)).2.2 _ _ (by decide)⟩

/-- C10 (deallocate of an unknown id is rejected, also with no Blocks) fails
on the code: with an empty allocation list the id scan does not run, the
input is not flagged, and the NULL `removedBlock` is dereferenced. -/
theorem deallocate_with_no_blocks_faults :
    ∃ s, configured 100 0 = some s
      ∧ blocksOf s = some []
      ∧ findScan (walkFuel s.heap) s.heap s.allocations 0 = some (none, false)
      ∧ TakeDeallocateBlock s 0 = Outcome.fault := by
  refine ⟨_, rfl, by decide, by decide, by decide⟩

/-- C11: all-or-nothing errors.  Whatever the state, when one attempt at an
allocation or at a deallocation is rejected (an error message is printed and
the user is asked again), the state at that point is the state before the
attempt: the Blocks list, the Holes list, `pm_allocated`, `pm_size` and the
strategy are the same. -/
theorem rejected_request_changes_nothing (s s1 : State) (id size : Int)
    (errors : List Error)
    (h : TakeAllocateBlock s id size = Outcome.rejected errors s1
      ∨ TakeDeallocateBlock s id = Outcome.rejected errors s1) :
    s1 = s ∧ blocksOf s1 = blocksOf s ∧ holesOf s1 = holesOf s
      ∧ s1.pm_allocated = s.pm_allocated ∧ s1.pm_size = s.pm_size
      ∧ s1.holeFillingAlgorithm = s.holeFillingAlgorithm := by
  have hs : s1 = s := by
    rcases h with h | h
    · unfold TakeAllocateBlock at h
      cases hv : validateAllocate s id size with
      | none => rw [hv] at h; cases h
      | some errs =>
        cases errs with
        | cons e es =>
          rw [hv] at h
          injection h with _ h2
          exact h2.symm
        | nil =>
          rw [hv] at h
          simp only at h
          cases hch : chooseHole s size with
          | none => rw [hch] at h; cases h
          | some filledHole =>
            rw [hch] at h
            simp only at h
            cases hab : AllocateBlockHelper s id size filledHole with
            | none => rw [hab] at h; cases h
            | some s2 =>
              rw [hab] at h
              simp only at h
              unfold printAndReturn at h
              split at h <;> cases h
    · unfold TakeDeallocateBlock at h
      cases hf : findScan (walkFuel s.heap) s.heap s.allocations id with
      | none => rw [hf] at h; cases h
      | some res =>
        obtain ⟨removedBlock, scanBad⟩ := res
        rw [hf] at h
        simp only at h
        by_cases hneg : id < 0
        · rw [if_pos hneg] at h
          simp only [List.singleton_append] at h
          injection h with _ h2
          exact h2.symm
        · rw [if_neg hneg] at h
          cases scanBad with
          | true =>
            simp only [if_true, List.nil_append] at h
            injection h with _ h2
            exact h2.symm
          | false =>
            exfalso
            simp only [Bool.false_eq_true, if_false, List.append_nil] at h
            unfold printAndReturn at h
            repeat' (first | cases h | split at h)
  subst hs
  exact ⟨rfl, rfl, rfl, rfl, rfl, rfl⟩

/-- Witness for C11: in the 20-unit space filled by Block 0 the request (1, 1)
is rejected (InsufficientTotalMemory), and with Blocks {0:[0,30)} the
deallocation of id 7 is rejected (UnknownId); both leave the state as it
was. -/
theorem rejected_request_changes_nothing_witness :
    (∃ s1, TakeAllocateBlock scenarioE 1 1
          = Outcome.rejected [Error.InsufficientTotalMemory] s1
        ∧ (s1 = scenarioE ∧ blocksOf s1 = blocksOf scenarioE ∧ holesOf s1 = holesOf scenarioE
          ∧ s1.pm_allocated = scenarioE.pm_allocated ∧ s1.pm_size = scenarioE.pm_size
          ∧ s1.holeFillingAlgorithm = scenarioE.holeFillingAlgorithm))
      ∧ ∃ s1, TakeDeallocateBlock scenarioA 7 = Outcome.rejected [Error.UnknownId] s1
        ∧ (s1 = scenarioA ∧ blocksOf s1 = blocksOf scenarioA ∧ holesOf s1 = holesOf scenarioA
          ∧ s1.pm_allocated = scenarioA.pm_allocated ∧ s1.pm_size = scenarioA.pm_size
          ∧ s1.holeFillingAlgorithm = scenarioA.holeFillingAlgorithm) :=
  ⟨⟨scenarioE, by decide,
      rejected_request_changes_nothing scenarioE scenarioE 1 1
        [Error.InsufficientTotalMemory] (Or.inl (by decide))⟩,
   ⟨scenarioA, by decide,
      rejected_request_changes_nothing scenarioA scenarioA 7 0
        [Error.UnknownId] (Or.inr (by decide))⟩⟩

/-- C12 (after deallocate the Blocks list is the previous list with b removed,
empty when b was the only Block) fails on the code.  With the single Block
0 = [0,100), deallocate(0) runs lines 479-483 with `removedBlock` equal to
`allocations` and both neighbours NULL, so `allocations` keeps pointing to the
node that line 491 frees: the Blocks list is not empty but a dangling
pointer, and `PrintAllocationTable` reads the freed node. -/
theorem deallocate_only_block_leaves_dangling_list :
    ∃ s, run initialState [Op.configure 100 0, Op.allocate 0 100] = some s
      ∧ blocksOf s = some [⟨0, 0, 100⟩]
      ∧ holesOf s = some []
      ∧ s.allocations = some 1
      ∧ (∃ rb s1 s2 h4, getNode s.heap (some 1) = some rb
          ∧ placeHole s rb = some s1
          ∧ unlinkBlock s1 1 = some s2
          ∧ s2.allocations = some 1
          ∧ free s2.heap 1 = some h4
          ∧ getNode h4 s2.allocations = none
          ∧ coalesce (walkFuel h4) h4 s2.holes = some h4
          ∧ holesOf { s2 with heap := h4 } = some [(0, 100)]
          ∧ blocksOf { s2 with heap := h4 } = none
          ∧ PrintAllocationTable (walkFuel h4) h4 s2.allocations = none)
      ∧ TakeDeallocateBlock s 0 = Outcome.fault := by
  refine ⟨_, rfl, by decide, by decide, rfl,
    ⟨_, _, _, _, rfl, rfl, rfl, rfl, rfl, by decide, by decide, by decide, by decide,
      by decide⟩, by decide⟩

/-- C13 (adjacent holes are merged on deallocate, also when the following hole
is the last of the list) fails on the code.  Lines 508-509 set
`currentHole->next` to the node after the absorbed hole and then write
`currentHole->next->last`; when the absorbed hole is the last one that
pointer is NULL.  Scenario C (Holes {[0,30),[50,100)}, deallocate of Block
1 = [30,50)) faults there, and so does the deallocation of Block 1 from
Blocks {0:[0,30), 1:[30,50)} and Holes {[50,100)}, where the hole list before
the pass is {[30,50),[50,100)}. -/
theorem coalescing_faults_when_absorbed_hole_is_last :
    blocksOf scenarioB = some [⟨1, 30, 50⟩]
      ∧ holesOf scenarioB = some [(0, 30), (50, 100)]
      ∧ TakeDeallocateBlock scenarioB 1 = Outcome.fault
      ∧ ∃ s, run initialState [Op.configure 100 0, Op.allocate 0 30, Op.allocate 1 20] = some s
        ∧ blocksOf s = some [⟨0, 0, 30⟩, ⟨1, 30, 50⟩]
        ∧ holesOf s = some [(50, 100)]
        ∧ (∃ rb s1 s2 h4, getNode s.heap (some 2) = some rb
            ∧ rb.block = ⟨1, 30, 50⟩
            ∧ placeHole s rb = some s1
            ∧ unlinkBlock s1 2 = some s2
            ∧ free s2.heap 2 = some h4
            ∧ blocksOf { s2 with heap := h4 } = some [⟨0, 0, 30⟩]
            ∧ holesOf { s2 with heap := h4 } = some [(30, 50), (50, 100)]
            ∧ s2.holes = some 3
            ∧ mergeNext h4 3 = none
            ∧ coalesce (walkFuel h4) h4 s2.holes = none)
        ∧ TakeDeallocateBlock s 1 = Outcome.fault := by
  refine ⟨by decide, by decide, by decide, _, rfl, by decide, by decide,
    ⟨_, _, _, _, rfl, rfl, rfl, rfl, rfl, by decide, by decide, rfl, by decide, by decide⟩,
    by decide⟩

/-- C14 (for every state with a non-empty address-ordered Blocks list,
compact leaves the Blocks laid out from address 0) fails on the code.  After
configure(50, first fit), allocate(0,10), allocate(1,10), allocate(2,30),
deallocate(0) and deallocate(2) the Blocks list is {1:[10,20)}, non-empty and
in address order.  The relocation loop moves Block 1 to [0,10), but
`allocationsLast` still designates the node of Block 2, freed by the
deallocation, and line 561 reads `allocationsLast->block.addressEnd` from it:
the compaction does not complete on defined behaviour, and there is no
Blocks list after it. -/
theorem compact_faults_on_ordered_blocks :
    ∃ s h1 h2,
      run32 initialState [Op.configure 50 0, Op.allocate 0 10, Op.allocate 1 10,
          Op.allocate 2 30, Op.deallocate 0, Op.deallocate 2] = some s
      ∧ blocksOf s = some [⟨1, 10, 20⟩]
      ∧ AddressOrdered [⟨1, 10, 20⟩]
      ∧ holesOf s = some [(0, 10), (20, 50)]
      ∧ relocateLoop32 (walkFuel s.heap) s.heap s.allocations s.allocations = some h1
      ∧ blocksOf { s with heap := h1 } = some [⟨1, 0, 10⟩]
      ∧ DeallocateLinkedList (walkFuel h1) h1 s.holes = some h2
      ∧ getNode h2 s.allocationsLast = none
      ∧ DefragmentMemory32 s = Outcome.fault := by
  refine ⟨_, _, _, rfl, by decide, ?_, by decide, rfl, by decide, rfl, by decide, by decide⟩
  unfold AddressOrdered
  constructor
  · intro b hb
    simp only [List.mem_singleton] at hb
    subst hb
    decide
  · exact List.pairwise_singleton _ _

/-- C15 (after compact the Holes list is [[e, pm_size)] or empty, also when
the block that was last has been deallocated) fails on the code.
`DefragmentMemory` reads the end of the last block through `allocationsLast`
(line 561), which `TakeDeallocateBlock` never updates: after Blocks 0, 1, 2
fill the space and Block 2 is deallocated, `allocationsLast` designates the
freed node of Block 2 and the compaction reads it.  And line 559 frees the
holes without resetting `holes`: when the compacted blocks fill the space
(here with the Holes list {[30,30)} before the compaction), `holes` is left
pointing to a freed node, so the Holes list is not empty but unreadable. -/
theorem compact_reads_stale_last_block :
    (∃ s, run initialState [Op.configure 100 0, Op.allocate 0 30, Op.allocate 1 20,
            Op.allocate 2 50, Op.deallocate 2] = some s
        ∧ blocksOf s = some [⟨0, 0, 30⟩, ⟨1, 30, 50⟩]
        ∧ holesOf s = some [(50, 100)]
        ∧ s.allocationsLast = some 3
        ∧ getNode s.heap s.allocationsLast = none
        ∧ DefragmentMemory s = Outcome.fault)
      ∧ ∃ s s1, run initialState [Op.configure 100 0, Op.allocate 0 30, Op.allocate 1 70,
            Op.deallocate 0, Op.allocate 2 30] = some s
        ∧ blocksOf s = some [⟨2, 0, 30⟩, ⟨1, 30, 100⟩]
        ∧ holesOf s = some [(30, 30)]
        ∧ DefragmentMemory s = Outcome.ok s1
        ∧ blocksOf s1 = some [⟨2, 0, 30⟩, ⟨1, 30, 100⟩]
        ∧ s1.holes = some 3
        ∧ getNode s1.heap s1.holes = none
        ∧ holesOf s1 = none
        ∧ holesOf s1 ≠ some [] := by
  refine ⟨⟨_, rfl, by decide, by decide, rfl, by decide, by decide⟩,
    _, _, rfl, by decide, by decide, rfl, by decide, rfl, by decide, by decide, by decide⟩

/-- C16 (compacting twice gives what compacting once gives, also when the
compacted blocks fill the whole space) fails on the code.  From Blocks
{2:[0,30), 1:[30,100)} and Holes {[30,30)} the first compaction frees the hole
and leaves `holes` pointing to the freed node (line 559; the space is full, so
lines 561-571 do not replace it); the second compaction passes that pointer
to `DeallocateLinkedList` again, which reads the freed node. -/
theorem second_compact_faults_when_memory_full :
    ∃ s s1, run initialState [Op.configure 100 0, Op.allocate 0 30, Op.allocate 1 70,
          Op.deallocate 0, Op.allocate 2 30] = some s
      ∧ DefragmentMemory s = Outcome.ok s1
      ∧ blocksOf s1 = some [⟨2, 0, 30⟩, ⟨1, 30, 100⟩]
      ∧ s1.pm_allocated = 100 ∧ s1.pm_size = 100
      ∧ s1.holes = some 3
      ∧ getNode s1.heap s1.holes = none
      ∧ relocateLoop (walkFuel s1.heap) s1.heap s1.allocations s1.allocations = some s1.heap
      ∧ DeallocateLinkedList (walkFuel s1.heap) s1.heap s1.holes = none
      ∧ DefragmentMemory s1 = Outcome.fault := by
  refine ⟨_, _, rfl, rfl, by decide, rfl, rfl, rfl, by decide, by decide, by decide, by decide⟩

/-- C18 (both lists are in ascending address order in every reachable state)
fails on the code.  After configure(100, first fit) and allocate(0,50) the
request (1, 2147483647) passes the checks of lines 276 and 293 because both
sums wrap around; the end of the new block is the wrapped sum -2147483599
(line 132), so the insertion loop places Block 1:[50,-2147483599) before
Block 0:[0,50), and `pm_allocated` becomes -2147483599.  The Blocks list is
not in ascending order of start. -/
theorem blocks_out_of_order_after_wrapped_allocation :
    ∃ s0 s,
      run32 initialState [Op.configure 100 0, Op.allocate 0 50] = some s0
      ∧ blocksOf s0 = some [⟨0, 0, 50⟩] ∧ holesOf s0 = some [(50, 100)]
      ∧ validateAllocate32 s0 1 2147483647 = some []
      ∧ run32 initialState [Op.configure 100 0, Op.allocate 0 50,
          Op.allocate 1 2147483647] = some s
      ∧ blocksOf s = some [⟨1, 50, -2147483599⟩, ⟨0, 0, 50⟩]
      ∧ holesOf s = some [(-2147483599, 100)]
      ∧ s.pm_allocated = -2147483599
      ∧ ¬ ([⟨1, 50, -2147483599⟩, ⟨0, 0, 50⟩] : List Block).Pairwise (fun a b =>
            a.addressStart < b.addressStart ∧ a.addressEnd ≤ b.addressStart) := by
  refine ⟨_, _, rfl, by decide, by decide, by decide, rfl, by decide, by decide, rfl, ?_⟩
  intro h
  have h1 := (List.pairwise_cons.mp h).1 ⟨0, 0, 50⟩ (List.mem_singleton.mpr rfl)
  exact absurd h1.1 (by decide)

/-- C19 (every Hole has start < end; no zero-size hole is ever in the list)
fails on the code.  Line 194 compares the end of the hole with the end of
`allocationsLast`, not with the end of the new block: when the new block is
not the last one, a hole it fills completely is not removed but shrunk to
nothing.  From Blocks {1:[30,100)} and Holes {[0,30)}, allocate(2,30) leaves
the hole [30,30) in the list. -/
theorem zero_size_hole_is_reachable :
    ∃ s s1, run initialState [Op.configure 100 0, Op.allocate 0 30, Op.allocate 1 70,
          Op.deallocate 0] = some s
      ∧ blocksOf s = some [⟨1, 30, 100⟩]
      ∧ holesOf s = some [(0, 30)]
      ∧ TakeAllocateBlock s 2 30 = Outcome.ok s1
      ∧ blocksOf s1 = some [⟨2, 0, 30⟩, ⟨1, 30, 100⟩]
      ∧ holesOf s1 = some [(30, 30)]
      ∧ ∃ hs, holesOf s1 = some hs
          ∧ ∃ h ∈ hs, h.1 = h.2 ∧ ¬ (0 ≤ h.1 ∧ h.1 < h.2 ∧ h.2 ≤ s1.pm_size) := by
  refine ⟨_, _, rfl, by decide, by decide, rfl, by decide, by decide,
    [(30, 30)], by decide, (30, 30), by decide, by decide, by decide⟩

/-- C20: id uniqueness.  In every state reached from the program start by
configure followed by any operations that are accepted and complete, the
Blocks list can be read, no two Blocks at different positions of it carry the
same id, and every id is at least 0. -/
theorem block_ids_unique (size algorithm : Int) (ops : List Op) (s : State)
    (hrun : run initialState (Op.configure size algorithm :: ops) = some s) :
    ∃ bs, blocksOf s = some bs
      ∧ bs.Pairwise (fun a b => a.id ≠ b.id)
      ∧ (bs.map Block.id).Nodup
      ∧ ∀ b ∈ bs, 0 ≤ b.id := by
  have hinv := inv_run _ _ _ inv_initial hrun
  obtain ⟨bl, hb, _, _, hnd, hnn⟩ := inv_blocks s hinv
  have hnd1 : ((bl.map Prod.snd).map Block.id).Nodup := by
    rw [List.map_map]
    exact hnd
  refine ⟨_, hb, ?_, hnd1, ?_⟩
  · exact (List.pairwise_map.mp hnd1)
  · intro b hbm
    obtain ⟨c, hc, rfl⟩ := List.mem_map.mp hbm
    exact hnn c hc

/-- Witness for C20 (Scenario D): after configure(50, best fit),
allocate(0,10), allocate(1,5), deallocate(0), allocate(2,8) the Blocks are
{2:[0,8), 1:[10,15)}, with the distinct ids 2 and 1. -/
theorem block_ids_unique_witness :
    ∃ s, run initialState [Op.configure 50 1, Op.allocate 0 10, Op.allocate 1 5,
          Op.deallocate 0, Op.allocate 2 8] = some s
      ∧ blocksOf s = some [⟨2, 0, 8⟩, ⟨1, 10, 15⟩]
      ∧ ∃ bs, blocksOf s = some bs
        ∧ bs.Pairwise (fun a b => a.id ≠ b.id)
        ∧ (bs.map Block.id).Nodup
        ∧ ∀ b ∈ bs, 0 ≤ b.id :=
  ⟨_, rfl, by decide,
   block_ids_unique 50 1 [Op.allocate 0 10, Op.allocate 1 5, Op.deallocate 0, Op.allocate 2 8]
     _ rfl⟩

/-- C21: ordered insertion of a freed hole.  When the hole list is a list of
live nodes whose Holes have `start < end` and are in ascending address order
(each ends no later than the next starts; the list may be empty), and the
freed interval `[rb.start, rb.end)` is not empty and disjoint from every one
of them, the insertion step of `TakeDeallocateBlock` (lines 419-476)
completes, and the new hole list is the old one with the freed interval put
in once, every hole before it ending no later than it starts and every hole
after it starting no earlier than it ends: the list after the step is in
ascending address order, whether the interval goes before the head, between
two holes or after the tail. -/
theorem freed_hole_inserted_in_order (s : State) (rb : LinkedList)
    (hl : List (Nat × Block))
    (hhl : IsSeg false s.heap none s.holes hl none)
    (hval : ∀ b ∈ hl, b.2.addressStart < b.2.addressEnd)
    (hord : hl.Pairwise (fun a b => a.2.addressEnd ≤ b.2.addressStart))
    (hrb : rb.block.addressStart < rb.block.addressEnd)
    (hdisj : ∀ b ∈ hl, b.2.addressEnd ≤ rb.block.addressStart
      ∨ rb.block.addressEnd ≤ b.2.addressStart) :
    ∃ s1 pre post, placeHole s rb = some s1
      ∧ holesOf s = some (pre ++ post)
      ∧ holesOf s1 = some (pre ++ (rb.block.addressStart, rb.block.addressEnd) :: post)
      ∧ (∀ a ∈ pre, a.2 ≤ rb.block.addressStart)
      ∧ (∀ b ∈ post, rb.block.addressEnd ≤ b.1)
      ∧ (pre ++ (rb.block.addressStart, rb.block.addressEnd) :: post).Pairwise
          (fun a b => a.1 < b.1 ∧ a.2 ≤ b.1) := by
  have hlen := IsSeg_length_le s.heap hl false none _ hhl
  obtain ⟨s1, hp⟩ := placeHole_total s rb hl hhl
  obtain ⟨hs1len, _, _, hseg, _⟩ :=
    placeHole_spec s s1 rb hl hhl (by simp only [walkFuel]; omega) hp
  obtain ⟨r1, r2, hsplit, hstored, h1, h2⟩ :=
    storedList_ordered (s.heap.length, ⟨0, rb.block.addressStart, rb.block.addressEnd⟩) hl
      hval hord hdisj
  rw [hstored] at hseg
  have hlen1 := IsSeg_length_le s1.heap _ false none _ hseg
  have hh := holesOf_of_isSeg s hl false none hhl (by simp only [walkFuel]; omega)
  have hh1 := holesOf_of_isSeg s1 _ false none hseg (by simp only [walkFuel]; omega)
  rw [hsplit] at hh hord hval
  simp only [List.map_append, List.map_cons] at hh hh1
  refine ⟨s1, _, _, hp, hh, hh1, ?_, ?_, ?_⟩
  · intro a ha
    obtain ⟨c, hc, rfl⟩ := List.mem_map.mp ha
    exact h1 c hc
  · intro b hb
    obtain ⟨c, hc, rfl⟩ := List.mem_map.mp hb
    exact h2 c hc
  · obtain ⟨hp1, hp2, hp12⟩ := List.pairwise_append.mp hord
    have hv1 : ∀ b ∈ r1, b.2.addressStart < b.2.addressEnd :=
      fun b hb => hval b (List.mem_append_left _ hb)
    have hv2 : ∀ b ∈ r2, b.2.addressStart < b.2.addressEnd :=
      fun b hb => hval b (List.mem_append_right _ hb)
    refine List.pairwise_append.mpr ⟨?_, ?_, ?_⟩
    · rw [List.pairwise_map]
      refine List.Pairwise.imp_of_mem ?_ hp1
      intro a b ha _ hab
      have := hv1 a ha
      constructor <;> omega
    · refine List.pairwise_cons.mpr ⟨?_, ?_⟩
      · intro b hb
        obtain ⟨c, hc, rfl⟩ := List.mem_map.mp hb
        have := h2 c hc
        simp only at this ⊢
        constructor <;> omega
      · rw [List.pairwise_map]
        refine List.Pairwise.imp_of_mem ?_ hp2
        intro a b ha _ hab
        have := hv2 a ha
        constructor <;> omega
    · intro a ha b hb
      obtain ⟨c, hc, rfl⟩ := List.mem_map.mp ha
      have hc1 := h1 c hc
      have hcv := hv1 c hc
      simp only at hc1
      rcases List.mem_cons.mp hb with rfl | hb2
      · simp only
        constructor <;> omega
      · obtain ⟨d, hd, rfl⟩ := List.mem_map.mp hb2
        have := hp12 c hc d hd
        simp only
        constructor <;> omega

/-- Witness for C21: with Holes {[0,10),[50,100)} the freed interval [20,40)
of Block 6 goes between the two holes. -/
theorem freed_hole_inserted_in_order_witness :
    holesOf scenarioFBefore = some [(0, 10), (50, 100)]
      ∧ getNode scenarioFBefore.heap (some 3) = some ⟨some 2, ⟨6, 20, 40⟩, some 4⟩
      ∧ (∃ s1, placeHole scenarioFBefore ⟨some 2, ⟨6, 20, 40⟩, some 4⟩ = some s1
          ∧ holesOf s1 = some [(0, 10), (20, 40), (50, 100)])
      ∧ ∃ s1 pre post, placeHole scenarioFBefore ⟨some 2, ⟨6, 20, 40⟩, some 4⟩ = some s1
        ∧ holesOf scenarioFBefore = some (pre ++ post)
        ∧ holesOf s1 = some (pre ++ (20, 40) :: post)
        ∧ (∀ a ∈ pre, a.2 ≤ 20)
        ∧ (∀ b ∈ post, 40 ≤ b.1)
        ∧ (pre ++ (20, 40) :: post).Pairwise (fun a b => a.1 < b.1 ∧ a.2 ≤ b.1) :=
  ⟨by decide, by decide, ⟨_, rfl, by decide⟩,
   freed_hole_inserted_in_order scenarioFBefore ⟨some 2, ⟨6, 20, 40⟩, some 4⟩
     [(5, ⟨0, 0, 10⟩), (0, ⟨0, 50, 100⟩)]
     (by decide) (by decide) (by decide) (by decide) (by decide)⟩

/-- C22 (compact with no Blocks completes and leaves the single hole
[0, pm_size)) fails on the code.  In the freshly configured 100-unit space
the relocation loop has nothing to do and the hole is freed (line 559); then
line 561 reads `allocationsLast->block.addressEnd` while `allocationsLast` is
NULL. -/
theorem compact_with_no_blocks_faults :
    ∃ s, configured 100 0 = some s
      ∧ blocksOf s = some []
      ∧ holesOf s = some [(0, 100)]
      ∧ s.allocations = none
      ∧ s.allocationsLast = none
      ∧ (∃ h1 h2, relocateLoop (walkFuel s.heap) s.heap s.allocations s.allocations = some h1
          ∧ DeallocateLinkedList (walkFuel h1) h1 s.holes = some h2
          ∧ getNode h2 s.allocationsLast = none)
      ∧ DefragmentMemory s = Outcome.fault := by
  refine ⟨_, rfl, by decide, by decide, rfl, rfl, ⟨_, _, rfl, rfl, rfl⟩, by decide⟩

/-- C23 (with 32-bit wraparound a request whose exact sum exceeds the capacity
is rejected, and a hole whose exact sum exceeds its end does not fit) fails on
the code.  With `pm_allocated = 50`, `pm_size = 100` and the hole [50,100),
the size 2147483647 makes both sums wrap to -2147483599: the capacity check of
line 276 does not fire, the hole passes the test of line 293, and the request
passes the whole validation.  (With exact integers it is rejected.) -/
theorem capacity_check_wraps_around :
    ∃ s n, run initialState [Op.configure 100 0, Op.allocate 0 50] = some s
      ∧ s.pm_allocated = 50 ∧ s.pm_size = 100
      ∧ holesOf s = some [(50, 100)]
      ∧ getNode s.heap s.holes = some n
      ∧ (0 : Int) < 2147483647 ∧ (2147483647 : Int) < 2 ^ 31
      ∧ s.pm_allocated + 2147483647 > s.pm_size
      ∧ wrap32 (2147483647 + s.pm_allocated) = -2147483599
      ∧ ¬ capacityExceeded32 s 2147483647
      ∧ n.block.addressStart + 2147483647 > n.block.addressEnd
      ∧ fits32 2147483647 n
      ∧ validateAllocate32 s 1 2147483647 = some []
      ∧ validateAllocate s 1 2147483647 = some [Error.InsufficientTotalMemory] := by
  refine ⟨_, _, rfl, rfl, rfl, by decide, rfl, by decide, by decide, by decide, by decide,
    by decide, by decide, by decide, by decide, by decide⟩

/-- C24 (`allocationsLast` designates the last Block of the list, and
`allocations` a Block that is still allocated) fails on the code:
`TakeDeallocateBlock` never assigns `allocationsLast`.  After Blocks 0, 1, 2
are allocated and Block 2, the last one, is deallocated, the allocation list
ends at the node of Block 1 (address 2) while `allocationsLast` still
designates the freed node of Block 2 (address 3).  And when the only Block is
deallocated (lines 479-491), `allocations` and `allocationsLast` both keep
designating its freed node. -/
theorem allocationsLast_is_stale_after_deallocate :
    (∃ s, run initialState [Op.configure 100 0, Op.allocate 0 30, Op.allocate 1 20,
            Op.allocate 2 50, Op.deallocate 2] = some s
        ∧ blocksOf s = some [⟨0, 0, 30⟩, ⟨1, 30, 50⟩]
        ∧ IsSeg true s.heap none s.allocations [(1, ⟨0, 0, 30⟩), (2, ⟨1, 30, 50⟩)] none
        ∧ lastPtr none [(1, (⟨0, 0, 30⟩ : Block)), (2, ⟨1, 30, 50⟩)] = some 2
        ∧ s.allocationsLast = some 3
        ∧ getNode s.heap s.allocationsLast = none)
      ∧ ∃ s rb s1 s2 h4, run initialState [Op.configure 100 0, Op.allocate 0 100] = some s
        ∧ blocksOf s = some [⟨0, 0, 100⟩]
        ∧ getNode s.heap (some 1) = some rb
        ∧ placeHole s rb = some s1
        ∧ unlinkBlock s1 1 = some s2
        ∧ free s2.heap 1 = some h4
        ∧ s2.allocations = some 1 ∧ s2.allocationsLast = some 1
        ∧ getNode h4 (some 1) = none := by
  refine ⟨⟨_, rfl, by decide, by decide, rfl, rfl, by decide⟩,
    _, _, _, _, _, rfl, by decide, rfl, rfl, rfl, rfl, rfl, rfl, by decide⟩

/-- C25 (every merge step of the coalescing pass touches only nodes that
exist, also when the absorbed hole is the last one) fails on the code.  With
Blocks {0:[0,30), 2:[50,60)} and Holes {[30,50),[60,100)}, deallocate(2) puts
the hole [50,60) between the two; the pass merges [30,50) with [50,60), whose
successor exists, and then absorbs [60,100), the last hole: line 508 sets
`currentHole->next` to NULL and line 509 writes `currentHole->next->last`. -/
theorem merge_step_dereferences_null :
    ∃ s rb s1 s2 h4 h5, run initialState [Op.configure 100 0, Op.allocate 0 30,
          Op.allocate 1 20, Op.allocate 2 10, Op.deallocate 1] = some s
      ∧ blocksOf s = some [⟨0, 0, 30⟩, ⟨2, 50, 60⟩]
      ∧ holesOf s = some [(30, 50), (60, 100)]
      ∧ getNode s.heap (some 3) = some rb ∧ rb.block = ⟨2, 50, 60⟩
      ∧ placeHole s rb = some s1
      ∧ unlinkBlock s1 3 = some s2
      ∧ free s2.heap 3 = some h4
      ∧ s2.holes = some 4
      ∧ holesOf { s2 with heap := h4 } = some [(30, 50), (50, 60), (60, 100)]
      ∧ mergeNext h4 4 = some h5
      ∧ holesOf { s2 with heap := h5 } = some [(30, 60), (60, 100)]
      ∧ (∃ c, getNode h5 (some 4) = some c ∧ c.next = some 0
          ∧ ∃ n, getNode h5 (some 0) = some n ∧ n.next = none)
      ∧ mergeNext h5 4 = none
      ∧ coalesce (walkFuel h4) h4 s2.holes = none
      ∧ TakeDeallocateBlock s 2 = Outcome.fault := by
  refine ⟨_, _, _, _, _, _, rfl, by decide, by decide, rfl, rfl, rfl, rfl, rfl, rfl,
    by decide, rfl, by decide, ⟨_, rfl, rfl, _, rfl, rfl⟩, by decide, by decide, by decide⟩

end MemoryHoleFilling

namespace BankersAlgorithm

/-! ## The loops over the resources -/

theorem checkResources_eq (P : Parameters) (availableLocal : Nat → Int) (p : Nat) :
    ∀ l : List Nat, checkResources P availableLocal p l = true ↔
      ∀ r ∈ l, P.needed p r ≤ availableLocal r := by
  intro l
  induction l with
  | nil => simp [checkResources]
  | cons r rest ih =>
    simp only [checkResources, List.mem_cons, forall_eq_or_imp]
    by_cases h : P.needed p r > availableLocal r
    · rw [if_pos h]
      constructor
      · intro hf; cases hf
      · intro hall; omega
    · rw [if_neg h, ih]
      constructor
      · intro hall; exact ⟨by omega, hall⟩
      · intro hall; exact hall.2

theorem releaseResources_apply (P : Parameters) (p : Nat) :
    ∀ (l : List Nat) (availableLocal : Nat → Int) (x : Nat), l.Nodup →
      releaseResources P p l availableLocal x
        = if x ∈ l then wrap32 (availableLocal x + P.allocated p x)
          else availableLocal x := by
  intro l
  induction l with
  | nil => intro av x _; simp [releaseResources]
  | cons r rest ih =>
    intro av x hnd
    obtain ⟨hr, hrest⟩ := List.nodup_cons.mp hnd
    simp only [releaseResources]
    rw [ih _ x hrest]
    by_cases hx : x = r
    · subst hx
      simp [hr]
    · simp [hx]

/-! ## The sequenced processes -/

theorem sequenced_append (out : List (Nat × Bool)) (p : Nat) (b : Bool) :
    sequenced (out ++ [(p, b)]) = if b then sequenced out ++ [p] else sequenced out := by
  cases b <;> simp [sequenced, List.filter_append]

theorem availableAfter_append (P : Parameters) (l : List Nat) (p r : Nat) :
    availableAfter P (l ++ [p]) r = availableAfter P l r + P.allocated p r := by
  simp only [availableAfter, List.map_append, List.sum_append, List.map_cons, List.map_nil,
    List.sum_cons, List.sum_nil]
  omega

theorem SafeFrom_append (P : Parameters) (p : Nat) :
    ∀ (l before : List Nat),
      SafeFrom P before (l ++ [p]) ↔ SafeFrom P before l ∧ CanRun P (before ++ l) p := by
  intro l
  induction l with
  | nil => intro before; simp [SafeFrom]
  | cons q rest ih =>
    intro before
    show (CanRun P before q ∧ SafeFrom P (before ++ [q]) (rest ++ [p]))
      ↔ (CanRun P before q ∧ SafeFrom P (before ++ [q]) rest) ∧ CanRun P (before ++ q :: rest) p
    rw [ih]
    have happ : before ++ [q] ++ rest = before ++ q :: rest := by simp
    rw [happ]
    tauto

/-! ## The flags of a pass -/

theorem sequenceStep_allCompleted (P : Parameters) (st : Scan) (p : Nat) :
    (sequenceStep P st p).allCompleted = st.allCompleted := by
  unfold sequenceStep
  split
  · rfl
  · split <;> rfl

theorem foldl_allCompleted (P : Parameters) :
    ∀ (ps : List Nat) (st : Scan),
      (ps.foldl (sequenceStep P) st).allCompleted = st.allCompleted := by
  intro ps
  induction ps with
  | nil => intro st; rfl
  | cons p rest ih =>
    intro st
    rw [List.foldl_cons, ih, sequenceStep_allCompleted]

theorem sequenceStep_anyCompleted (P : Parameters) (st : Scan) (p : Nat)
    (h : st.anyCompleted = true) : (sequenceStep P st p).anyCompleted = true := by
  unfold sequenceStep
  split
  · exact h
  · split
    · rfl
    · exact h

theorem foldl_anyCompleted (P : Parameters) :
    ∀ (ps : List Nat) (st : Scan), st.anyCompleted = true →
      (ps.foldl (sequenceStep P) st).anyCompleted = true := by
  intro ps
  induction ps with
  | nil => intro st h; exact h
  | cons p rest ih =>
    intro st h
    rw [List.foldl_cons]
    exact ih _ (sequenceStep_anyCompleted P st p h)

/-- A pass that sequences nothing changes neither the flags of the processes
nor the available vector, and every process it tried was not sequenceable. -/
theorem foldl_quiet (P : Parameters) :
    ∀ (ps : List Nat) (st : Scan),
      (ps.foldl (sequenceStep P) st).anyCompleted = false →
      (ps.foldl (sequenceStep P) st).completed = st.completed
        ∧ (ps.foldl (sequenceStep P) st).availableLocal = st.availableLocal
        ∧ sequenced (ps.foldl (sequenceStep P) st).output = sequenced st.output
        ∧ ∀ p ∈ ps, st.completed p = false →
            checkResources P st.availableLocal p (List.range P.resourceCount) = false := by
  intro ps
  induction ps with
  | nil => intro st _; exact ⟨rfl, rfl, rfl, by simp⟩
  | cons p rest ih =>
    intro st hq
    rw [List.foldl_cons] at hq ⊢
    by_cases hc : st.completed p = true
    · have hstep : sequenceStep P st p = st := by
        unfold sequenceStep
        rw [if_pos hc]
      rw [hstep] at hq ⊢
      obtain ⟨h1, h2, h3, h4⟩ := ih st hq
      refine ⟨h1, h2, h3, ?_⟩
      intro q hqm hqc
      rcases List.mem_cons.mp hqm with rfl | hqr
      · rw [hc] at hqc; cases hqc
      · exact h4 q hqr hqc
    · by_cases hk : checkResources P st.availableLocal p (List.range P.resourceCount) = true
      · exfalso
        have hany : (sequenceStep P st p).anyCompleted = true := by
          unfold sequenceStep
          rw [if_neg hc, if_pos hk]
        rw [foldl_anyCompleted P rest _ hany] at hq
        cases hq
      · have hstep : sequenceStep P st p
            = { st with output := st.output ++ [(p, false)] } := by
          unfold sequenceStep
          rw [if_neg hc, if_neg hk]
        rw [hstep] at hq ⊢
        obtain ⟨h1, h2, h3, h4⟩ := ih _ hq
        refine ⟨h1, h2, ?_, ?_⟩
        · rw [h3, sequenced_append]
          simp
        · intro q hqm hqc
          rcases List.mem_cons.mp hqm with rfl | hqr
          · simpa using hk
          · exact h4 q hqr hqc

/-! ## Termination -/

theorem sequenceStep_mono (P : Parameters) (st : Scan) (p q : Nat)
    (h : st.completed q = true) : (sequenceStep P st p).completed q = true := by
  unfold sequenceStep
  split
  · exact h
  · split
    · simp only
      split
      · rfl
      · exact h
    · exact h

theorem sequenceStep_marks (P : Parameters) (st : Scan) (p : Nat)
    (h : (sequenceStep P st p).anyCompleted = true) :
    st.anyCompleted = true
      ∨ (st.completed p = false ∧ (sequenceStep P st p).completed p = true) := by
  unfold sequenceStep at h ⊢
  by_cases hc : st.completed p = true
  · rw [if_pos hc] at h
    exact Or.inl h
  · by_cases hk : checkResources P st.availableLocal p (List.range P.resourceCount) = true
    · rw [if_neg hc, if_pos hk]
      right
      exact ⟨by simpa using hc, by simp⟩
    · rw [if_neg hc, if_neg hk] at h
      exact Or.inl h

theorem foldl_marks (P : Parameters) :
    ∀ (ps : List Nat) (st : Scan), (∀ p ∈ ps, p < P.processCount) →
      (∀ q, st.completed q = true → (ps.foldl (sequenceStep P) st).completed q = true)
        ∧ ((ps.foldl (sequenceStep P) st).anyCompleted = true →
            st.anyCompleted = true
              ∨ ∃ p, p < P.processCount ∧ st.completed p = false
                  ∧ (ps.foldl (sequenceStep P) st).completed p = true) := by
  intro ps
  induction ps with
  | nil => intro st _; exact ⟨fun _ h => h, fun h => Or.inl h⟩
  | cons p rest ih =>
    intro st hps
    rw [List.foldl_cons]
    obtain ⟨hmono, hmark⟩ := ih (sequenceStep P st p)
      (fun q hq => hps q (List.mem_cons_of_mem _ hq))
    refine ⟨fun q hq => hmono q (sequenceStep_mono P st p q hq), ?_⟩
    intro hany
    rcases hmark hany with h1 | ⟨q, hq, hqc, hqr⟩
    · rcases sequenceStep_marks P st p h1 with h2 | ⟨h2, h3⟩
      · exact Or.inl h2
      · exact Or.inr ⟨p, hps p (List.mem_cons_self _ _), h2, hmono p h3⟩
    · refine Or.inr ⟨q, hq, ?_, hqr⟩
      cases hsq : st.completed q with
      | false => rfl
      | true =>
        rw [sequenceStep_mono P st p q hsq] at hqc
        cases hqc

theorem uncompleted_lt (P : Parameters) (st st1 : Scan)
    (hmono : ∀ q, st.completed q = true → st1.completed q = true)
    (hmark : ∃ p, p < P.processCount ∧ st.completed p = false ∧ st1.completed p = true) :
    uncompleted P st1 < uncompleted P st := by
  obtain ⟨p, hp, hp0, hp1⟩ := hmark
  unfold uncompleted
  apply Finset.card_lt_card
  rw [Finset.ssubset_iff_of_subset]
  · refine ⟨p, ?_, ?_⟩
    · simp [hp, hp0]
    · simp [hp1]
  · intro q hq
    simp only [Finset.mem_filter, Finset.mem_range] at hq ⊢
    refine ⟨hq.1, ?_⟩
    cases hsq : st.completed q with
    | false => rfl
    | true =>
      rw [hmono q hsq] at hq
      exact absurd hq.2 (by simp)

theorem uncompleted_le (P : Parameters) (st : Scan) : uncompleted P st ≤ P.processCount := by
  unfold uncompleted
  calc ((Finset.range P.processCount).filter (fun p => st.completed p = false)).card
      ≤ (Finset.range P.processCount).card := Finset.card_filter_le _ _
    _ = P.processCount := Finset.card_range _

theorem pass_marks (P : Parameters) (st : Scan) :
    (∀ q, st.completed q = true → (pass P st).completed q = true)
      ∧ ((pass P st).anyCompleted = true → uncompleted P (pass P st) < uncompleted P st) := by
  obtain ⟨hmono, hmark⟩ := foldl_marks P (List.range P.processCount)
    { st with
      allCompleted := (List.range P.processCount).all (fun p => st.completed p)
      anyCompleted := false }
    (fun p hp => List.mem_range.mp hp)
  refine ⟨hmono, ?_⟩
  intro hany
  rcases hmark hany with h1 | h1
  · cases h1
  · exact uncompleted_lt P st (pass P st) hmono h1

theorem scanLoop_total (P : Parameters) :
    ∀ (fuel : Nat) (st : Scan), uncompleted P st < fuel → ∃ res, scanLoop P fuel st = some res := by
  intro fuel
  induction fuel with
  | zero => intro st h; omega
  | succ fuel ih =>
    intro st h
    unfold scanLoop
    by_cases hany : (pass P st).anyCompleted = true
    · rw [if_pos hany]
      apply ih
      have := (pass_marks P st).2 hany
      omega
    · rw [if_neg hany]
      exact ⟨_, rfl⟩

/-! ## Exactness of the scan -/

theorem sum_le_of_subset (f : Nat → Int) (l1 l2 : List Nat) (h1 : l1.Nodup) (h2 : l2.Nodup)
    (hsub : ∀ x ∈ l1, x ∈ l2) (hnn : ∀ x ∈ l2, 0 ≤ f x) :
    (l1.map f).sum ≤ (l2.map f).sum := by
  rw [← List.sum_toFinset f h1, ← List.sum_toFinset f h2]
  apply Finset.sum_le_sum_of_subset_of_nonneg
  · intro x hx
    rw [List.mem_toFinset] at hx ⊢
    exact hsub x hx
  · intro x hx _
    exact hnn x (List.mem_toFinset.mp hx)

theorem canRun_mono (P : Parameters)
    (halloc : ∀ p, p < P.processCount → ∀ r, r < P.resourceCount → 0 ≤ P.allocated p r)
    (l1 l2 : List Nat) (h1 : l1.Nodup) (h2 : l2.Nodup) (hsub : ∀ x ∈ l1, x ∈ l2)
    (hlt : ∀ x ∈ l2, x < P.processCount) (p : Nat) (h : CanRun P l1 p) : CanRun P l2 p := by
  intro r hr
  have hp := h r hr
  have hsum := sum_le_of_subset (fun q => P.allocated q r) l1 l2 h1 h2 hsub
    (fun x hx => halloc x (hlt x hx) r hr)
  unfold availableAfter at hp ⊢
  omega

/-- When no process outside the list `S` can run after `S`, every safe
sequence stays inside `S`. -/
theorem safe_subset (P : Parameters)
    (halloc : ∀ p, p < P.processCount → ∀ r, r < P.resourceCount → 0 ≤ P.allocated p r)
    (S : List Nat) (hS : S.Nodup) (hSlt : ∀ x ∈ S, x < P.processCount)
    (hstuck : ∀ p, p < P.processCount → p ∉ S → ¬ CanRun P S p) :
    ∀ (rest before : List Nat), (∀ x ∈ before, x ∈ S) → (before ++ rest).Nodup →
      (∀ x ∈ rest, x < P.processCount) → SafeFrom P before rest → ∀ x ∈ rest, x ∈ S := by
  intro rest
  induction rest with
  | nil => intro before _ _ _ _ x hx; cases hx
  | cons p rest ih =>
    intro before hb hnd hlt hsafe x hx
    obtain ⟨hcan, hrest⟩ := hsafe
    have hpS : p ∈ S := by
      by_contra hn
      exact hstuck p (hlt p (List.mem_cons_self _ _)) hn
        (canRun_mono P halloc before S (List.nodup_append.mp hnd).1 hS hb hSlt p hcan)
    rcases List.mem_cons.mp hx with rfl | hxr
    · exact hpS
    · refine ih (before ++ [p]) ?_ (by simpa using hnd)
        (fun y hy => hlt y (List.mem_cons_of_mem _ hy)) hrest x hxr
      intro y hy
      rcases List.mem_append.mp hy with h1 | h1
      · exact hb y h1
      · rw [List.mem_singleton.mp h1]; exact hpS

/-! ## The scan where no sum overflows -/

theorem wrap32_of_range (x : Int) (h1 : -2147483648 ≤ x) (h2 : x ≤ 2147483647) :
    wrap32 x = x := by
  unfold wrap32
  omega

theorem availableAfter_range (P : Parameters) (hno : NoOverflow P) (l : List Nat)
    (hnd : l.Nodup) (hlt : ∀ p ∈ l, p < P.processCount) (r : Nat) (hr : r < P.resourceCount) :
    -2147483648 ≤ availableAfter P l r ∧ availableAfter P l r ≤ 2147483647 := by
  obtain ⟨halloc, hfit⟩ := hno
  obtain ⟨hlo, hhi⟩ := hfit r hr
  have hsum := sum_le_of_subset (fun q => P.allocated q r) l (List.range P.processCount) hnd
    (List.nodup_range _) (fun x hx => List.mem_range.mpr (hlt x hx))
    (fun x hx => halloc x (List.mem_range.mp hx) r hr)
  have hnn : 0 ≤ (l.map (fun q => P.allocated q r)).sum := by
    apply List.sum_nonneg
    intro x hx
    obtain ⟨q, hq, rfl⟩ := List.mem_map.mp hx
    exact halloc q (hlt q hq) r hr
  unfold availableAfter at hhi ⊢
  constructor <;> omega

theorem good_initial (P : Parameters) : Good P (initialScan P) := by
  refine ⟨List.nodup_nil, by simp [initialScan, sequenced], ?_, ?_, trivial⟩
  · intro p
    simp [initialScan, sequenced]
  · intro r _
    simp [initialScan, sequenced, availableAfter]

theorem sequenceStep_good (P : Parameters) (hno : NoOverflow P) (st : Scan) (p : Nat)
    (hp : p < P.processCount) (hg : Good P st) : Good P (sequenceStep P st p) := by
  obtain ⟨hnd, hlt, hflag, hav, hsafe⟩ := hg
  unfold sequenceStep
  by_cases hc : st.completed p = true
  · rw [if_pos hc]
    exact ⟨hnd, hlt, hflag, hav, hsafe⟩
  · rw [if_neg hc]
    have hpn : p ∉ sequenced st.output := fun hm => hc ((hflag p).mpr hm)
    by_cases hk : checkResources P st.availableLocal p (List.range P.resourceCount) = true
    · rw [if_pos hk]
      have hcan : CanRun P (sequenced st.output) p := by
        intro r hr
        rw [← hav r hr]
        exact (checkResources_eq P st.availableLocal p _).mp hk r (List.mem_range.mpr hr)
      have hnd1 : (sequenced st.output ++ [p]).Nodup :=
        List.Nodup.append hnd (List.nodup_singleton p) (by simpa using hpn)
      have hlt1 : ∀ q ∈ sequenced st.output ++ [p], q < P.processCount := by
        intro q hq
        rcases List.mem_append.mp hq with h1 | h1
        · exact hlt q h1
        · rw [List.mem_singleton.mp h1]; exact hp
      unfold Good
      simp only [sequenced_append, if_true]
      refine ⟨hnd1, hlt1, ?_, ?_, ?_⟩
      · intro q
        by_cases hqp : q = p
        · simp [hqp]
        · simp only [if_neg hqp, List.mem_append, List.mem_singleton, hqp, or_false]
          exact hflag q
      · intro r hr
        obtain ⟨hlo, hhi⟩ := availableAfter_range P hno _ hnd1 hlt1 r hr
        rw [releaseResources_apply P p _ _ r (List.nodup_range _), if_pos (List.mem_range.mpr hr),
          hav r hr, ← availableAfter_append]
        exact wrap32_of_range _ hlo hhi
      · exact (SafeFrom_append P p _ []).mpr ⟨hsafe, by simpa using hcan⟩
    · rw [if_neg hk]
      unfold Good
      simp only [sequenced_append, Bool.false_eq_true, if_false]
      exact ⟨hnd, hlt, hflag, hav, hsafe⟩

theorem foldl_good (P : Parameters) (hno : NoOverflow P) :
    ∀ (ps : List Nat) (st : Scan), (∀ p ∈ ps, p < P.processCount) → Good P st →
      Good P (ps.foldl (sequenceStep P) st) := by
  intro ps
  induction ps with
  | nil => intro st _ hg; exact hg
  | cons p rest ih =>
    intro st hps hg
    rw [List.foldl_cons]
    exact ih _ (fun q hq => hps q (List.mem_cons_of_mem _ hq))
      (sequenceStep_good P hno st p (hps p (List.mem_cons_self _ _)) hg)

theorem pass_good (P : Parameters) (hno : NoOverflow P) (st : Scan) (hg : Good P st) :
    Good P (pass P st) := by
  unfold pass
  exact foldl_good P hno _ _ (fun p hp => List.mem_range.mp hp) hg

theorem scanLoop_spec (P : Parameters) (hno : NoOverflow P) :
    ∀ (fuel : Nat) (st res : Scan), Good P st → scanLoop P fuel st = some res →
      ∃ st1, Good P st1 ∧ res = pass P st1 ∧ res.anyCompleted = false := by
  intro fuel
  induction fuel with
  | zero => intro st res _ h; simp [scanLoop] at h
  | succ fuel ih =>
    intro st res hg h
    unfold scanLoop at h
    by_cases hany : (pass P st).anyCompleted = true
    · rw [if_pos hany] at h
      exact ih _ res (pass_good P hno st hg) h
    · rw [if_neg hany] at h
      have hres := (Option.some.inj h).symm
      refine ⟨st, hg, hres, ?_⟩
      rw [hres]
      simpa using hany

theorem findSafeSequence_total (P : Parameters) :
    ∃ res, scanLoop P (P.processCount + 1) (initialScan P) = some res
      ∧ FindSafeSequence P = some { output := res.output, deadlock := !res.allCompleted } := by
  obtain ⟨res, hres⟩ := scanLoop_total P (P.processCount + 1) (initialScan P)
    (by have := uncompleted_le P (initialScan P); omega)
  exact ⟨res, hres, by simp only [FindSafeSequence, hres]⟩

/-- The state in which the loop ends, where no sum overflows. -/
theorem scan_result (P : Parameters) (hno : NoOverflow P) (fuel : Nat) (res : Scan)
    (h : scanLoop P fuel (initialScan P) = some res) :
    Good P res
      ∧ (res.allCompleted = true ↔ ∀ p, p < P.processCount → p ∈ sequenced res.output)
      ∧ (∀ p, p < P.processCount → p ∉ sequenced res.output →
          ¬ CanRun P (sequenced res.output) p) := by
  obtain ⟨st1, hg1, hres, hq⟩ := scanLoop_spec P hno fuel _ res (good_initial P) h
  have hgres : Good P res := by rw [hres]; exact pass_good P hno st1 hg1
  obtain ⟨_, _, hflag1, hav1, _⟩ := hg1
  rw [hres] at hq
  unfold pass at hq hres
  obtain ⟨_, _, h3, h4⟩ := foldl_quiet P _ _ hq
  have hall := foldl_allCompleted P (List.range P.processCount)
    { st1 with
      allCompleted := (List.range P.processCount).all (fun p => st1.completed p)
      anyCompleted := false }
  rw [← hres] at h3 hall
  simp only at h3 h4 hall
  refine ⟨hgres, ?_, ?_⟩
  · rw [hall, List.all_eq_true, h3]
    constructor
    · intro hp p hlt
      exact (hflag1 p).mp (hp p (List.mem_range.mpr hlt))
    · intro hp p hmem
      exact (hflag1 p).mpr (hp p (List.mem_range.mp hmem))
  · intro p hlt hnot hcan
    rw [h3] at hnot hcan
    have hc : st1.completed p = false := by
      cases hsq : st1.completed p with
      | false => rfl
      | true => exact absurd ((hflag1 p).mp hsq) hnot
    have hk := h4 p (List.mem_range.mpr hlt) hc
    have hk1 : checkResources P st1.availableLocal p (List.range P.resourceCount) = true := by
      rw [checkResources_eq]
      intro r hr
      rw [hav1 r (List.mem_range.mp hr)]
      exact hcan r (List.mem_range.mp hr)
    rw [hk1] at hk
    cases hk

/-- Where no sum of line 399 overflows, the safety check is exact:
`FindSafeSequence` returns, and it prints "Deadlock reached!" if and only if
no ordering of all the processes lets each process run with the available
vector plus the allocated vectors of the processes before it; the processes
it prints as safely sequenced, in the order of printing, each could run after
the ones printed before, and when no deadlock is printed they are such an
ordering of all the processes. -/
theorem scan_exact_of_noOverflow (P : Parameters) (hno : NoOverflow P) :
    ∃ report, FindSafeSequence P = some report
      ∧ (report.deadlock = true ↔ ¬ ∃ order, SafeOrdering P order)
      ∧ SafeFrom P [] (sequenced report.output)
      ∧ (report.deadlock = false → SafeOrdering P (sequenced report.output)) := by
  obtain ⟨res, hres, hfind⟩ := findSafeSequence_total P
  have halloc := hno.1
  obtain ⟨hg, hall, hstuck⟩ := scan_result P hno _ res hres
  obtain ⟨hnd, hlt, _, _, hsafe⟩ := hg
  have hordering : res.allCompleted = true → SafeOrdering P (sequenced res.output) := by
    intro hc
    refine ⟨?_, hsafe⟩
    rw [List.perm_ext_iff_of_nodup hnd (List.nodup_range _)]
    intro a
    constructor
    · intro ha; exact List.mem_range.mpr (hlt a ha)
    · intro ha; exact hall.mp hc a (List.mem_range.mp ha)
  refine ⟨_, hfind, ?_, hsafe, ?_⟩
  · simp only [Bool.not_eq_true', Bool.not_eq_eq_eq_not, Bool.not_true]
    constructor
    · intro hdead hex
      obtain ⟨order, hperm, hord⟩ := hex
      have hin := safe_subset P halloc (sequenced res.output) hnd hlt hstuck order []
        (by simp) (by simpa using hperm.nodup_iff.mpr (List.nodup_range _))
        (fun x hx => List.mem_range.mp (hperm.mem_iff.mp hx)) hord
      have hc : res.allCompleted = true :=
        hall.mpr (fun p hp => hin p (hperm.mem_iff.mpr (List.mem_range.mpr hp)))
      rw [hc] at hdead
      cases hdead
    · intro hno
      cases hc : res.allCompleted with
      | false => rfl
      | true => exact absurd ⟨_, hordering hc⟩ hno
  · intro hdead
    apply hordering
    simpa using hdead

/-! ## The claims on `FindSafeSequence` -/

/-- C27 ("Deadlock reached!" is printed if and only if no ordering of the
processes is safe) fails on the code.  With 2147483647 units available,
process 0 holding 1000 and needing none, process 1 holding none and needing 5,
the ordering 0, 1 is safe.  `FindSafeSequence` sequences process 0 and adds
its 1000 units to `availableLocal` (line 399); the 32-bit sum wraps around to
-2147482649, so process 1 is found to need more than is available in both
passes and "Deadlock reached!" is printed.  The same happens with 3 units
available and two processes that each hold 2147483647 units and need none. -/
theorem deadlock_reported_for_safe_configuration :
    (∀ p, p < exampleOverflow.processCount →
        ∀ r, r < exampleOverflow.resourceCount → 0 ≤ exampleOverflow.allocated p r)
      ∧ SafeOrdering exampleOverflow [0, 1]
      ∧ wrap32 (exampleOverflow.available 0 + exampleOverflow.allocated 0 0) = -2147482649
      ∧ FindSafeSequence exampleOverflow
          = some ⟨[(0, true), (1, false), (1, false)], true⟩
      ∧ (∀ p, p < exampleOverflowFull.processCount →
          ∀ r, r < exampleOverflowFull.resourceCount → 0 ≤ exampleOverflowFull.allocated p r)
      ∧ SafeOrdering exampleOverflowFull [0, 1]
      ∧ FindSafeSequence exampleOverflowFull
          = some ⟨[(0, true), (1, false), (1, false)], true⟩ := by
  refine ⟨by decide, ⟨by decide, ?_, ?_, trivial⟩, by decide, by decide,
    by decide, ⟨by decide, ?_, ?_, trivial⟩, by decide⟩
  all_goals
    intro r hr
    have hr0 : r = 0 := by
      have : r < 1 := hr
      omega
    subst hr0
    decide

/-- C28: termination of the scan.  Whatever the values of the local
variables at the start of a pass of the `do ... while` loop, the pass unflags
no completed process, and when it ends with `anyCompleted` set (so that the
loop goes on) fewer processes are uncompleted than before it.  Hence the loop
started with more fuel than there are uncompleted processes ends, and
`FindSafeSequence`, which runs at most `processCount + 1` passes, returns. -/
theorem scan_terminates (P : Parameters) :
    (∀ st : Scan,
        (∀ q, st.completed q = true → (pass P st).completed q = true)
          ∧ ((pass P st).anyCompleted = true →
              uncompleted P (pass P st) < uncompleted P st))
      ∧ (∀ (fuel : Nat) (st : Scan), uncompleted P st < fuel →
          ∃ res, scanLoop P fuel st = some res)
      ∧ uncompleted P (initialScan P) < P.processCount + 1
      ∧ ∃ report, FindSafeSequence P = some report := by
  refine ⟨pass_marks P, scanLoop_total P, ?_, ?_⟩
  · have := uncompleted_le P (initialScan P)
    omega
  · obtain ⟨res, _, hfind⟩ := findSafeSequence_total P
    exact ⟨_, hfind⟩

/-- Witness for C28: in the textbook example five processes are uncompleted
at the start, two after the first pass and none after the second; the third
pass sequences nothing and the loop ends. -/
theorem scan_terminates_witness :
    uncompleted exampleSafe (initialScan exampleSafe) = 5
      ∧ uncompleted exampleSafe (pass exampleSafe (initialScan exampleSafe)) = 2
      ∧ uncompleted exampleSafe
          (pass exampleSafe (pass exampleSafe (initialScan exampleSafe))) = 0
      ∧ (pass exampleSafe (pass exampleSafe
          (pass exampleSafe (initialScan exampleSafe)))).anyCompleted = false
      ∧ ((pass exampleSafe (initialScan exampleSafe)).anyCompleted = true →
          uncompleted exampleSafe (pass exampleSafe (initialScan exampleSafe))
            < uncompleted exampleSafe (initialScan exampleSafe))
      ∧ ∃ report, FindSafeSequence exampleSafe = some report :=
  ⟨by decide, by decide, by decide, by decide,
   ((scan_terminates exampleSafe).1 (initialScan exampleSafe)).2,
   (scan_terminates exampleSafe).2.2.2⟩

end BankersAlgorithm
